import Mathlib

/-! Plan-diff engine of gitlab-terraform-mr-commenter

A shallow embedding of `internal/terraform/plan.go` and theorems about it.

Modelling conventions
* Go `interface{}` values decoded from a plan document are values of `JValue`
  (`JValue.null` is the Go `nil` interface).  A number leaf is a finite
  `float64`: its value as a rational and, for a zero, its sign.
* A Go `map[string]interface{}` is an association list read with
  `List.lookup`; the order of the list stands for the iteration order of the
  map.
* A call that returns `(T, error)` has an `Outcome T`: a value, an error, or
  the run-time panic of a nil dereference.  A call without an error result
  has an `Option`, `none` being the panic.  `LoadPlan` is a function from a
  path to an `Except String Plan`.
* Go compares strings bytewise; on UTF-8 text that is the lexicographic
  order of the code points, `strLt`.
* A pointer that may be nil is an `Option`: a `*tfjson.ResourceChange` is an
  `Option ResourceChange`, and the `Change` pointer of a record is an
  `Option Change`, nil when the document has no `change` for the record.
* `sort.Slice` is a parameter `sortSlice`: its result is some rearrangement
  in non-decreasing order, and the order among equal addresses is open.
-/

namespace Terraform

/-! ## Dynamic values -/

/-- A finite `float64`: its value and, when the value is zero, whether it is
the negative zero (which equals zero and is written `-0`). -/
structure JNumber where
  value : ℚ
  negativeZero : Bool

/-- Dynamic value held by a Go `interface{}` after JSON decoding. -/
inductive JValue where
  | null : JValue
  | bool (b : Bool) : JValue
  | num (n : JNumber) : JValue
  | str (s : String) : JValue
  | arr (items : List JValue) : JValue
  | obj (fields : List (String × JValue)) : JValue

/-- Go `map[string]interface{}`. -/
abbrev JMap := List (String × JValue)

/-- Type assertion `v.(map[string]interface{})` with its `ok` flag. -/
def asMap : JValue → Option JMap
  | .obj fields => some fields
  | _ => none

mutual
/-- Structural equality of `reflect.DeepEqual` on decoded values: same dynamic
type, equal leaves, sequences equal position by position, mappings of the
same size with deep-equal values under every key of the first. -/
def deepEqual : JValue → JValue → Bool
  | .null, .null => true
  | .bool a, .bool b => a == b
  | .num a, .num b => a.value == b.value
  | .str a, .str b => a == b
  | .arr xs, .arr ys => deepEqualList xs ys
  | .obj xs, .obj ys => xs.length == ys.length && deepEqualFields xs ys
  | _, _ => false
/-- Position-wise comparison of two sequences. -/
def deepEqualList : List JValue → List JValue → Bool
  | [], [] => true
  | x :: xs, y :: ys => deepEqual x y && deepEqualList xs ys
  | _, _ => false
/-- Every entry of the first mapping has a deep-equal entry in the second. -/
def deepEqualFields : List (String × JValue) → List (String × JValue) → Bool
  | [], _ => true
  | (k, v) :: rest, ys =>
    (match ys.lookup k with
      | some v2 => deepEqual v v2
      | none => false) && deepEqualFields rest ys
end

/-- Outcome of a call that returns `(T, error)`: the value, the error, or a
run-time panic. -/
inductive Outcome (α : Type) where
  | ok (value : α) : Outcome α
  | error (message : String) : Outcome α
  | panic : Outcome α

/-! ## String order -/

/-- Lexicographic order on code-point sequences. -/
def lexLt : List Char → List Char → Bool
  | _, [] => false
  | [], _ :: _ => true
  | a :: as, b :: bs =>
    if a.toNat < b.toNat then true
    else if a.toNat = b.toNat then lexLt as bs
    else false

/-- Go `a < b` on strings. -/
def strLt (a b : String) : Bool := lexLt a.data b.data

/-- Go `a <= b` on strings, as the relation a sort arranges by. -/
def strLe (a b : String) : Prop := strLt b a = false

instance : DecidableRel strLe := fun a b => inferInstanceAs (Decidable (strLt b a = false))

/-- `sort.Strings`: the keys in ascending order. -/
def sortStrings (keys : List String) : List String :=
  List.insertionSort strLe keys

/-! ## Constants -/

/-- `tfjson.Action` is a string type. -/
abbrev Action := String

def tfActionNoop : Action := "no-op"
def tfActionCreate : Action := "create"
def tfActionRead : Action := "read"
def tfActionUpdate : Action := "update"
def tfActionDelete : Action := "delete"

/-- `ActionType` is a string type. -/
abbrev ActionType := String

def ActionCreate : ActionType := "create"
def ActionUpdate : ActionType := "update"
def ActionRecreate : ActionType := "recreate"
def ActionDelete : ActionType := "delete"

/-- `DiffAction` is a string type. -/
abbrev DiffAction := String

def DiffAdded : DiffAction := "added"
def DiffRemoved : DiffAction := "removed"
def DiffChanged : DiffAction := "changed"

/-- Redaction marker written over sensitive values. -/
def sensitiveMarker : JValue := .str "[SENSITIVE]"

/-! ## Change classifier -/

/-- The three presence flags of `determineChangeType`. -/
structure ActionFlags where
  create : Bool
  delete : Bool
  update : Bool

/-- Body of the `for _, action := range actions` loop. -/
def flagStep (f : ActionFlags) (action : Action) : ActionFlags :=
  if action = tfActionCreate then ⟨true, f.delete, f.update⟩
  else if action = tfActionDelete then ⟨f.create, true, f.update⟩
  else if action = tfActionUpdate then ⟨f.create, f.delete, true⟩
  else f

/-- The flags after the loop over the actions. -/
def scanActions (actions : List Action) : ActionFlags :=
  actions.foldl flagStep ⟨false, false, false⟩

def determineChangeType (actions : List Action) : ActionType :=
  let f := scanActions actions
  if f.create && !f.delete && !f.update then ActionCreate
  else if !f.create && f.delete && !f.update then ActionDelete
  else if f.create && f.delete && !f.update then ActionRecreate
  else if !f.create && !f.delete && f.update then ActionUpdate
  else ActionUpdate

/-! ## Resource-change records -/

/-- The fields of `tfjson.Change` that the engine reads. -/
structure Change where
  Actions : List Action
  Before : JValue
  After : JValue
  BeforeSensitive : JValue
  AfterSensitive : JValue

/-- The fields of `tfjson.ResourceChange` that the engine reads; `Change` is
a pointer, nil when the document has no `change` for the record. -/
structure ResourceChange where
  Address : String
  Change : Option Change

/-- The plan document; a nil `ResourceChanges` slice is `none`, and an element
of the slice is a pointer that may be nil. -/
structure Plan where
  ResourceChanges : Option (List (Option ResourceChange))

/-! ## Sensitivity resolver -/

mutual
def isAnySensitive : JValue → Bool
  | .bool v => v
  | .arr v => anySensitiveItem v
  | .obj v => anySensitiveField v
  | _ => false
/-- The loop `for _, item := range v` over a sequence. -/
def anySensitiveItem : List JValue → Bool
  | [] => false
  | item :: rest => if isAnySensitive item then true else anySensitiveItem rest
/-- The loop `for _, item := range v` over a mapping. -/
def anySensitiveField : List (String × JValue) → Bool
  | [] => false
  | (_, item) :: rest => if isAnySensitive item then true else anySensitiveField rest
end

/-- The loop of `isValueSensitive` over the sensitivity snapshots: the first
snapshot that is a mapping holding the field decides. -/
def sensitiveIn (fieldName : String) : List JValue → Bool
  | [] => false
  | sensitive :: rest =>
    match asMap sensitive with
    | some sensitiveMap =>
      match sensitiveMap.lookup fieldName with
      | some isSensitive => isAnySensitive isSensitive
      | none => sensitiveIn fieldName rest
    | none => sensitiveIn fieldName rest

/-- `isValueSensitive`; reading the sensitivity snapshots dereferences the
`Change` pointer of the record. -/
def isValueSensitive (resource : ResourceChange) (fieldName : String) : Option Bool :=
  match resource.Change with
  | none => none
  | some change => some (sensitiveIn fieldName [change.AfterSensitive, change.BeforeSensitive])

/-! ## Field diff generator -/

/-- The Go field `Type` is `DiffType` here (`Type` being a reserved word). -/
structure DiffLine where
  Key : String
  Before : JValue
  After : JValue
  DiffType : DiffAction

def createDiffLine (key : String) (before after : JValue) (diffType : DiffAction) : DiffLine :=
  ⟨key, before, after, diffType⟩

/-- Keys of a mapping in its iteration order. -/
def mapKeys (m : JMap) : List String := m.map Prod.fst

/-- Statement `keySet[key] = struct{}{}` run over a list of keys. -/
def addKeys (keySet : List String) (keys : List String) : List String :=
  keys.foldl (fun set key => if key ∈ set then set else set ++ [key]) keySet

def collectUniqueKeys (beforeMap afterMap : JMap) : List String :=
  let keySet := addKeys (addKeys [] (mapKeys beforeMap)) (mapKeys afterMap)
  sortStrings keySet

/-- Index expression `v, ok := m[key]`: the value, or nil when absent. -/
def mapValue (m : JMap) (key : String) : JValue := (m.lookup key).getD .null

/-- The `ok` flag of `v, ok := m[key]`. -/
def mapHas (m : JMap) (key : String) : Bool := (m.lookup key).isSome

/-- Test `resource != nil && dg.isValueSensitive(resource, key)`. -/
def redacted (resource : Option ResourceChange) (key : String) : Option Bool :=
  match resource with
  | none => some false
  | some r => isValueSensitive r key

/-- Body of the loop of `GenerateDiff` for one key, from the replacement of
the two values on: `sensitive` is the result of the sensitivity test. -/
def diffEntry (sensitive : Bool) (beforeMap afterMap : JMap)
    (diffs : List DiffLine) (key : String) : List DiffLine :=
  let beforeExists := mapHas beforeMap key
  let afterExists := mapHas afterMap key
  let beforeVal := if sensitive then sensitiveMarker else mapValue beforeMap key
  let afterVal := if sensitive then sensitiveMarker else mapValue afterMap key
  if !beforeExists && afterExists then
    diffs ++ [createDiffLine key .null afterVal DiffAdded]
  else if beforeExists && !afterExists then
    diffs ++ [createDiffLine key beforeVal .null DiffRemoved]
  else if !deepEqual beforeVal afterVal then
    diffs ++ [createDiffLine key beforeVal afterVal DiffChanged]
  else diffs

/-- Body of the loop of `GenerateDiff` for one key. -/
def diffStep (resource : Option ResourceChange) (beforeMap afterMap : JMap)
    (diffs : List DiffLine) (key : String) : Option (List DiffLine) :=
  match redacted resource key with
  | none => none
  | some sensitive => some (diffEntry sensitive beforeMap afterMap diffs key)

/-- The loop of `GenerateDiff` over the keys. -/
def diffLoop (resource : Option ResourceChange) (beforeMap afterMap : JMap) :
    List String → List DiffLine → Option (List DiffLine)
  | [], diffs => some diffs
  | key :: rest, diffs =>
    match diffStep resource beforeMap afterMap diffs key with
    | none => none
    | some next => diffLoop resource beforeMap afterMap rest next

def GenerateDiff (resource : Option ResourceChange) (beforeMap afterMap : JMap) :
    Option (List DiffLine) :=
  diffLoop resource beforeMap afterMap (collectUniqueKeys beforeMap afterMap) []

/-! ## Plan aggregator -/

structure ResourceData where
  Address : String
  ChangeType : ActionType
  Diffs : List DiffLine

structure PlanData where
  HasChanges : Bool
  CreatedResources : List ResourceData
  UpdatedResources : List ResourceData
  RecreatedResources : List ResourceData
  DeletedResources : List ResourceData

structure ChangeCategories where
  Created : List ResourceChange
  Updated : List ResourceChange
  Recreated : List ResourceChange
  Deleted : List ResourceChange

/-- Body of the loop of `categorizeChanges` for one record, with the action
list of its change at hand. -/
def fileRecord (categories : ChangeCategories) (change : ResourceChange)
    (actions : List Action) : ChangeCategories :=
  if actions.length = 0 then categories
  else
    let changeType := determineChangeType actions
    if changeType = ActionCreate then
      ⟨categories.Created ++ [change], categories.Updated, categories.Recreated,
        categories.Deleted⟩
    else if changeType = ActionUpdate then
      ⟨categories.Created, categories.Updated ++ [change], categories.Recreated,
        categories.Deleted⟩
    else if changeType = ActionRecreate then
      ⟨categories.Created, categories.Updated, categories.Recreated ++ [change],
        categories.Deleted⟩
    else if changeType = ActionDelete then
      ⟨categories.Created, categories.Updated, categories.Recreated,
        categories.Deleted ++ [change]⟩
    else categories

/-- Body of the loop of `categorizeChanges` for one element of the list:
`change.Change.Actions` dereferences the element and its `Change` pointer. -/
def categorizeStep (categories : ChangeCategories) (change : Option ResourceChange) :
    Option ChangeCategories :=
  match change with
  | none => none
  | some record =>
    match record.Change with
    | none => none
    | some c => some (fileRecord categories record c.Actions)

/-- The loop of `categorizeChanges`. -/
def categorizeLoop : List (Option ResourceChange) → ChangeCategories → Option ChangeCategories
  | [], categories => some categories
  | change :: rest, categories =>
    match categorizeStep categories change with
    | none => none
    | some next => categorizeLoop rest next

/-- `categorizeChanges`; the categories hold the records that the loop has
dereferenced. -/
def categorizeChanges (resourceChanges : List (Option ResourceChange)) :
    Option ChangeCategories :=
  categorizeLoop resourceChanges ⟨[], [], [], []⟩

/-- The order `changes[i].Address <= changes[j].Address` that the sort of
`buildPlanData` arranges by. -/
def addrLe (x y : ResourceChange) : Prop := strLe x.Address y.Address

instance : DecidableRel addrLe := fun x y => inferInstanceAs (Decidable (strLe x.Address y.Address))

/-- Type assertion to a mapping in `buildResourceData`, a nil result replaced
by the empty mapping. -/
def mapOrEmpty (v : JValue) : JMap := (asMap v).getD []

/-- Body of the loop of `buildResourceData` for one record;
`resource.Change.Before` dereferences the `Change` pointer. -/
def buildResourceEntry (changeType : ActionType) (resource : ResourceChange) :
    Option ResourceData :=
  match resource.Change with
  | none => none
  | some change =>
    let beforeMap := mapOrEmpty change.Before
    let afterMap := mapOrEmpty change.After
    match GenerateDiff (some resource) beforeMap afterMap with
    | none => none
    | some diffs => some ⟨resource.Address, changeType, diffs⟩

def buildResourceData : List ResourceChange → ActionType → Option (List ResourceData)
  | [], _ => some []
  | resource :: rest, changeType =>
    match buildResourceEntry changeType resource with
    | none => none
    | some entry =>
      match buildResourceData rest changeType with
      | none => none
      | some entries => some (entry :: entries)

/-- `buildPlanData`; `sortSlice` stands for the closure `sortResourceChanges`,
that is `sort.Slice` with the order of the addresses. -/
def buildPlanData (sortSlice : List ResourceChange → List ResourceChange)
    (changes : ChangeCategories) : Option PlanData :=
  let created := sortSlice changes.Created
  let updated := sortSlice changes.Updated
  let recreated := sortSlice changes.Recreated
  let deleted := sortSlice changes.Deleted
  match buildResourceData created ActionCreate with
  | none => none
  | some createdResources =>
    match buildResourceData updated ActionUpdate with
    | none => none
    | some updatedResources =>
      match buildResourceData recreated ActionRecreate with
      | none => none
      | some recreatedResources =>
        match buildResourceData deleted ActionDelete with
        | none => none
        | some deletedResources =>
          some ⟨decide (created.length > 0) || decide (updated.length > 0)
              || decide (recreated.length > 0) || decide (deleted.length > 0),
            createdResources, updatedResources, recreatedResources, deletedResources⟩

/-- Message of `constants.ErrTerraformPlanEmpty` formatted with "unknown". -/
def errTerraformPlanEmpty : String :=
  "terraform plan unknown appears to be incomplete or in wrong format"

def ProcessPlan (sortSlice : List ResourceChange → List ResourceChange) (plan : Plan) :
    Outcome PlanData :=
  match plan.ResourceChanges with
  | none => .error errTerraformPlanEmpty
  | some resourceChanges =>
    match categorizeChanges resourceChanges with
    | none => .panic
    | some categories =>
      match buildPlanData sortSlice categories with
      | none => .panic
      | some planData => .ok planData

/-! ## Multi-plan aggregator -/

structure PlanIdentifier where
  Name : String
  FilePath : String
  Index : Nat

structure PlanWithIdentifier where
  Identifier : PlanIdentifier
  Data : PlanData

structure MultiPlanData where
  HasChanges : Bool
  Plans : List PlanWithIdentifier

/-- Function `strings.Split` on a one-character separator. -/
def stringsSplit (sep : Char) : List Char → List (List Char)
  | [] => [[]]
  | c :: cs =>
    if c = sep then [] :: stringsSplit sep cs
    else
      match stringsSplit sep cs with
      | [] => [[c]]
      | part :: parts => (c :: part) :: parts

def extractPlanName (filePath : String) : String :=
  if filePath = "" then "unknown"
  else
    let parts := stringsSplit '/' filePath.data
    match parts.getLast? with
    | none => filePath
    | some fileName =>
      if ".json".data.isSuffixOf fileName then
        String.mk (fileName.take (fileName.length - 5))
      else String.mk fileName

/-- The loop of `ProcessMultiplePlans` from position `i` on, `load` standing
for `LoadPlan`; the result so far is handed on, and an error or a panic
leaves the loop at once. -/
def processPlansFrom (sortSlice : List ResourceChange → List ResourceChange)
    (load : String → Except String Plan) :
    List String → Nat → MultiPlanData → Outcome MultiPlanData
  | [], _, multiPlanData => .ok multiPlanData
  | planFile :: rest, i, multiPlanData =>
    match load planFile with
    | .error err => .error ("error loading plan file " ++ planFile ++ ": " ++ err)
    | .ok plan =>
      match ProcessPlan sortSlice plan with
      | .panic => .panic
      | .error err => .error ("error processing plan file " ++ planFile ++ ": " ++ err)
      | .ok planData =>
        processPlansFrom sortSlice load rest (i + 1)
          ⟨if planData.HasChanges then true else multiPlanData.HasChanges,
            multiPlanData.Plans ++ [⟨⟨extractPlanName planFile, planFile, i⟩, planData⟩]⟩

def ProcessMultiplePlans (sortSlice : List ResourceChange → List ResourceChange)
    (load : String → Except String Plan) (planFiles : List String) :
    Outcome MultiPlanData :=
  if planFiles.length = 0 then .error "no plan files provided"
  else processPlansFrom sortSlice load planFiles 0 ⟨false, []⟩

/-! ## Rendering of diff entries -/

/-- Hexadecimal digit of a number below sixteen, lower case. -/
def hexDigit (n : Nat) : Char :=
  "0123456789abcdef".data.getD n '0'

/-- Modelled library: the escape `encoding/json` writes for one character of
a string, HTML escaping switched on as `json.Marshal` has it, backspace and
form feed in the short forms of current releases. -/
def jsonEscapeChar (c : Char) : String :=
  if c = '\\' then "\\\\"
  else if c = '"' then "\\\""
  else if c.toNat = 8 then "\\b"
  else if c.toNat = 12 then "\\f"
  else if c = '\n' then "\\n"
  else if c = '\r' then "\\r"
  else if c = '\t' then "\\t"
  else if c.toNat < 32 ∨ c = '<' ∨ c = '>' ∨ c = '&' then
    String.mk ['\\', 'u', '0', '0', hexDigit (c.toNat / 16), hexDigit (c.toNat % 16)]
  else if c.toNat = 0x2028 then "\\u2028"
  else if c.toNat = 0x2029 then "\\u2029"
  else String.mk [c]

/-- Modelled library: a string as `encoding/json` writes it. -/
def jsonString (s : String) : String :=
  "\"" ++ String.join (s.data.map jsonEscapeChar) ++ "\""

/-- Entries of a mapping ordered by key, as `encoding/json` writes them. -/
def sortByKey (fields : List (String × String)) : List (String × String) :=
  List.insertionSort (fun x y => strLe x.1 y.1) fields

/-- Modelled library: a number as `encoding/json` writes it: `0` and `-0`
for the two zeros, and the text `fmtNum` of the value otherwise. -/
def jsonNumber (fmtNum : ℚ → String) (n : JNumber) : String :=
  if n.value = 0 then (if n.negativeZero then "-0" else "0") else fmtNum n.value

mutual
/-- Modelled library: `json.Marshal` of a decoded value, in compact form;
`fmtNum` is the text it writes for a number other than zero. -/
def jsonMarshal (fmtNum : ℚ → String) : JValue → String
  | .null => "null"
  | .bool b => if b then "true" else "false"
  | .num n => jsonNumber fmtNum n
  | .str s => jsonString s
  | .arr items => "[" ++ String.intercalate "," (jsonMarshalItems fmtNum items) ++ "]"
  | .obj fields =>
    "\x7b" ++ String.intercalate ","
      ((sortByKey (jsonMarshalFields fmtNum fields)).map
        (fun kv => jsonString kv.1 ++ ":" ++ kv.2)) ++ "\x7d"
/-- The elements of a sequence, each marshalled. -/
def jsonMarshalItems (fmtNum : ℚ → String) : List JValue → List String
  | [] => []
  | v :: rest => jsonMarshal fmtNum v :: jsonMarshalItems fmtNum rest
/-- The entries of a mapping, each value marshalled. -/
def jsonMarshalFields (fmtNum : ℚ → String) : List (String × JValue) → List (String × String)
  | [] => []
  | (k, v) :: rest => (k, jsonMarshal fmtNum v) :: jsonMarshalFields fmtNum rest
end

/-- `formatValue`; marshalling a decoded value does not fail, so the fallback
of the source is not reached. -/
def formatValue (fmtNum : ℚ → String) (value : JValue) : String :=
  match value with
  | .null => "null"
  | v => jsonMarshal fmtNum v

/-- Body of the loop of `FormattedDiffs` for one entry. -/
def formatStep (fmtNum : ℚ → String) (formatted : List String) (diff : DiffLine) :
    List String :=
  if diff.DiffType = DiffAdded then
    formatted ++ ["+" ++ diff.Key ++ ": " ++ formatValue fmtNum diff.After]
  else if diff.DiffType = DiffRemoved then
    formatted ++ ["-" ++ diff.Key ++ ": " ++ formatValue fmtNum diff.Before]
  else if diff.DiffType = DiffChanged then
    formatted ++ ["-" ++ diff.Key ++ ": " ++ formatValue fmtNum diff.Before,
      "+" ++ diff.Key ++ ": " ++ formatValue fmtNum diff.After]
  else formatted

def FormattedDiffs (fmtNum : ℚ → String) (rd : ResourceData) : List String :=
  rd.Diffs.foldl (formatStep fmtNum) []

/-! ## Comment body -/

def TerraformPlansSummary : String := "## Terraform Plan Summary"

def NoChangesMessage : String := "No changes detected."

/-- `loadAndProcessPlans` of the command; `formatPlan` stands for
`formatter.FormatPlan`, whose template is not part of the sources. -/
def loadAndProcessPlans (formatPlan : MultiPlanData → Except String String)
    (sortSlice : List ResourceChange → List ResourceChange)
    (load : String → Except String Plan) (planFiles : List String) : Outcome String :=
  match ProcessMultiplePlans sortSlice load planFiles with
  | .panic => .panic
  | .error err => .error ("error processing terraform plans: " ++ err)
  | .ok multiPlanData =>
    if multiPlanData.HasChanges then
      match formatPlan multiPlanData with
      | .error err => .error ("error formatting plans: " ++ err)
      | .ok commentBody => .ok commentBody
    else .ok NoChangesMessage

/-! ## GitLab client -/

/-- The bytes of a string, which Go's `len` and slicing count. -/
def goBytes (s : String) : List UInt8 := s.data.flatMap String.utf8EncodeChar

/-- The test `hasPlanSummary` of `FindExistingPlanNote` on the body of a note. -/
def hasPlanSummary (body : String) : Bool :=
  decide ((goBytes body).length ≥ (goBytes TerraformPlansSummary).length) &&
    decide ((goBytes body).take (goBytes TerraformPlansSummary).length =
      goBytes TerraformPlansSummary)

/-- Modelled library: `unicode.IsSpace`, the White_Space property. -/
def isSpace (c : Char) : Bool :=
  let n := c.toNat
  decide ((9 ≤ n ∧ n ≤ 13) ∨ n = 0x20 ∨ n = 0x85 ∨ n = 0xA0 ∨ n = 0x1680 ∨
    (0x2000 ≤ n ∧ n ≤ 0x200A) ∨ n = 0x2028 ∨ n = 0x2029 ∨ n = 0x202F ∨ n = 0x205F ∨
    n = 0x3000)

/-- Modelled library: `strings.Fields`, the maximal runs of characters that
are not white space. -/
def stringsFields : List Char → List (List Char)
  | [] => []
  | c :: cs =>
    if isSpace c then stringsFields cs
    else
      match cs with
      | [] => [[c]]
      | d :: _ =>
        if isSpace d then [c] :: stringsFields cs
        else
          match stringsFields cs with
          | [] => [[c]]
          | field :: fields => (c :: field) :: fields

/-- Modelled library: `strings.Join`. -/
def stringsJoin (sep : List Char) : List (List Char) → List Char
  | [] => []
  | [x] => x
  | x :: y :: rest => x ++ sep ++ stringsJoin sep (y :: rest)

/-- The closure `normalizeContent` of `ShouldUpdateNote`. -/
def normalizeContent (s : String) : String :=
  String.mk (stringsJoin [' '] (stringsFields s.data))

/-- Modelled library: the test of `strings.EqualFold` on one pair of runes;
`orbit sr tr` says that the `unicode.SimpleFold` orbit of `sr` reaches `tr`. -/
def runeEqualFold (orbit : Char → Char → Bool) (x y : Char) : Bool :=
  let sr := if y.toNat < x.toNat then y else x
  let tr := if y.toNat < x.toNat then x else y
  if tr = sr then true
  else if tr.toNat < 128 then
    decide (65 ≤ sr.toNat ∧ sr.toNat ≤ 90 ∧ tr.toNat = sr.toNat + 32)
  else orbit sr tr

/-- Modelled library: `strings.EqualFold`, rune by rune. -/
def EqualFold (orbit : Char → Char → Bool) : List Char → List Char → Bool
  | [], [] => true
  | x :: xs, y :: ys => runeEqualFold orbit x y && EqualFold orbit xs ys
  | _, _ => false

def ShouldUpdateNote (orbit : Char → Char → Bool) (existingBody newBody : String) : Bool :=
  !EqualFold orbit (normalizeContent existingBody).data (normalizeContent newBody).data

/-- The fields of a note of the merge request that the client reads. -/
structure Note where
  ID : Int
  Body : String
  Internal : Bool

structure MRNote where
  ID : String
  Body : String
  Exists : Bool

/-- Slice expression `s[:n]` on the bytes of a string; `none` is the run-time
panic of a bound past the end. -/
def sliceTo (s : List UInt8) (n : Nat) : Option (List UInt8) :=
  if n ≤ s.length then some (s.take n) else none

/-- The test `hasPlanSummary` of `FindExistingPlanNote` with its slice
expression; the right operand of `&&` is evaluated only when the left one
holds. -/
def planSummaryTest (body : String) : Option Bool :=
  if (goBytes body).length ≥ (goBytes TerraformPlansSummary).length then
    (sliceTo (goBytes body) (goBytes TerraformPlansSummary).length).map
      (fun head => decide (head = goBytes TerraformPlansSummary))
  else some false

/-- `FindExistingPlanNote` on the notes that the listing returned; the ID is
written with `%d`. -/
def FindExistingPlanNote : List Note → Option MRNote
  | [] => some ⟨"", "", false⟩
  | note :: rest =>
    if !note.Internal then FindExistingPlanNote rest
    else
      match planSummaryTest note.Body with
      | none => none
      | some true => some ⟨toString note.ID, note.Body, true⟩
      | some false => FindExistingPlanNote rest

/-! ## Notions used to state the claims -/

/-- A boolean true leaf lies in the value, reached through sequences and
mappings only. -/
inductive HasTrueLeaf : JValue → Prop
  | leaf : HasTrueLeaf (.bool true)
  | inArr (items : List JValue) (v : JValue) : v ∈ items → HasTrueLeaf v →
      HasTrueLeaf (.arr items)
  | inObj (fields : List (String × JValue)) (k : String) (v : JValue) : (k, v) ∈ fields →
      HasTrueLeaf v → HasTrueLeaf (.obj fields)

mutual
/-- The value is one that a Go program holds after decoding: no mapping in
it, at any depth, has the same key twice. -/
def wellFormed : JValue → Bool
  | .arr items => wellFormedItems items
  | .obj fields => decide ((fields.map Prod.fst).Nodup) && wellFormedFields fields
  | _ => true
/-- Every element of the sequence is well formed. -/
def wellFormedItems : List JValue → Bool
  | [] => true
  | v :: rest => wellFormed v && wellFormedItems rest
/-- Every value of the mapping is well formed. -/
def wellFormedFields : List (String × JValue) → Bool
  | [] => true
  | (_, v) :: rest => wellFormed v && wellFormedFields rest
end

/-- The kind of an entry with before and after exchanged. -/
def mirrorType (t : DiffAction) : DiffAction :=
  if t = DiffAdded then DiffRemoved
  else if t = DiffRemoved then DiffAdded
  else t

/-- An entry with before and after exchanged. -/
def mirrorLine (d : DiffLine) : DiffLine :=
  ⟨d.Key, d.After, d.Before, mirrorType d.DiffType⟩

/-- The element of a record list is a record that carries its change. -/
def hasChange (change : Option ResourceChange) : Bool :=
  match change with
  | none => false
  | some record => record.Change.isSome

/-- The action list of a record; empty for a record without change. -/
def actionsOf (record : ResourceChange) : List Action :=
  match record.Change with
  | none => []
  | some change => change.Actions

/-- The entries that the loop of `GenerateDiff` builds when the sensitivity
test of each key `k` yields `sens k`. -/
def diffLines (sens : String → Bool) (beforeMap afterMap : JMap) : List DiffLine :=
  (collectUniqueKeys beforeMap afterMap).flatMap
    (fun key => diffEntry (sens key) beforeMap afterMap [] key)

/-- The result of the sensitivity test of `GenerateDiff` for a key; false
where the test panics. -/
def sensitiveFlag (resource : Option ResourceChange) (key : String) : Bool :=
  (redacted resource key).getD false

mutual
/-- The two values are the same Go value: equal leaves (two zeros equal when
of the same sign), sequences equal position by position, mappings with the
same entries in whatever order. -/
def sameValue : JValue → JValue → Bool
  | .null, .null => true
  | .bool a, .bool b => a == b
  | .num a, .num b =>
    a.value == b.value && (decide (a.value ≠ 0) || a.negativeZero == b.negativeZero)
  | .str a, .str b => a == b
  | .arr xs, .arr ys => sameItems xs ys
  | .obj xs, .obj ys => xs.length == ys.length && sameFields xs ys
  | _, _ => false
/-- The two sequences hold the same values in the same order. -/
def sameItems : List JValue → List JValue → Bool
  | [], [] => true
  | x :: xs, y :: ys => sameValue x y && sameItems xs ys
  | _, _ => false
/-- Every entry of the first mapping is, with the same value, in the second. -/
def sameFields : List (String × JValue) → List (String × JValue) → Bool
  | [], _ => true
  | (k, v) :: rest, ys =>
    (match ys.lookup k with
      | some v2 => sameValue v v2
      | none => false) && sameFields rest ys
end

/-- The two entries have the same key and kind and hold the same values. -/
def sameLine (d e : DiffLine) : Bool :=
  d.Key == e.Key && d.DiffType == e.DiffType && sameValue d.Before e.Before &&
    sameValue d.After e.After

/-- The two resource arguments have the same sensitivity metadata: both nil,
or both without change, or both with changes whose before- and
after-sensitivity are the same values. -/
def sameSensitivity (r s : Option ResourceChange) : Bool :=
  match r, s with
  | none, none => true
  | some x, some y =>
    match x.Change, y.Change with
    | none, none => true
    | some c, some e =>
      sameValue c.AfterSensitive e.AfterSensitive &&
        sameValue c.BeforeSensitive e.BeforeSensitive
    | _, _ => false
  | _, _ => false

/-- The sensitivity metadata of a resource argument is well formed. -/
def wellFormedSensitivity (r : Option ResourceChange) : Bool :=
  match r with
  | none => true
  | some x =>
    match x.Change with
    | none => true
    | some c => wellFormed c.AfterSensitive && wellFormed c.BeforeSensitive

/-- The records of a record list, its nil elements left out. -/
def recordsOf (resourceChanges : List (Option ResourceChange)) : List ResourceChange :=
  resourceChanges.filterMap id

/-- The records, in their order, that have an action and whose actions
`determineChangeType` files under the type `t`. -/
def classOf (t : ActionType) (records : List ResourceChange) : List ResourceChange :=
  records.filter (fun r =>
    decide (actionsOf r ≠ []) && decide (determineChangeType (actionsOf r) = t))

/-- The file loads to a plan whose record list is not nil and holds only
records that carry their change. -/
def loadsWell (load : String → Except String Plan) (planFile : String) : Prop :=
  ∃ plan rcs, load planFile = .ok plan ∧ plan.ResourceChanges = some rcs ∧
    ∀ x ∈ rcs, hasChange x = true

/-- The file fails to load, or loads to a plan whose record list is nil. -/
def failsToLoad (load : String → Except String Plan) (planFile : String) : Prop :=
  (∃ e, load planFile = .error e) ∨
    ∃ plan, load planFile = .ok plan ∧ plan.ResourceChanges = none

/-- The file loads to a plan whose record list is not nil and holds a nil
element or a record without change. -/
def loadsBroken (load : String → Except String Plan) (planFile : String) : Prop :=
  ∃ plan rcs, load planFile = .ok plan ∧ plan.ResourceChanges = some rcs ∧
    ∃ x ∈ rcs, hasChange x = false

/-! ## Sample records -/

/-- An insertion sort by address: one function that `sort.Slice` with the
order of the addresses can be. -/
def insertionSortByAddress (changes : List ResourceChange) : List ResourceChange :=
  List.insertionSort addrLe changes

/-- A database whose `password` is flagged sensitive in both snapshots and
changes value. -/
def passwordChange : ResourceChange :=
  ⟨"aws_db_instance.main",
    some ⟨["update"],
      .obj [("password", .str "old-secret")],
      .obj [("password", .str "new-secret")],
      .obj [("password", .bool true)],
      .obj [("password", .bool true)]⟩⟩

/-- A record whose `tags` held a sensitive entry before the change and hold
nothing after it: the before-sensitivity marks the entry, the
after-sensitivity lists `tags` with no mark. -/
def tagsCleared : ResourceChange :=
  ⟨"aws_instance.web",
    some ⟨["update"],
      .obj [("tags", .obj [("token", .str "s3cr3t")])],
      .obj [("tags", .obj [])],
      .obj [("tags", .obj [("token", .bool true)])],
      .obj [("tags", .obj [])]⟩⟩

/-- Before-snapshot of a small record: `ami` and `size` set. -/
def sampleBefore : JMap := [("size", .str "small"), ("ami", .str "ami-000")]

/-- After-snapshot of a small record: `ami` changed, `size` gone, `zone` new. -/
def sampleAfter : JMap := [("zone", .str "eu-1"), ("ami", .str "ami-123")]

/-- A record with the action list `["create"]`. -/
def sampleCreate : ResourceChange :=
  ⟨"aws_instance.web",
    some ⟨["create"], .null, .obj [("ami", .str "ami-123")], .null, .null⟩⟩

/-- A record with an empty action list. -/
def sampleIdle : ResourceChange :=
  ⟨"aws_instance.idle", some ⟨[], .null, .null, .null, .null⟩⟩

/-- A record with the action list `["delete"]`. -/
def sampleDelete : ResourceChange :=
  ⟨"aws_instance.db",
    some ⟨["delete"], .obj [("ami", .str "ami-000")], .null, .null, .null⟩⟩

/-- A record of a document that has no `change` for it. -/
def sampleNoChange : ResourceChange := ⟨"aws_instance.web", none⟩

/-- A loader that finds a plan without records under `a.json`, a document
without a record list under `b.json`, and nothing else. -/
def sampleLoad (path : String) : Except String Plan :=
  if path = "a.json" then .ok ⟨some []⟩
  else if path = "b.json" then .ok ⟨none⟩
  else .error "no such file"

/-- A loader that finds, under `nochange.json`, a plan with one record that
has no `change`, and nothing else. -/
def noChangeLoad (path : String) : Except String Plan :=
  if path = "nochange.json" then .ok ⟨some [some sampleNoChange]⟩
  else .error "no such file"

/-- A fold table with no orbit beyond the ASCII letters, enough for ASCII text. -/
def asciiOrbit (_ _ : Char) : Bool := false

/-- A loader that finds a plan without records under `plans/empty.json` and
a plan with one created record under `web.json`. -/
def changeLoad (path : String) : Except String Plan :=
  if path = "plans/empty.json" then .ok ⟨some []⟩
  else if path = "web.json" then .ok ⟨some [some sampleCreate]⟩
  else .error "no such file"

/-- A number writer for the samples, right on the number 7. -/
def sampleNum (_ : ℚ) : String := "7"

/-- Notes of a merge request: a public note with the header, an internal
note without it, and two internal notes with it. -/
def sampleNotes : List Note :=
  [⟨11, "## Terraform Plan Summary\npublic", false⟩,
    ⟨12, "looks good", true⟩,
    ⟨13, "## Terraform Plan Summary\nfirst", true⟩,
    ⟨14, "## Terraform Plan Summary\nsecond", true⟩]

/-- A database record whose sensitivity snapshots hold a nested mapping for
`password`. -/
def sampleSecrets : ResourceChange :=
  ⟨"aws_db_instance.main",
    some ⟨["update"], .null, .null,
      .obj [("password", .obj [("a", .bool false), ("b", .bool true)]), ("name", .bool false)],
      .obj [("name", .bool false), ("password", .obj [("a", .bool false), ("b", .bool true)])]⟩⟩

/-- The resource `sampleSecrets` as another iteration order of its mappings
shows it. -/
def sampleSecretsReordered : ResourceChange :=
  ⟨"aws_db_instance.main",
    some ⟨["update"], .null, .null,
      .obj [("name", .bool false), ("password", .obj [("b", .bool true), ("a", .bool false)])],
      .obj [("password", .obj [("b", .bool true), ("a", .bool false)]), ("name", .bool false)]⟩⟩


/-! ## Lemmas: string order -/

theorem lexLt_irrefl (a : List Char) : lexLt a a = false := by
  induction a with
  | nil => rfl
  | cons c cs ih => simp [lexLt, ih]

theorem lexLt_trans : ∀ (a b c : List Char), lexLt a b = true → lexLt b c = true →
    lexLt a c = true
  | _, [], _, h, _ => by cases ‹List Char› <;> simp [lexLt] at h
  | _, _ :: _, [], _, h => by simp [lexLt] at h
  | [], _ :: _, _ :: _, _, _ => by simp [lexLt]
  | x :: xs, y :: ys, z :: zs, h1, h2 => by
    simp only [lexLt] at h1 h2 ⊢
    split_ifs at h1 h2 ⊢ <;> first
      | rfl
      | exact lexLt_trans xs ys zs h1 h2
      | omega

theorem lexLt_total : ∀ (a b : List Char), lexLt a b = true ∨ a = b ∨ lexLt b a = true
  | [], [] => by simp
  | [], _ :: _ => by simp [lexLt]
  | _ :: _, [] => by simp [lexLt]
  | x :: xs, y :: ys => by
    simp only [lexLt]
    rcases Nat.lt_trichotomy x.toNat y.toNat with h | h | h
    · simp [h]
    · have hxy : x = y := by
        apply Char.ext
        apply UInt32.ext
        exact h
      subst hxy
      rcases lexLt_total xs ys with h2 | h2 | h2
      · simp [h2]
      · simp [h2]
      · simp [h2]
    · simp [h]

theorem strLt_irrefl (a : String) : strLt a a = false := lexLt_irrefl a.data

theorem strLt_trans {a b c : String} (h1 : strLt a b = true) (h2 : strLt b c = true) :
    strLt a c = true := lexLt_trans _ _ _ h1 h2

theorem strLt_total (a b : String) : strLt a b = true ∨ a = b ∨ strLt b a = true := by
  rcases lexLt_total a.data b.data with h | h | h
  · exact Or.inl h
  · exact Or.inr (Or.inl (String.ext h))
  · exact Or.inr (Or.inr h)

theorem strLt_asymm {a b : String} (h : strLt a b = true) : strLt b a = false := by
  cases hba : strLt b a with
  | false => rfl
  | true => have := strLt_trans h hba; rw [strLt_irrefl] at this; cases this

theorem strLe_total (a b : String) : strLe a b ∨ strLe b a := by
  unfold strLe
  rcases strLt_total a b with h | h | h
  · exact Or.inl (strLt_asymm h)
  · subst h; exact Or.inl (strLt_irrefl a)
  · exact Or.inr (strLt_asymm h)

theorem strLe_trans (a b c : String) (hab : strLe a b) (hbc : strLe b c) : strLe a c := by
  unfold strLe at *
  cases hca : strLt c a with
  | false => rfl
  | true =>
    rcases strLt_total b c with h | h | h
    · have := strLt_trans h hca; rw [hab] at this; cases this
    · subst h; rw [hab] at hca; cases hca
    · rw [hbc] at h; cases h

theorem strLt_of_strLe_of_ne {a b : String} (h : strLe a b) (hne : a ≠ b) :
    strLt a b = true := by
  unfold strLe at h
  rcases strLt_total a b with h1 | h1 | h1
  · exact h1
  · exact absurd h1 hne
  · rw [h] at h1; cases h1

theorem strLe_antisymm {a b : String} (h1 : strLe a b) (h2 : strLe b a) : a = b := by
  by_contra hne
  have := strLt_of_strLe_of_ne h1 hne
  unfold strLe at h2
  rw [h2] at this; cases this

/-! ## Lemmas: change classifier -/

theorem foldl_flagStep_create (actions : List Action) (f : ActionFlags) :
    (actions.foldl flagStep f).create = (f.create || decide (tfActionCreate ∈ actions)) := by
  induction actions generalizing f with
  | nil => simp
  | cons x xs ih =>
    rw [List.foldl_cons, ih]
    unfold flagStep
    by_cases h1 : x = tfActionCreate
    · simp [h1]
    · have h1' : ¬ tfActionCreate = x := fun h => h1 h.symm
      split_ifs <;> simp [h1']

theorem foldl_flagStep_delete (actions : List Action) (f : ActionFlags) :
    (actions.foldl flagStep f).delete = (f.delete || decide (tfActionDelete ∈ actions)) := by
  induction actions generalizing f with
  | nil => simp
  | cons x xs ih =>
    rw [List.foldl_cons, ih]
    unfold flagStep
    by_cases h1 : x = tfActionDelete
    · have h0 : ¬ x = tfActionCreate := by rw [h1]; decide
      simp [h1, h0]
      simp [tfActionDelete, tfActionCreate]
    · have h1' : ¬ tfActionDelete = x := fun h => h1 h.symm
      split_ifs <;> simp [h1']

theorem foldl_flagStep_update (actions : List Action) (f : ActionFlags) :
    (actions.foldl flagStep f).update = (f.update || decide (tfActionUpdate ∈ actions)) := by
  induction actions generalizing f with
  | nil => simp
  | cons x xs ih =>
    rw [List.foldl_cons, ih]
    unfold flagStep
    by_cases h1 : x = tfActionUpdate
    · have h0 : ¬ x = tfActionCreate := by rw [h1]; decide
      have h2 : ¬ x = tfActionDelete := by rw [h1]; decide
      simp [h1, h0, h2]
      simp [tfActionDelete, tfActionCreate, tfActionUpdate]
    · have h1' : ¬ tfActionUpdate = x := fun h => h1 h.symm
      split_ifs <;> simp [h1']

theorem determineChangeType_mem (actions : List Action) :
    determineChangeType actions = ActionCreate ∨ determineChangeType actions = ActionUpdate ∨
      determineChangeType actions = ActionRecreate ∨
      determineChangeType actions = ActionDelete := by
  unfold determineChangeType
  simp only []
  split_ifs <;> simp

/-- C1: `determineChangeType` is decided by which of create, delete and
update occur in the action list: create alone gives create, delete alone
gives delete, create with delete and no update gives recreate, and every
other list (the empty one and lists of unrecognised actions included) gives
update. -/
theorem determineChangeType_spec (actions : List Action) :
    determineChangeType actions =
      if tfActionCreate ∈ actions ∧ tfActionDelete ∉ actions ∧ tfActionUpdate ∉ actions then
        ActionCreate
      else if tfActionCreate ∉ actions ∧ tfActionDelete ∈ actions
          ∧ tfActionUpdate ∉ actions then
        ActionDelete
      else if tfActionCreate ∈ actions ∧ tfActionDelete ∈ actions
          ∧ tfActionUpdate ∉ actions then
        ActionRecreate
      else ActionUpdate := by
  unfold determineChangeType scanActions
  simp only [foldl_flagStep_create, foldl_flagStep_delete, foldl_flagStep_update,
    Bool.false_or]
  by_cases hc : tfActionCreate ∈ actions <;> by_cases hd : tfActionDelete ∈ actions <;>
    by_cases hu : tfActionUpdate ∈ actions <;> simp [hc, hd, hu]

/-! ## Lemmas: key collection -/

theorem mapHas_iff_mem (m : JMap) (k : String) : mapHas m k = true ↔ k ∈ mapKeys m := by
  induction m with
  | nil => simp [mapHas, mapKeys]
  | cons p rest ih =>
    obtain ⟨k2, v2⟩ := p
    unfold mapHas mapKeys at *
    by_cases h : k = k2
    · subst h; simp [List.lookup]
    · have hb : (k == k2) = false := by simpa using h
      simp only [List.lookup, hb, List.map_cons, List.mem_cons, h, false_or]
      exact ih

theorem mem_addKeys (keys keySet : List String) (k : String) :
    k ∈ addKeys keySet keys ↔ k ∈ keySet ∨ k ∈ keys := by
  induction keys generalizing keySet with
  | nil => simp [addKeys]
  | cons x xs ih =>
    unfold addKeys at *
    rw [List.foldl_cons, ih]
    by_cases hx : x ∈ keySet
    · simp only [hx, if_true, List.mem_cons]
      constructor
      · rintro (h | h)
        · exact Or.inl h
        · exact Or.inr (Or.inr h)
      · rintro (h | h | h)
        · exact Or.inl h
        · subst h; exact Or.inl hx
        · exact Or.inr h
    · simp only [hx, if_false, List.mem_append, List.mem_singleton, List.mem_cons]
      tauto

theorem nodup_addKeys (keys keySet : List String) (h : keySet.Nodup) :
    (addKeys keySet keys).Nodup := by
  induction keys generalizing keySet with
  | nil => simpa [addKeys] using h
  | cons x xs ih =>
    unfold addKeys at *
    rw [List.foldl_cons]
    apply ih
    by_cases hx : x ∈ keySet
    · simpa [hx] using h
    · simp only [hx, if_false]
      rw [List.nodup_append]
      refine ⟨h, List.nodup_singleton x, ?_⟩
      intro a ha hb
      rw [List.mem_singleton] at hb
      subst hb
      exact hx ha

theorem mem_sortStrings (keys : List String) (k : String) :
    k ∈ sortStrings keys ↔ k ∈ keys :=
  (List.perm_insertionSort strLe keys).mem_iff

theorem nodup_sortStrings (keys : List String) (h : keys.Nodup) : (sortStrings keys).Nodup :=
  (List.perm_insertionSort strLe keys).nodup_iff.mpr h

theorem sorted_sortStrings (keys : List String) : (sortStrings keys).Pairwise strLe :=
  haveI : IsTotal String strLe := ⟨strLe_total⟩
  haveI : IsTrans String strLe := ⟨strLe_trans⟩
  List.sorted_insertionSort strLe keys

theorem mem_collectUniqueKeys (b a : JMap) (k : String) :
    k ∈ collectUniqueKeys b a ↔ k ∈ mapKeys b ∨ k ∈ mapKeys a := by
  unfold collectUniqueKeys
  simp only [mem_sortStrings, mem_addKeys, List.not_mem_nil, false_or]

theorem nodup_collectUniqueKeys (b a : JMap) : (collectUniqueKeys b a).Nodup := by
  unfold collectUniqueKeys
  exact nodup_sortStrings _ (nodup_addKeys _ _ (nodup_addKeys _ _ List.nodup_nil))

theorem strictSorted_of_sorted_nodup (l : List String) (hs : l.Pairwise strLe)
    (hn : l.Nodup) : l.Pairwise (fun x y => strLt x y = true) := by
  have hne : l.Pairwise (fun x y => x ≠ y) := hn
  exact (hs.and hne).imp fun h => strLt_of_strLe_of_ne h.1 h.2

theorem strictSorted_collectUniqueKeys (b a : JMap) :
    (collectUniqueKeys b a).Pairwise (fun x y => strLt x y = true) :=
  strictSorted_of_sorted_nodup _ (sorted_sortStrings _) (nodup_collectUniqueKeys b a)

/-- Two strictly ascending lists with the same members are equal. -/
theorem eq_of_strictSorted_of_mem_iff (l1 l2 : List String)
    (h1 : l1.Pairwise (fun x y => strLt x y = true))
    (h2 : l2.Pairwise (fun x y => strLt x y = true))
    (hm : ∀ k, k ∈ l1 ↔ k ∈ l2) : l1 = l2 := by
  have hirr : ∀ x : String, ¬ (strLt x x = true) := fun x h => by
    rw [strLt_irrefl] at h; cases h
  have hne : ∀ {x y : String}, strLt x y = true → x ≠ y := fun {x y} h hxy =>
    hirr x (by rw [← hxy] at h; exact h)
  have n1 : l1.Pairwise (fun x y => x ≠ y) := h1.imp hne
  have n2 : l2.Pairwise (fun x y => x ≠ y) := h2.imp hne
  have hp : l1.Perm l2 := (List.perm_ext_iff_of_nodup n1 n2).mpr hm
  have s1 : l1.Pairwise strLe := h1.imp fun h => strLt_asymm h
  have s2 : l2.Pairwise strLe := h2.imp fun h => strLt_asymm h
  haveI : IsAntisymm String strLe := ⟨fun _ _ h h' => strLe_antisymm h h'⟩
  exact List.eq_of_perm_of_sorted hp s1 s2

/-! ## Lemmas: field diff generator -/

theorem diffEntry_append (s : Bool) (b a : JMap) (diffs : List DiffLine)
    (k : String) : diffEntry s b a diffs k = diffs ++ diffEntry s b a [] k := by
  unfold diffEntry
  simp only []
  split_ifs <;> simp

theorem diffEntry_key (s : Bool) (b a : JMap) (k : String) (d : DiffLine)
    (h : d ∈ diffEntry s b a [] k) : d.Key = k := by
  unfold diffEntry at h
  simp only [List.nil_append] at h
  split_ifs at h <;> simp [createDiffLine] at h <;> rw [h]

theorem diffEntry_added (s : Bool) (b a : JMap) (k : String)
    (hb : mapHas b k = false) (ha : mapHas a k = true) :
    diffEntry s b a [] k =
      [⟨k, .null, if s then sensitiveMarker else mapValue a k, DiffAdded⟩] := by
  simp [diffEntry, hb, ha, createDiffLine]

theorem diffEntry_removed (s : Bool) (b a : JMap) (k : String)
    (hb : mapHas b k = true) (ha : mapHas a k = false) :
    diffEntry s b a [] k =
      [⟨k, if s then sensitiveMarker else mapValue b k, .null, DiffRemoved⟩] := by
  simp [diffEntry, hb, ha, createDiffLine]

theorem deepEqual_marker : deepEqual sensitiveMarker sensitiveMarker = true := by
  simp [sensitiveMarker, deepEqual]

theorem diffEntry_same_presence (s : Bool) (b a : JMap) (k : String)
    (h : mapHas b k = mapHas a k) :
    diffEntry s b a [] k =
      if s = false ∧ deepEqual (mapValue b k) (mapValue a k) = false then
        [⟨k, mapValue b k, mapValue a k, DiffChanged⟩]
      else [] := by
  unfold diffEntry
  cases s <;> cases hd : deepEqual (mapValue b k) (mapValue a k) <;>
    cases ha : mapHas a k <;>
    simp [h, ha, hd, createDiffLine, deepEqual_marker]

theorem mapHas_false_mapValue (m : JMap) (k : String) (h : mapHas m k = false) :
    mapValue m k = .null := by
  unfold mapHas at h
  unfold mapValue
  cases hl : m.lookup k with
  | none => rfl
  | some v => rw [hl] at h; cases h

theorem deepEqual_null : deepEqual .null .null = true := by simp [deepEqual]

/-- The keys for which the loop body adds an entry. -/
theorem diffEntry_ne_nil_iff (s : Bool) (b a : JMap) (k : String) :
    diffEntry s b a [] k ≠ [] ↔
      (mapHas b k ≠ mapHas a k) ∨
        (mapHas b k = true ∧ mapHas a k = true ∧ s = false ∧
          deepEqual (mapValue b k) (mapValue a k) = false) := by
  cases hb : mapHas b k <;> cases ha : mapHas a k
  · rw [diffEntry_same_presence s b a k (by rw [hb, ha])]
    rw [mapHas_false_mapValue b k hb, mapHas_false_mapValue a k ha]
    simp [deepEqual_null]
  · rw [diffEntry_added s b a k hb ha]; simp
  · rw [diffEntry_removed s b a k hb ha]; simp
  · rw [diffEntry_same_presence s b a k (by rw [hb, ha])]
    by_cases h : s = false ∧ deepEqual (mapValue b k) (mapValue a k) = false
    · simp [h]
    · simp only [h, if_false]
      simp only [ne_eq, not_true_eq_false, false_or, true_and]

theorem mem_keys_diffLines (sens : String → Bool) (b a : JMap) (k : String) :
    k ∈ (diffLines sens b a).map (fun d => d.Key) ↔
      k ∈ collectUniqueKeys b a ∧ diffEntry (sens k) b a [] k ≠ [] := by
  unfold diffLines
  simp only [List.mem_map, List.mem_flatMap]
  constructor
  · rintro ⟨d, ⟨k2, hk2, hd⟩, hkey⟩
    have := diffEntry_key (sens k2) b a k2 d hd
    rw [hkey] at this
    subst this
    exact ⟨hk2, List.ne_nil_of_mem hd⟩
  · rintro ⟨hk, hne⟩
    obtain ⟨d, hd⟩ := List.exists_mem_of_ne_nil _ hne
    exact ⟨d, ⟨k, hk, hd⟩, diffEntry_key (sens k) b a k d hd⟩

/-- Filtering a concatenation of per-key blocks by one key keeps that key's block. -/
theorem filter_flatMap_key (f : String → List DiffLine)
    (hf : ∀ k d, d ∈ f k → d.Key = k) (keys : List String) (hn : keys.Nodup) (k : String) :
    (keys.flatMap f).filter (fun d => d.Key == k) = if k ∈ keys then f k else [] := by
  induction keys with
  | nil => simp
  | cons x xs ih =>
    rw [List.nodup_cons] at hn
    rw [List.flatMap_cons, List.filter_append, ih hn.2]
    by_cases hx : k = x
    · subst hx
      have h1 : (f k).filter (fun d => d.Key == k) = f k := by
        rw [List.filter_eq_self]
        intro d hd
        simp [hf k d hd]
      simp [h1, hn.1]
    · have h1 : (f x).filter (fun d => d.Key == k) = [] := by
        rw [List.filter_eq_nil_iff]
        intro d hd
        have := hf x d hd
        simp only [beq_iff_eq]
        intro h'
        exact hx (by rw [← h', this])
      simp [h1, hx]

theorem filter_key_diffLines (sens : String → Bool) (b a : JMap) (k : String)
    (hk : k ∈ collectUniqueKeys b a) :
    (diffLines sens b a).filter (fun d => d.Key == k) = diffEntry (sens k) b a [] k := by
  unfold diffLines
  rw [filter_flatMap_key (fun key => diffEntry (sens key) b a [] key)
    (fun key => diffEntry_key (sens key) b a key) _ (nodup_collectUniqueKeys b a) k, if_pos hk]

theorem keys_diffLines_sublist (sens : String → Bool) (b a : JMap) :
    ((diffLines sens b a).map (fun d => d.Key)).Sublist (collectUniqueKeys b a) := by
  unfold diffLines
  induction collectUniqueKeys b a with
  | nil => simp
  | cons k ks ih =>
    rw [List.flatMap_cons, List.map_append]
    have hk : (diffEntry (sens k) b a [] k).map (fun d => d.Key) = [] ∨
        (diffEntry (sens k) b a [] k).map (fun d => d.Key) = [k] := by
      unfold diffEntry
      simp only [List.nil_append]
      split_ifs <;> simp [createDiffLine]
    rcases hk with hk | hk
    · rw [hk, List.nil_append]; exact ih.trans (List.sublist_cons_self k ks)
    · rw [hk]; exact ih.cons₂ k

/-- The entries depend on the sensitivity test at the keys of the maps only. -/
theorem diffLines_congr_flags (sens sens2 : String → Bool) (b a : JMap)
    (h : ∀ k ∈ collectUniqueKeys b a, sens2 k = sens k) :
    diffLines sens2 b a = diffLines sens b a := by
  unfold diffLines
  apply List.flatMap_congr
  intro k hk
  rw [h k hk]

/-! ## Lemmas: the loop of the field diff generator -/

theorem redacted_eq_flag (r : Option ResourceChange) (k : String) (s : Bool)
    (h : redacted r k = some s) : sensitiveFlag r k = s := by
  simp [sensitiveFlag, h]

/-- For a nil resource, and for a record with its change, the sensitivity test
returns for every key. -/
theorem redacted_of_hasChange (r : Option ResourceChange)
    (hr : r = none ∨ hasChange r = true) (k : String) :
    redacted r k = some (sensitiveFlag r k) := by
  rcases hr with h | h
  · subst h; rfl
  · cases r with
    | none => simp [hasChange] at h
    | some x =>
      cases hc : x.Change with
      | none => simp [hasChange, hc] at h
      | some c => simp [sensitiveFlag, redacted, isValueSensitive, hc]

/-- For a record without change the sensitivity test panics for every key. -/
theorem redacted_of_no_change (r : Option ResourceChange)
    (hr : ¬ (r = none ∨ hasChange r = true)) (k : String) : redacted r k = none := by
  cases r with
  | none => exact absurd (Or.inl rfl) hr
  | some x =>
    cases hc : x.Change with
    | none => simp [redacted, isValueSensitive, hc]
    | some c => exact absurd (Or.inr (by simp [hasChange, hc])) hr

theorem diffLoop_of_flags (r : Option ResourceChange) (b a : JMap) (sens : String → Bool)
    (keys : List String) (diffs : List DiffLine)
    (h : ∀ k ∈ keys, redacted r k = some (sens k)) :
    diffLoop r b a keys diffs =
      some (diffs ++ keys.flatMap (fun k => diffEntry (sens k) b a [] k)) := by
  induction keys generalizing diffs with
  | nil => simp [diffLoop]
  | cons k ks ih =>
    simp only [diffLoop, diffStep, h k (List.mem_cons_self k ks)]
    rw [ih _ (fun x hx => h x (List.mem_cons_of_mem k hx)), diffEntry_append,
      List.flatMap_cons, List.append_assoc]

theorem diffLoop_some (r : Option ResourceChange) (b a : JMap) (keys : List String)
    (diffs ds : List DiffLine) (h : diffLoop r b a keys diffs = some ds) :
    ∀ k ∈ keys, redacted r k = some (sensitiveFlag r k) := by
  induction keys generalizing diffs with
  | nil => intro k hk; cases hk
  | cons x xs ih =>
    cases hx : redacted r x with
    | none => simp [diffLoop, diffStep, hx] at h
    | some s =>
      simp only [diffLoop, diffStep, hx] at h
      intro k hk
      rcases List.mem_cons.mp hk with e | e
      · subst e; rw [hx, redacted_eq_flag r k s hx]
      · exact ih _ h k e

/-- What `GenerateDiff` returns when it returns. -/
theorem GenerateDiff_some (r : Option ResourceChange) (b a : JMap) (ds : List DiffLine)
    (h : GenerateDiff r b a = some ds) :
    ds = diffLines (sensitiveFlag r) b a ∧
      ∀ k ∈ collectUniqueKeys b a, redacted r k = some (sensitiveFlag r k) := by
  have hflags := diffLoop_some r b a _ _ ds h
  refine ⟨?_, hflags⟩
  unfold GenerateDiff at h
  rw [diffLoop_of_flags r b a (sensitiveFlag r) _ _ hflags, List.nil_append] at h
  exact (Option.some.inj h).symm

/-- `GenerateDiff` returns for a nil resource and for a record with its change. -/
theorem GenerateDiff_of_hasChange (r : Option ResourceChange) (b a : JMap)
    (hr : r = none ∨ hasChange r = true) :
    GenerateDiff r b a = some (diffLines (sensitiveFlag r) b a) := by
  unfold GenerateDiff
  rw [diffLoop_of_flags r b a (sensitiveFlag r) _ _
    (fun k _ => redacted_of_hasChange r hr k), List.nil_append]
  rfl

/-- `GenerateDiff` panics exactly for a record without change and maps that
are not both empty. -/
theorem GenerateDiff_eq_none_iff (r : Option ResourceChange) (b a : JMap) :
    GenerateDiff r b a = none ↔
      ¬ (r = none ∨ hasChange r = true) ∧ collectUniqueKeys b a ≠ [] := by
  constructor
  · intro h
    by_cases hr : r = none ∨ hasChange r = true
    · rw [GenerateDiff_of_hasChange r b a hr] at h; cases h
    · refine ⟨hr, ?_⟩
      intro hk
      unfold GenerateDiff at h
      rw [hk] at h
      simp [diffLoop] at h
  · rintro ⟨hr, hk⟩
    cases hg : GenerateDiff r b a with
    | none => rfl
    | some ds =>
      obtain ⟨_, hflags⟩ := GenerateDiff_some r b a ds hg
      obtain ⟨k, hk2⟩ := List.exists_mem_of_ne_nil _ hk
      have := hflags k hk2
      rw [redacted_of_no_change r hr k] at this
      cases this

/-! ## Lemmas: mappings as association lists -/

theorem lookup_eq_some_iff_mem (m : JMap) (hn : (mapKeys m).Nodup) (k : String)
    (v : JValue) : m.lookup k = some v ↔ (k, v) ∈ m := by
  induction m with
  | nil => simp
  | cons p rest ih =>
    obtain ⟨k2, v2⟩ := p
    unfold mapKeys at hn ih
    rw [List.map_cons, List.nodup_cons] at hn
    by_cases h : k = k2
    · subst h
      simp only [List.lookup_cons_self, Option.some.injEq, List.mem_cons, Prod.mk.injEq,
        true_and]
      constructor
      · intro h; exact Or.inl h.symm
      · rintro (h | h)
        · exact h.symm
        · exact absurd (List.mem_map_of_mem Prod.fst h) hn.1
    · have hb : (k == k2) = false := by simpa using h
      rw [List.lookup_cons, hb, ih hn.2]
      simp [h]

theorem lookup_eq_of_perm (m1 m2 : JMap) (hp : m1.Perm m2) (hn : (mapKeys m2).Nodup)
    (k : String) : m1.lookup k = m2.lookup k := by
  have hn1 : (mapKeys m1).Nodup := (hp.map Prod.fst).nodup_iff.mpr hn
  apply Option.ext
  intro v
  simp only [Option.mem_def]
  rw [lookup_eq_some_iff_mem m1 hn1, lookup_eq_some_iff_mem m2 hn]
  exact hp.mem_iff

theorem collectUniqueKeys_congr (b a b2 a2 : JMap)
    (hb : ∀ k, b2.lookup k = b.lookup k) (ha : ∀ k, a2.lookup k = a.lookup k) :
    collectUniqueKeys b2 a2 = collectUniqueKeys b a := by
  apply eq_of_strictSorted_of_mem_iff _ _ (strictSorted_collectUniqueKeys b2 a2)
    (strictSorted_collectUniqueKeys b a)
  intro k
  rw [mem_collectUniqueKeys, mem_collectUniqueKeys, ← mapHas_iff_mem, ← mapHas_iff_mem,
    ← mapHas_iff_mem, ← mapHas_iff_mem]
  unfold mapHas
  rw [hb, ha]

theorem diffLines_congr (sens : String → Bool) (b a b2 a2 : JMap)
    (hb : ∀ k, b2.lookup k = b.lookup k) (ha : ∀ k, a2.lookup k = a.lookup k) :
    diffLines sens b2 a2 = diffLines sens b a := by
  have hstep : ∀ k, diffEntry (sens k) b2 a2 [] k = diffEntry (sens k) b a [] k := by
    intro k
    unfold diffEntry mapHas mapValue
    rw [hb, ha]
  unfold diffLines
  rw [collectUniqueKeys_congr b a b2 a2 hb ha]
  exact List.flatMap_congr (fun k _ => hstep k)

theorem GenerateDiff_congr (r : Option ResourceChange) (b a b2 a2 : JMap)
    (hb : ∀ k, b2.lookup k = b.lookup k) (ha : ∀ k, a2.lookup k = a.lookup k) :
    GenerateDiff r b2 a2 = GenerateDiff r b a := by
  have hstep : diffStep r b2 a2 = diffStep r b a := by
    funext diffs k
    unfold diffStep diffEntry mapHas mapValue
    rw [hb, ha]
  have hloop : diffLoop r b2 a2 = diffLoop r b a := by
    funext keys
    induction keys with
    | nil => funext diffs; simp [diffLoop]
    | cons k ks ih => funext diffs; simp only [diffLoop, hstep, ih]
  unfold GenerateDiff
  rw [collectUniqueKeys_congr b a b2 a2 hb ha, hloop]

/-! ## The field diff generator: claims -/

/-- C2 (as stated) fails: with `password` flagged sensitive, present in both
maps with values that are not deep-equal, `GenerateDiff` has no entry for it. -/
theorem GenerateDiff_keys_sensitive_counterexample :
    GenerateDiff (some passwordChange) [("password", .str "old-secret")]
        [("password", .str "new-secret")] = some [] ∧
      mapHas [("password", .str "old-secret")] "password" = true ∧
      mapHas [("password", .str "new-secret")] "password" = true ∧
      deepEqual (mapValue [("password", .str "old-secret")] "password")
        (mapValue [("password", .str "new-secret")] "password") = false := by
  refine ⟨rfl, rfl, rfl, rfl⟩

theorem mem_collectUniqueKeys_of_mapHas (b a : JMap) (k : String)
    (h : mapHas b k = true ∨ mapHas a k = true) : k ∈ collectUniqueKeys b a := by
  rw [mem_collectUniqueKeys, ← mapHas_iff_mem, ← mapHas_iff_mem]
  exact h

theorem mem_keys_diffLines_iff (sens : String → Bool) (b a : JMap) (k : String) :
    k ∈ (diffLines sens b a).map (fun d => d.Key) ↔
      (mapHas b k ≠ mapHas a k) ∨
        (mapHas b k = true ∧ mapHas a k = true ∧ sens k = false ∧
          deepEqual (mapValue b k) (mapValue a k) = false) := by
  rw [mem_keys_diffLines, ← diffEntry_ne_nil_iff, mem_collectUniqueKeys,
    ← mapHas_iff_mem, ← mapHas_iff_mem]
  constructor
  · exact fun h => h.2
  · intro h
    refine ⟨?_, h⟩
    rw [diffEntry_ne_nil_iff] at h
    rcases h with h | h
    · cases hb : mapHas b k
      · cases ha : mapHas a k
        · rw [hb, ha] at h; exact absurd rfl h
        · exact Or.inr rfl
      · exact Or.inl rfl
    · exact Or.inl h.1

/-- C2 (amended): for a resource argument that is nil or a record with its
change, `GenerateDiff` returns, and a key has an entry in its result exactly
when it is in one of the two maps only, or it is in both, is not redacted for
the resource, and its two values are not deep-equal. -/
theorem GenerateDiff_keys (r : Option ResourceChange) (b a : JMap)
    (hr : r = none ∨ hasChange r = true) :
    ∃ ds, GenerateDiff r b a = some ds ∧
      ∀ k, k ∈ ds.map (fun d => d.Key) ↔
        (mapHas b k ≠ mapHas a k) ∨
          (mapHas b k = true ∧ mapHas a k = true ∧ redacted r k = some false ∧
            deepEqual (mapValue b k) (mapValue a k) = false) := by
  refine ⟨_, GenerateDiff_of_hasChange r b a hr, ?_⟩
  intro k
  rw [mem_keys_diffLines_iff, redacted_of_hasChange r hr k, Option.some.injEq]

/-- C2 (amended) at the sample snapshots and the record `passwordChange`: the
result holds `ami`, `size` and `zone`, and with the sensitive `password` in
both maps it holds no `password`. -/
theorem GenerateDiff_keys_witness :
    (∃ ds, GenerateDiff none sampleBefore sampleAfter = some ds ∧
        "zone" ∈ ds.map (fun d => d.Key)) ∧
      ∃ ds, GenerateDiff (some passwordChange) [("password", .str "old-secret")]
          [("password", .str "new-secret")] = some ds ∧
        "password" ∉ ds.map (fun d => d.Key) :=
  ⟨match GenerateDiff_keys none sampleBefore sampleAfter (Or.inl rfl) with
    | ⟨ds, h, hk⟩ => ⟨ds, h, (hk "zone").mpr (Or.inl (by decide))⟩,
    match GenerateDiff_keys (some passwordChange) [("password", .str "old-secret")]
        [("password", .str "new-secret")] (Or.inr rfl) with
    | ⟨ds, h, hk⟩ => ⟨ds, h, fun hmem => by
        rcases (hk "password").mp hmem with h1 | ⟨_, _, h3, _⟩
        · exact h1 rfl
        · cases h3⟩⟩

/-- C3: the code at the failing input.  The before-sensitivity entry of `tags`
holds a true leaf, the after-sensitivity entry of `tags` is an empty mapping,
`isValueSensitive` returns false, and `GenerateDiff` reports the change of
`tags` with the real before value, also in the entry that
`buildResourceData` builds for the record. -/
theorem GenerateDiff_tagsCleared_leaks :
    isAnySensitive (mapValue [("tags", .obj [("token", .bool true)])] "tags") = true ∧
      tagsCleared.Change.map (fun c => c.BeforeSensitive) =
        some (.obj [("tags", .obj [("token", .bool true)])]) ∧
      isValueSensitive tagsCleared "tags" = some false ∧
      GenerateDiff (some tagsCleared) [("tags", .obj [("token", .str "s3cr3t")])]
          [("tags", .obj [])] =
        some [⟨"tags", .obj [("token", .str "s3cr3t")], .obj [], DiffChanged⟩] ∧
      buildResourceEntry ActionUpdate tagsCleared =
        some ⟨"aws_instance.web", ActionUpdate,
          [⟨"tags", .obj [("token", .str "s3cr3t")], .obj [], DiffChanged⟩]⟩ := by
  refine ⟨rfl, rfl, rfl, rfl, rfl⟩

theorem mapHas_of_lookup_some {m : JMap} {k : String} {v : JValue}
    (h : m.lookup k = some v) : mapHas m k = true ∧ mapValue m k = v := by
  simp [mapHas, mapValue, h]

theorem mapHas_of_lookup_none {m : JMap} {k : String}
    (h : m.lookup k = none) : mapHas m k = false := by
  simp [mapHas, h]

theorem hasChange_of_redacted (r : Option ResourceChange) (k : String) (s : Bool)
    (h : redacted r k = some s) : r = none ∨ hasChange r = true := by
  by_contra hr
  rw [redacted_of_no_change r hr k] at h
  cases h

/-- C4: for a key that is not redacted (the resource is nil or the key is not
sensitive for it), `GenerateDiff` returns and its result holds exactly one
entry for the key when it is in the after map only (added, Before nil, After
the after value), when it is in the before map only (removed, Before the
before value, After nil), and when it is in both with values that are not
deep-equal (changed, with both values). -/
theorem GenerateDiff_entry_of_plain_key (r : Option ResourceChange) (b a : JMap)
    (k : String) (hplain : redacted r k = some false) :
    ∃ ds, GenerateDiff r b a = some ds ∧
      (∀ av, b.lookup k = none → a.lookup k = some av →
        ds.filter (fun d => d.Key == k) = [⟨k, .null, av, DiffAdded⟩]) ∧
      (∀ bv, b.lookup k = some bv → a.lookup k = none →
        ds.filter (fun d => d.Key == k) = [⟨k, bv, .null, DiffRemoved⟩]) ∧
      (∀ bv av, b.lookup k = some bv → a.lookup k = some av → deepEqual bv av = false →
        ds.filter (fun d => d.Key == k) = [⟨k, bv, av, DiffChanged⟩]) := by
  have hr := hasChange_of_redacted r k false hplain
  have hflag : sensitiveFlag r k = false := redacted_eq_flag r k false hplain
  refine ⟨_, GenerateDiff_of_hasChange r b a hr, ?_, ?_, ?_⟩
  · intro av hb ha
    have hb' := mapHas_of_lookup_none hb
    obtain ⟨ha', hav⟩ := mapHas_of_lookup_some ha
    rw [filter_key_diffLines _ b a k (mem_collectUniqueKeys_of_mapHas b a k (Or.inr ha')),
      diffEntry_added _ b a k hb' ha', hflag, hav]
    simp
  · intro bv hb ha
    have ha' := mapHas_of_lookup_none ha
    obtain ⟨hb', hbv⟩ := mapHas_of_lookup_some hb
    rw [filter_key_diffLines _ b a k (mem_collectUniqueKeys_of_mapHas b a k (Or.inl hb')),
      diffEntry_removed _ b a k hb' ha', hflag, hbv]
    simp
  · intro bv av hb ha hne
    obtain ⟨ha', hav⟩ := mapHas_of_lookup_some ha
    obtain ⟨hb', hbv⟩ := mapHas_of_lookup_some hb
    rw [filter_key_diffLines _ b a k (mem_collectUniqueKeys_of_mapHas b a k (Or.inl hb')),
      diffEntry_same_presence _ b a k (by rw [hb', ha']), hflag, hbv, hav, hne]
    simp

/-- C4 at the sample snapshots, with no resource: `zone` is added, `size` is
removed and `ami` is changed, one entry each. -/
theorem GenerateDiff_entry_of_plain_key_witness :
    (∃ ds, GenerateDiff none sampleBefore sampleAfter = some ds ∧
        ds.filter (fun d => d.Key == "zone") = [⟨"zone", .null, .str "eu-1", DiffAdded⟩]) ∧
      (∃ ds, GenerateDiff none sampleBefore sampleAfter = some ds ∧
        ds.filter (fun d => d.Key == "size") =
          [⟨"size", .str "small", .null, DiffRemoved⟩]) ∧
      ∃ ds, GenerateDiff none sampleBefore sampleAfter = some ds ∧
        ds.filter (fun d => d.Key == "ami") =
          [⟨"ami", .str "ami-000", .str "ami-123", DiffChanged⟩] :=
  ⟨match GenerateDiff_entry_of_plain_key none sampleBefore sampleAfter "zone" rfl with
    | ⟨ds, h, h1, _, _⟩ => ⟨ds, h, h1 (.str "eu-1") rfl rfl⟩,
    match GenerateDiff_entry_of_plain_key none sampleBefore sampleAfter "size" rfl with
    | ⟨ds, h, _, h2, _⟩ => ⟨ds, h, h2 (.str "small") rfl rfl⟩,
    match GenerateDiff_entry_of_plain_key none sampleBefore sampleAfter "ami" rfl with
    | ⟨ds, h, _, _, h3⟩ => ⟨ds, h, h3 (.str "ami-000") (.str "ami-123") rfl rfl rfl⟩⟩

/-! ## Sensitivity resolver: claims -/

mutual
theorem hasTrueLeaf_of_isAnySensitive : ∀ v : JValue, isAnySensitive v = true → HasTrueLeaf v
  | .null, h => by simp [isAnySensitive] at h
  | .bool b, h => by
    simp only [isAnySensitive] at h
    subst h
    exact HasTrueLeaf.leaf
  | .num _, h => by simp [isAnySensitive] at h
  | .str _, h => by simp [isAnySensitive] at h
  | .arr items, h => by
    simp only [isAnySensitive] at h
    obtain ⟨x, hx, hs⟩ := hasTrueLeaf_of_anySensitiveItem items h
    exact HasTrueLeaf.inArr items x hx hs
  | .obj fields, h => by
    simp only [isAnySensitive] at h
    obtain ⟨k, x, hx, hs⟩ := hasTrueLeaf_of_anySensitiveField fields h
    exact HasTrueLeaf.inObj fields k x hx hs
theorem hasTrueLeaf_of_anySensitiveItem : ∀ items : List JValue,
    anySensitiveItem items = true → ∃ x, x ∈ items ∧ HasTrueLeaf x
  | [], h => by simp [anySensitiveItem] at h
  | x :: rest, h => by
    simp only [anySensitiveItem] at h
    by_cases hx : isAnySensitive x = true
    · exact ⟨x, List.mem_cons_self x rest, hasTrueLeaf_of_isAnySensitive x hx⟩
    · rw [if_neg hx] at h
      obtain ⟨y, hy, hs⟩ := hasTrueLeaf_of_anySensitiveItem rest h
      exact ⟨y, List.mem_cons_of_mem x hy, hs⟩
theorem hasTrueLeaf_of_anySensitiveField : ∀ fields : List (String × JValue),
    anySensitiveField fields = true → ∃ k x, (k, x) ∈ fields ∧ HasTrueLeaf x
  | [], h => by simp [anySensitiveField] at h
  | (k, x) :: rest, h => by
    simp only [anySensitiveField] at h
    by_cases hx : isAnySensitive x = true
    · exact ⟨k, x, List.mem_cons_self (k, x) rest, hasTrueLeaf_of_isAnySensitive x hx⟩
    · rw [if_neg hx] at h
      obtain ⟨k2, y, hy, hs⟩ := hasTrueLeaf_of_anySensitiveField rest h
      exact ⟨k2, y, List.mem_cons_of_mem (k, x) hy, hs⟩
end

theorem anySensitiveItem_of_mem (items : List JValue) (x : JValue) (hx : x ∈ items)
    (hs : isAnySensitive x = true) : anySensitiveItem items = true := by
  induction items with
  | nil => cases hx
  | cons y rest ih =>
    simp only [anySensitiveItem]
    by_cases hy : isAnySensitive y = true
    · rw [if_pos hy]
    · rw [if_neg hy]
      rcases List.mem_cons.mp hx with h | h
      · subst h; exact absurd hs hy
      · exact ih h

theorem anySensitiveField_of_mem (fields : List (String × JValue)) (k : String) (x : JValue)
    (hx : (k, x) ∈ fields) (hs : isAnySensitive x = true) :
    anySensitiveField fields = true := by
  induction fields with
  | nil => cases hx
  | cons p rest ih =>
    obtain ⟨k2, y⟩ := p
    simp only [anySensitiveField]
    by_cases hy : isAnySensitive y = true
    · rw [if_pos hy]
    · rw [if_neg hy]
      rcases List.mem_cons.mp hx with h | h
      · cases h; exact absurd hs hy
      · exact ih h

theorem isAnySensitive_of_hasTrueLeaf (v : JValue) (h : HasTrueLeaf v) :
    isAnySensitive v = true := by
  induction h with
  | leaf => rfl
  | inArr items x hx _ ih =>
    simp only [isAnySensitive]
    exact anySensitiveItem_of_mem items x hx ih
  | inObj fields k x hx _ ih =>
    simp only [isAnySensitive]
    exact anySensitiveField_of_mem fields k x hx ih

/-- C16: `isAnySensitive` is a total function, true exactly on the values
that hold a boolean true leaf reached through sequences and mappings only:
the boolean true itself, or a sequence or mapping with such an element;
it is false on null, numbers, strings, the boolean false and the empty
sequence and mapping. -/
theorem isAnySensitive_iff (v : JValue) :
    (isAnySensitive v = true ↔ HasTrueLeaf v) ∧
      (HasTrueLeaf v ↔
        v = .bool true ∨ (∃ items x, v = .arr items ∧ x ∈ items ∧ HasTrueLeaf x) ∨
          (∃ fields k x, v = .obj fields ∧ (k, x) ∈ fields ∧ HasTrueLeaf x)) ∧
      isAnySensitive .null = false ∧ (∀ n, isAnySensitive (.num n) = false) ∧
      (∀ s, isAnySensitive (.str s) = false) ∧ isAnySensitive (.bool false) = false ∧
      isAnySensitive (.arr []) = false ∧ isAnySensitive (.obj []) = false := by
  refine ⟨⟨hasTrueLeaf_of_isAnySensitive v, isAnySensitive_of_hasTrueLeaf v⟩, ?_, rfl,
    fun _ => rfl, fun _ => rfl, rfl, rfl, rfl⟩
  constructor
  · intro h
    cases h with
    | leaf => exact Or.inl rfl
    | inArr items x hx hs => exact Or.inr (Or.inl ⟨items, x, rfl, hx, hs⟩)
    | inObj fields k x hx hs => exact Or.inr (Or.inr ⟨fields, k, x, rfl, hx, hs⟩)
  · rintro (h | ⟨items, x, h, hx, hs⟩ | ⟨fields, k, x, h, hx, hs⟩)
    · rw [h]; exact HasTrueLeaf.leaf
    · rw [h]; exact HasTrueLeaf.inArr items x hx hs
    · rw [h]; exact HasTrueLeaf.inObj fields k x hx hs

/-- C17: for a record with its change, `isValueSensitive` is `isAnySensitive`
of the entry of the field in the after-sensitivity when that is a mapping
holding the field; otherwise of the entry in the before-sensitivity when
that is a mapping holding the field; otherwise false.  For a record without
change the test panics. -/
theorem isValueSensitive_spec (r : ResourceChange) (k : String) :
    (r.Change = none → isValueSensitive r k = none) ∧
      ∀ c, r.Change = some c →
        (∀ m v, c.AfterSensitive = .obj m → m.lookup k = some v →
          isValueSensitive r k = some (isAnySensitive v)) ∧
        ((∀ m, c.AfterSensitive = .obj m → m.lookup k = none) →
          ∀ m v, c.BeforeSensitive = .obj m → m.lookup k = some v →
            isValueSensitive r k = some (isAnySensitive v)) ∧
        ((∀ m, c.AfterSensitive = .obj m → m.lookup k = none) →
          (∀ m, c.BeforeSensitive = .obj m → m.lookup k = none) →
            isValueSensitive r k = some false) := by
  have skip : ∀ (s : JValue) (rest : List JValue),
      (∀ m, s = .obj m → m.lookup k = none) →
        sensitiveIn k (s :: rest) = sensitiveIn k rest := by
    intro s rest hs
    cases s with
    | obj m => simp only [sensitiveIn, asMap, hs m rfl]
    | _ => simp only [sensitiveIn, asMap]
  have hit : ∀ (m : JMap) (v : JValue) (rest : List JValue), m.lookup k = some v →
      sensitiveIn k (.obj m :: rest) = isAnySensitive v := by
    intro m v rest hv
    simp only [sensitiveIn, asMap, hv]
  refine ⟨fun hc => by simp [isValueSensitive, hc], ?_⟩
  intro c hc
  simp only [isValueSensitive, hc, Option.some.injEq]
  refine ⟨?_, ?_, ?_⟩
  · intro m v ha hv
    rw [ha, hit m v _ hv]
  · intro ha m v hb hv
    rw [skip _ _ ha, hb, hit m v _ hv]
  · intro ha hb
    rw [skip _ _ ha, skip _ _ hb]
    rfl

/-- C17 on sample records: the after-sensitivity decides for `tags` of
`tagsCleared`; a record without sensitivity metadata has no sensitive field;
a record without change makes the test panic. -/
theorem isValueSensitive_spec_witness :
    isValueSensitive tagsCleared "tags" = some (isAnySensitive (.obj [])) ∧
      isValueSensitive sampleCreate "ami" = some false ∧
      isValueSensitive sampleNoChange "ami" = none :=
  ⟨((isValueSensitive_spec tagsCleared "tags").2 _ rfl).1 [("tags", .obj [])] (.obj [])
      rfl rfl,
    ((isValueSensitive_spec sampleCreate "ami").2 _ rfl).2.2 (fun _ h => by cases h)
      (fun _ h => by cases h),
    (isValueSensitive_spec sampleNoChange "ami").1 rfl⟩

/-! ## Sensitive fields in both snapshots -/

theorem collectUniqueKeys_congr_has (b a b2 a2 : JMap)
    (hb : ∀ k, mapHas b2 k = mapHas b k) (ha : ∀ k, mapHas a2 k = mapHas a k) :
    collectUniqueKeys b2 a2 = collectUniqueKeys b a := by
  apply eq_of_strictSorted_of_mem_iff _ _ (strictSorted_collectUniqueKeys b2 a2)
    (strictSorted_collectUniqueKeys b a)
  intro k
  rw [mem_collectUniqueKeys, mem_collectUniqueKeys, ← mapHas_iff_mem, ← mapHas_iff_mem,
    ← mapHas_iff_mem, ← mapHas_iff_mem, hb, ha]

/-- For a record without change `GenerateDiff` returns the empty list for
two empty maps and panics otherwise. -/
theorem GenerateDiff_of_no_change (r : Option ResourceChange) (b a : JMap)
    (hr : ¬ (r = none ∨ hasChange r = true)) :
    GenerateDiff r b a = if collectUniqueKeys b a = [] then some [] else none := by
  by_cases hk : collectUniqueKeys b a = []
  · rw [if_pos hk]
    unfold GenerateDiff
    rw [hk]
    rfl
  · rw [if_neg hk]
    exact (GenerateDiff_eq_none_iff r b a).mpr ⟨hr, hk⟩

/-- C20: for a record and a key for which `isValueSensitive` is true, a key
that is in both maps has no entry in the result of `GenerateDiff`, whatever
its two values; and two pairs of maps with the same keys that differ only in
the values of such keys give the same result. -/
theorem GenerateDiff_sensitive_in_both (r : ResourceChange) (b a : JMap) :
    (∀ k, isValueSensitive r k = some true → mapHas b k = true → mapHas a k = true →
        ∃ ds, GenerateDiff (some r) b a = some ds ∧
          ds.filter (fun d => d.Key == k) = []) ∧
      (∀ b2 a2 : JMap, (∀ k, mapHas b2 k = mapHas b k) → (∀ k, mapHas a2 k = mapHas a k) →
        (∀ k, ¬ (isValueSensitive r k = some true ∧ mapHas b k = true ∧ mapHas a k = true) →
          b2.lookup k = b.lookup k ∧ a2.lookup k = a.lookup k) →
        GenerateDiff (some r) b2 a2 = GenerateDiff (some r) b a) := by
  constructor
  · intro k hs hb ha
    have hred : redacted (some r) k = some true := hs
    have hr := hasChange_of_redacted (some r) k true hred
    refine ⟨_, GenerateDiff_of_hasChange (some r) b a hr, ?_⟩
    rw [filter_key_diffLines _ b a k (mem_collectUniqueKeys_of_mapHas b a k (Or.inl hb)),
      diffEntry_same_presence _ b a k (by rw [hb, ha]),
      redacted_eq_flag (some r) k true hred]
    simp
  · intro b2 a2 hb ha hval
    have hkeys := collectUniqueKeys_congr_has b a b2 a2 hb ha
    by_cases hr : (some r : Option ResourceChange) = none ∨ hasChange (some r) = true
    · rw [GenerateDiff_of_hasChange (some r) b2 a2 hr,
        GenerateDiff_of_hasChange (some r) b a hr]
      congr 1
      unfold diffLines
      rw [hkeys]
      apply List.flatMap_congr
      intro k _
      by_cases hk : isValueSensitive r k = some true ∧ mapHas b k = true ∧ mapHas a k = true
      · have hred : redacted (some r) k = some true := hk.1
        rw [redacted_eq_flag (some r) k true hred]
        unfold diffEntry
        simp only [hb, ha, hk.2.1, hk.2.2, if_true]
      · obtain ⟨h1, h2⟩ := hval k hk
        unfold diffEntry mapHas mapValue
        rw [h1, h2]
    · rw [GenerateDiff_of_no_change (some r) b2 a2 hr,
        GenerateDiff_of_no_change (some r) b a hr, hkeys]

/-- C20 on the record `passwordChange`: its sensitive `password` is in both
snapshots and has no entry, and another pair of passwords gives the same
result. -/
theorem GenerateDiff_sensitive_in_both_witness :
    (∃ ds, GenerateDiff (some passwordChange) [("password", .str "old-secret")]
          [("password", .str "new-secret")] = some ds ∧
        ds.filter (fun d => d.Key == "password") = []) ∧
      GenerateDiff (some passwordChange) [("password", .str "a")] [("password", .str "b")] =
        GenerateDiff (some passwordChange) [("password", .str "old-secret")]
          [("password", .str "new-secret")] :=
  ⟨(GenerateDiff_sensitive_in_both passwordChange [("password", .str "old-secret")]
      [("password", .str "new-secret")]).1 "password" rfl rfl rfl,
    (GenerateDiff_sensitive_in_both passwordChange [("password", .str "old-secret")]
      [("password", .str "new-secret")]).2 [("password", .str "a")] [("password", .str "b")]
      (fun k => by
        cases h : k == "password" <;> simp [mapHas, List.lookup, h])
      (fun k => by
        cases h : k == "password" <;> simp [mapHas, List.lookup, h])
      (fun k hk => by
        cases h : k == "password"
        · simp [List.lookup, h]
        · rw [beq_iff_eq] at h
          subst h
          exact absurd ⟨rfl, rfl, rfl⟩ hk)⟩

/-! ## Lemmas: deep equality -/

theorem deepEqualFields_iff (xs ys : List (String × JValue)) :
    deepEqualFields xs ys = true ↔
      ∀ k v, (k, v) ∈ xs → ∃ v2, ys.lookup k = some v2 ∧ deepEqual v v2 = true := by
  induction xs with
  | nil => simp [deepEqualFields]
  | cons p rest ih =>
    obtain ⟨k0, v0⟩ := p
    simp only [deepEqualFields, Bool.and_eq_true, ih, List.mem_cons, Prod.mk.injEq]
    constructor
    · rintro ⟨h0, hrest⟩ k v (⟨rfl, rfl⟩ | hmem)
      · cases hl : ys.lookup k with
        | none => rw [hl] at h0; cases h0
        | some v2 => rw [hl] at h0; exact ⟨v2, rfl, h0⟩
      · exact hrest k v hmem
    · intro h
      refine ⟨?_, fun k v hmem => h k v (Or.inr hmem)⟩
      obtain ⟨v2, hl, hd⟩ := h k0 v0 (Or.inl ⟨rfl, rfl⟩)
      rw [hl]
      exact hd

theorem wellFormedFields_iff (fields : List (String × JValue)) :
    wellFormedFields fields = true ↔ ∀ k v, (k, v) ∈ fields → wellFormed v = true := by
  induction fields with
  | nil => simp [wellFormedFields]
  | cons p rest ih =>
    obtain ⟨k0, v0⟩ := p
    simp only [wellFormedFields, Bool.and_eq_true, ih, List.mem_cons, Prod.mk.injEq]
    constructor
    · rintro ⟨h0, hrest⟩ k v (⟨rfl, rfl⟩ | hmem)
      · exact h0
      · exact hrest k v hmem
    · intro h
      exact ⟨h k0 v0 (Or.inl ⟨rfl, rfl⟩), fun k v hmem => h k v (Or.inr hmem)⟩

theorem wellFormed_obj (fields : List (String × JValue)) :
    wellFormed (.obj fields) = true ↔
      (mapKeys fields).Nodup ∧ ∀ k v, (k, v) ∈ fields → wellFormed v = true := by
  simp only [wellFormed, Bool.and_eq_true, decide_eq_true_eq, wellFormedFields_iff, mapKeys]

/-- Two mappings with distinct keys and as many entries, the keys of the first
among those of the second, have the same keys. -/
theorem keys_subset_of_length_eq (xs ys : List (String × JValue))
    (hx : (mapKeys xs).Nodup) (hlen : xs.length = ys.length)
    (hsub : ∀ k, k ∈ mapKeys xs → k ∈ mapKeys ys) :
    ∀ k, k ∈ mapKeys ys → k ∈ mapKeys xs := by
  have hsp : (mapKeys xs).Subperm (mapKeys ys) := hx.subperm hsub
  have hperm : (mapKeys xs).Perm (mapKeys ys) :=
    hsp.perm_of_length_le (by simp [mapKeys, hlen])
  exact fun k hk => hperm.mem_iff.mpr hk

/-- Symmetry of the comparison of two mappings, given the symmetry of the
comparison on the values of the first. -/
theorem deepEqual_obj_symm (xs ys : List (String × JValue))
    (hx : wellFormed (.obj xs) = true) (hy : wellFormed (.obj ys) = true)
    (hsym : ∀ k v, (k, v) ∈ xs → ∀ y, wellFormed v = true → wellFormed y = true →
      deepEqual v y = true → deepEqual y v = true)
    (h : deepEqual (.obj xs) (.obj ys) = true) : deepEqual (.obj ys) (.obj xs) = true := by
  obtain ⟨hnx, hwx⟩ := (wellFormed_obj xs).mp hx
  obtain ⟨hny, hwy⟩ := (wellFormed_obj ys).mp hy
  simp only [deepEqual, Bool.and_eq_true, beq_iff_eq] at h ⊢
  obtain ⟨hlen, hf⟩ := h
  rw [deepEqualFields_iff] at hf
  refine ⟨hlen.symm, ?_⟩
  rw [deepEqualFields_iff]
  intro k v2 hmem2
  have hkx : k ∈ mapKeys xs := by
    apply keys_subset_of_length_eq xs ys hnx hlen
    · intro k1 hk1
      obtain ⟨⟨k1', v1⟩, hm, rfl⟩ := List.mem_map.mp hk1
      obtain ⟨w, hl, _⟩ := hf k1' v1 hm
      exact List.mem_map.mpr ⟨(k1', w), (lookup_eq_some_iff_mem ys hny k1' w).mp hl, rfl⟩
    · exact List.mem_map.mpr ⟨(k, v2), hmem2, rfl⟩
  obtain ⟨⟨k', v⟩, hm, hk'⟩ := List.mem_map.mp hkx
  simp only at hk'
  subst hk'
  obtain ⟨w, hl, hd⟩ := hf k' v hm
  have hw : w = v2 := by
    have h1 := (lookup_eq_some_iff_mem ys hny k' v2).mpr hmem2
    rw [hl] at h1
    exact Option.some.inj h1
  subst hw
  exact ⟨v, (lookup_eq_some_iff_mem xs hnx k' v).mpr hm,
    hsym k' v hm w (hwx k' v hm) (hwy k' w hmem2) hd⟩

mutual
theorem deepEqual_symm_of : ∀ (x y : JValue), wellFormed x = true → wellFormed y = true →
    deepEqual x y = true → deepEqual y x = true
  | .null, y, _, _, h => by cases y <;> simp [deepEqual] at h ⊢
  | .bool a, y, _, _, h => by
    cases y <;> simp [deepEqual] at h ⊢
    exact h.symm
  | .num a, y, _, _, h => by
    cases y <;> simp [deepEqual] at h ⊢
    exact h.symm
  | .str a, y, _, _, h => by
    cases y <;> simp [deepEqual] at h ⊢
    exact h.symm
  | .arr xs, y, hx, hy, h => by
    cases y with
    | arr ys =>
      simp only [deepEqual, wellFormed] at h hx hy ⊢
      exact deepEqualList_symm_of xs ys hx hy h
    | _ => simp [deepEqual] at h
  | .obj xs, y, hx, hy, h => by
    cases y with
    | obj ys => exact deepEqual_obj_symm xs ys hx hy (deepEqual_symm_fields xs) h
    | _ => simp [deepEqual] at h
theorem deepEqualList_symm_of : ∀ (xs ys : List JValue), wellFormedItems xs = true →
    wellFormedItems ys = true → deepEqualList xs ys = true → deepEqualList ys xs = true
  | [], ys, _, _, h => by cases ys <;> simp [deepEqualList] at h ⊢
  | x :: xs, ys, hx, hy, h => by
    cases ys with
    | nil => simp [deepEqualList] at h
    | cons y ys =>
      simp only [deepEqualList, wellFormedItems, Bool.and_eq_true] at h hx hy ⊢
      exact ⟨deepEqual_symm_of x y hx.1 hy.1 h.1, deepEqualList_symm_of xs ys hx.2 hy.2 h.2⟩
theorem deepEqual_symm_fields : ∀ (xs : List (String × JValue)) (k : String) (v : JValue),
    (k, v) ∈ xs → ∀ y, wellFormed v = true → wellFormed y = true →
      deepEqual v y = true → deepEqual y v = true
  | [], _, _, hmem => absurd hmem (List.not_mem_nil _)
  | (k0, v0) :: rest, k, v, hmem => by
    rcases List.mem_cons.mp hmem with h | h
    · cases h
      exact deepEqual_symm_of v0
    · exact deepEqual_symm_fields rest k v h
end

theorem deepEqual_comm (x y : JValue) (hx : wellFormed x = true) (hy : wellFormed y = true) :
    deepEqual x y = deepEqual y x := by
  rw [Bool.eq_iff_iff]
  exact ⟨deepEqual_symm_of x y hx hy, deepEqual_symm_of y x hy hx⟩

mutual
theorem deepEqual_refl_of : ∀ x : JValue, wellFormed x = true → deepEqual x x = true
  | .null, _ => rfl
  | .bool _, _ => by simp [deepEqual]
  | .num _, _ => by simp [deepEqual]
  | .str _, _ => by simp [deepEqual]
  | .arr xs, hx => by
    simp only [deepEqual, wellFormed] at hx ⊢
    exact deepEqualList_refl_of xs hx
  | .obj xs, hx => by
    obtain ⟨hn, hw⟩ := (wellFormed_obj xs).mp hx
    simp only [deepEqual, beq_self_eq_true, Bool.true_and]
    rw [deepEqualFields_iff]
    intro k v hmem
    exact ⟨v, (lookup_eq_some_iff_mem xs hn k v).mpr hmem,
      deepEqual_refl_fields xs k v hmem (hw k v hmem)⟩
theorem deepEqualList_refl_of : ∀ xs : List JValue, wellFormedItems xs = true →
    deepEqualList xs xs = true
  | [], _ => rfl
  | x :: xs, hx => by
    simp only [deepEqualList, wellFormedItems, Bool.and_eq_true] at hx ⊢
    exact ⟨deepEqual_refl_of x hx.1, deepEqualList_refl_of xs hx.2⟩
theorem deepEqual_refl_fields : ∀ (xs : List (String × JValue)) (k : String) (v : JValue),
    (k, v) ∈ xs → wellFormed v = true → deepEqual v v = true
  | [], _, _, hmem => absurd hmem (List.not_mem_nil _)
  | (k0, v0) :: rest, k, v, hmem => by
    rcases List.mem_cons.mp hmem with h | h
    · cases h
      exact deepEqual_refl_of v0
    · exact deepEqual_refl_fields rest k v h
end

/-! ## The field diff generator: mirror image -/

theorem collectUniqueKeys_comm (b a : JMap) : collectUniqueKeys a b = collectUniqueKeys b a := by
  apply eq_of_strictSorted_of_mem_iff _ _ (strictSorted_collectUniqueKeys a b)
    (strictSorted_collectUniqueKeys b a)
  intro k
  rw [mem_collectUniqueKeys, mem_collectUniqueKeys]
  exact Or.comm

theorem wellFormed_mapValue (m : JMap) (hm : wellFormed (.obj m) = true) (k : String) :
    wellFormed (mapValue m k) = true := by
  obtain ⟨hn, hw⟩ := (wellFormed_obj m).mp hm
  unfold mapValue
  cases hl : m.lookup k with
  | none => rfl
  | some v => exact hw k v ((lookup_eq_some_iff_mem m hn k v).mp hl)

theorem diffEntry_mirror (s : Bool) (b a : JMap)
    (hb : wellFormed (.obj b) = true) (ha : wellFormed (.obj a) = true) (k : String) :
    diffEntry s a b [] k = (diffEntry s b a [] k).map mirrorLine := by
  have hcomm : deepEqual (mapValue a k) (mapValue b k) =
      deepEqual (mapValue b k) (mapValue a k) :=
    deepEqual_comm _ _ (wellFormed_mapValue a ha k) (wellFormed_mapValue b hb k)
  unfold diffEntry
  cases hhb : mapHas b k <;> cases hha : mapHas a k <;> cases s <;>
    cases hd : deepEqual (mapValue b k) (mapValue a k) <;>
    simp [hcomm, hd, deepEqual_marker, createDiffLine, mirrorLine, mirrorType, DiffAdded,
      DiffRemoved, DiffChanged]

theorem diffEntry_same_map (s : Bool) (m : JMap)
    (hm : wellFormed (.obj m) = true) (k : String) : diffEntry s m m [] k = [] := by
  rw [diffEntry_same_presence s m m k rfl,
    deepEqual_refl_of _ (wellFormed_mapValue m hm k)]
  simp

theorem diffLines_mirror (sens : String → Bool) (b a : JMap)
    (hb : wellFormed (.obj b) = true) (ha : wellFormed (.obj a) = true) :
    diffLines sens a b = (diffLines sens b a).map mirrorLine := by
  unfold diffLines
  rw [collectUniqueKeys_comm b a, List.map_flatMap]
  congr 1
  funext k
  exact diffEntry_mirror (sens k) b a hb ha k

theorem diffLines_same_map (sens : String → Bool) (b : JMap)
    (hb : wellFormed (.obj b) = true) : diffLines sens b b = [] := by
  unfold diffLines
  rw [List.flatMap_eq_nil_iff]
  intro k _
  exact diffEntry_same_map (sens k) b hb k

/-- C21: for maps as a Go program holds them (no mapping with the same key
twice), `GenerateDiff` with the two maps exchanged is the mirror image of
`GenerateDiff`: it returns when `GenerateDiff` does, with the same keys in
the same order, each entry with before and after exchanged, added turned
into removed, removed into added, and changed left changed; and
`GenerateDiff` of a map with itself is empty. -/
theorem GenerateDiff_mirror (r : Option ResourceChange) (b a : JMap)
    (hb : wellFormed (.obj b) = true) (ha : wellFormed (.obj a) = true) :
    GenerateDiff r a b = (GenerateDiff r b a).map (fun ds => ds.map mirrorLine) ∧
      (GenerateDiff r a b).map (fun ds => ds.map (fun d => d.Key)) =
        (GenerateDiff r b a).map (fun ds => ds.map (fun d => d.Key)) ∧
      (∀ d, (mirrorLine d).Key = d.Key ∧ (mirrorLine d).Before = d.After ∧
        (mirrorLine d).After = d.Before ∧
        (d.DiffType = DiffAdded → (mirrorLine d).DiffType = DiffRemoved) ∧
        (d.DiffType = DiffRemoved → (mirrorLine d).DiffType = DiffAdded) ∧
        (d.DiffType = DiffChanged → (mirrorLine d).DiffType = DiffChanged)) ∧
      (∀ ds, GenerateDiff r b b = some ds → ds = []) ∧
      (r = none ∨ hasChange r = true → GenerateDiff r b b = some []) := by
  have hmirror : GenerateDiff r a b =
      (GenerateDiff r b a).map (fun ds => ds.map mirrorLine) := by
    by_cases hr : r = none ∨ hasChange r = true
    · rw [GenerateDiff_of_hasChange r a b hr, GenerateDiff_of_hasChange r b a hr,
        diffLines_mirror _ b a hb ha]
      rfl
    · rw [GenerateDiff_of_no_change r a b hr, GenerateDiff_of_no_change r b a hr,
        collectUniqueKeys_comm b a]
      by_cases hk : collectUniqueKeys b a = []
      · simp [hk]
      · simp [hk]
  refine ⟨hmirror, ?_, ?_, ?_, ?_⟩
  · rw [hmirror, Option.map_map]
    congr 1
    funext ds
    simp [Function.comp, List.map_map]
    intro d _
    rfl
  · intro d
    refine ⟨rfl, rfl, rfl, ?_, ?_, ?_⟩
    · intro h; simp [mirrorLine, mirrorType, h]
    · intro h; simp [mirrorLine, mirrorType, h, DiffAdded, DiffRemoved]
    · intro h; simp [mirrorLine, mirrorType, h, DiffAdded, DiffRemoved, DiffChanged]
  · intro ds hds
    rw [(GenerateDiff_some r b b ds hds).1]
    exact diffLines_same_map _ b hb
  · intro hr
    rw [GenerateDiff_of_hasChange r b b hr, diffLines_same_map _ b hb]

/-- C21 on the sample snapshots: exchanged, `zone` is removed, `size` is added
and `ami` is changed the other way round. -/
theorem GenerateDiff_mirror_witness :
    GenerateDiff none sampleAfter sampleBefore =
        some [⟨"ami", .str "ami-123", .str "ami-000", DiffChanged⟩,
          ⟨"size", .null, .str "small", DiffAdded⟩,
          ⟨"zone", .str "eu-1", .null, DiffRemoved⟩] ∧
      GenerateDiff none sampleBefore sampleBefore = some [] :=
  ⟨(GenerateDiff_mirror none sampleBefore sampleAfter (by decide) (by decide)).1.trans rfl,
    (GenerateDiff_mirror none sampleBefore sampleAfter (by decide) (by decide)).2.2.2.2
      (Or.inl rfl)⟩

/-! ## Lemmas: the same value in another iteration order -/

theorem mem_of_lookup_eq_some (m : JMap) (k : String) (v : JValue)
    (h : m.lookup k = some v) : (k, v) ∈ m := by
  induction m with
  | nil => simp [List.lookup] at h
  | cons p rest ih =>
    obtain ⟨k2, v2⟩ := p
    by_cases hk : k = k2
    · subst hk
      simp only [List.lookup, beq_self_eq_true, Option.some.injEq] at h
      subst h
      exact List.mem_cons_self _ _
    · have hb : (k == k2) = false := by simpa using hk
      simp only [List.lookup, hb] at h
      exact List.mem_cons_of_mem _ (ih h)

theorem sameFields_iff (xs ys : List (String × JValue)) :
    sameFields xs ys = true ↔
      ∀ k v, (k, v) ∈ xs → ∃ v2, ys.lookup k = some v2 ∧ sameValue v v2 = true := by
  induction xs with
  | nil => simp [sameFields]
  | cons p rest ih =>
    obtain ⟨k0, v0⟩ := p
    simp only [sameFields, Bool.and_eq_true, ih, List.mem_cons, Prod.mk.injEq]
    constructor
    · rintro ⟨h0, hrest⟩ k v (⟨rfl, rfl⟩ | hmem)
      · cases hl : ys.lookup k with
        | none => rw [hl] at h0; cases h0
        | some v2 => rw [hl] at h0; exact ⟨v2, rfl, h0⟩
      · exact hrest k v hmem
    · intro h
      refine ⟨?_, fun k v hmem => h k v (Or.inr hmem)⟩
      obtain ⟨v2, hl, hd⟩ := h k0 v0 (Or.inl ⟨rfl, rfl⟩)
      rw [hl]
      exact hd

theorem sameItems_mem : ∀ (xs ys : List JValue), sameItems xs ys = true →
    ∀ x, x ∈ xs → ∃ y, y ∈ ys ∧ sameValue x y = true
  | [], _, _, x, hx => absurd hx (List.not_mem_nil x)
  | _ :: _, [], h, _, _ => by simp [sameItems] at h
  | x0 :: xs, y0 :: ys, h, x, hx => by
    simp only [sameItems, Bool.and_eq_true] at h
    rcases List.mem_cons.mp hx with e | e
    · subst e
      exact ⟨y0, List.mem_cons_self _ _, h.1⟩
    · obtain ⟨y, hy, hs⟩ := sameItems_mem xs ys h.2 x e
      exact ⟨y, List.mem_cons_of_mem _ hy, hs⟩

/-- A true leaf of a value is a true leaf of the same value in another
iteration order. -/
theorem hasTrueLeaf_of_sameValue (x : JValue) (h : HasTrueLeaf x) :
    ∀ y, sameValue x y = true → HasTrueLeaf y := by
  induction h with
  | leaf =>
    intro y hy
    cases y with
    | bool b =>
      simp only [sameValue, beq_iff_eq] at hy
      rw [← hy]
      exact HasTrueLeaf.leaf
    | _ => simp [sameValue] at hy
  | inArr items v hv _ ih =>
    intro y hy
    cases y with
    | arr ys =>
      simp only [sameValue] at hy
      obtain ⟨w, hw, hs⟩ := sameItems_mem items ys hy v hv
      exact HasTrueLeaf.inArr ys w hw (ih w hs)
    | _ => simp [sameValue] at hy
  | inObj fields k v hv _ ih =>
    intro y hy
    cases y with
    | obj ys =>
      simp only [sameValue, Bool.and_eq_true] at hy
      obtain ⟨w, hl, hs⟩ := (sameFields_iff fields ys).mp hy.2 k v hv
      exact HasTrueLeaf.inObj ys k w (mem_of_lookup_eq_some ys k w hl) (ih w hs)
    | _ => simp [sameValue] at hy

/-- Symmetry of the same-value test on two mappings, given the symmetry on
the values of the first. -/
theorem sameValue_obj_symm (xs ys : List (String × JValue))
    (hx : wellFormed (.obj xs) = true) (hy : wellFormed (.obj ys) = true)
    (hsym : ∀ k v, (k, v) ∈ xs → ∀ y, wellFormed v = true → wellFormed y = true →
      sameValue v y = true → sameValue y v = true)
    (h : sameValue (.obj xs) (.obj ys) = true) : sameValue (.obj ys) (.obj xs) = true := by
  obtain ⟨hnx, hwx⟩ := (wellFormed_obj xs).mp hx
  obtain ⟨hny, hwy⟩ := (wellFormed_obj ys).mp hy
  simp only [sameValue, Bool.and_eq_true, beq_iff_eq] at h ⊢
  obtain ⟨hlen, hf⟩ := h
  rw [sameFields_iff] at hf
  refine ⟨hlen.symm, ?_⟩
  rw [sameFields_iff]
  intro k v2 hmem2
  have hkx : k ∈ mapKeys xs := by
    apply keys_subset_of_length_eq xs ys hnx hlen
    · intro k1 hk1
      obtain ⟨⟨k1', v1⟩, hm, rfl⟩ := List.mem_map.mp hk1
      obtain ⟨w, hl, _⟩ := hf k1' v1 hm
      exact List.mem_map.mpr ⟨(k1', w), (lookup_eq_some_iff_mem ys hny k1' w).mp hl, rfl⟩
    · exact List.mem_map.mpr ⟨(k, v2), hmem2, rfl⟩
  obtain ⟨⟨k', v⟩, hm, hk'⟩ := List.mem_map.mp hkx
  simp only at hk'
  subst hk'
  obtain ⟨w, hl, hd⟩ := hf k' v hm
  have hw : w = v2 := by
    have h1 := (lookup_eq_some_iff_mem ys hny k' v2).mpr hmem2
    rw [hl] at h1
    exact Option.some.inj h1
  subst hw
  exact ⟨v, (lookup_eq_some_iff_mem xs hnx k' v).mpr hm,
    hsym k' v hm w (hwx k' v hm) (hwy k' w hmem2) hd⟩

mutual
theorem sameValue_symm_of : ∀ (x y : JValue), wellFormed x = true → wellFormed y = true →
    sameValue x y = true → sameValue y x = true
  | .null, y, _, _, h => by cases y <;> simp [sameValue] at h ⊢
  | .bool a, y, _, _, h => by
    cases y <;> simp [sameValue] at h ⊢
    exact h.symm
  | .num a, y, _, _, h => by
    cases y with
    | num b =>
      simp only [sameValue, Bool.and_eq_true, Bool.or_eq_true, beq_iff_eq,
        decide_eq_true_eq] at h ⊢
      obtain ⟨h1, h2⟩ := h
      refine ⟨h1.symm, ?_⟩
      rw [← h1]
      exact h2.imp id Eq.symm
    | _ => simp [sameValue] at h
  | .str a, y, _, _, h => by
    cases y <;> simp [sameValue] at h ⊢
    exact h.symm
  | .arr xs, y, hx, hy, h => by
    cases y with
    | arr ys =>
      simp only [sameValue, wellFormed] at h hx hy ⊢
      exact sameItems_symm_of xs ys hx hy h
    | _ => simp [sameValue] at h
  | .obj xs, y, hx, hy, h => by
    cases y with
    | obj ys => exact sameValue_obj_symm xs ys hx hy (sameValue_symm_fields xs) h
    | _ => simp [sameValue] at h
theorem sameItems_symm_of : ∀ (xs ys : List JValue), wellFormedItems xs = true →
    wellFormedItems ys = true → sameItems xs ys = true → sameItems ys xs = true
  | [], ys, _, _, h => by cases ys <;> simp [sameItems] at h ⊢
  | x :: xs, ys, hx, hy, h => by
    cases ys with
    | nil => simp [sameItems] at h
    | cons y ys =>
      simp only [sameItems, wellFormedItems, Bool.and_eq_true] at h hx hy ⊢
      exact ⟨sameValue_symm_of x y hx.1 hy.1 h.1, sameItems_symm_of xs ys hx.2 hy.2 h.2⟩
theorem sameValue_symm_fields : ∀ (xs : List (String × JValue)) (k : String) (v : JValue),
    (k, v) ∈ xs → ∀ y, wellFormed v = true → wellFormed y = true →
      sameValue v y = true → sameValue y v = true
  | [], _, _, hmem => absurd hmem (List.not_mem_nil _)
  | (k0, v0) :: rest, k, v, hmem => by
    rcases List.mem_cons.mp hmem with h | h
    · cases h
      exact sameValue_symm_of v0
    · exact sameValue_symm_fields rest k v h
end

/-- The traversal of `isAnySensitive` gives the same result on the same value
in another iteration order. -/
theorem isAnySensitive_of_sameValue (x y : JValue) (hx : wellFormed x = true)
    (hy : wellFormed y = true) (h : sameValue x y = true) :
    isAnySensitive x = isAnySensitive y := by
  rw [Bool.eq_iff_iff]
  constructor
  · intro hs
    exact isAnySensitive_of_hasTrueLeaf y
      (hasTrueLeaf_of_sameValue x (hasTrueLeaf_of_isAnySensitive x hs) y h)
  · intro hs
    exact isAnySensitive_of_hasTrueLeaf x
      (hasTrueLeaf_of_sameValue y (hasTrueLeaf_of_isAnySensitive y hs) x
        (sameValue_symm_of x y hx hy h))

/-- Two mappings that are the same value hold the same keys, with the same
values under them. -/
theorem sameValue_obj_lookup (m2 m : JMap) (h2 : wellFormed (.obj m2) = true)
    (h : sameValue (.obj m2) (.obj m) = true) (k : String) :
    (m2.lookup k = none ∧ m.lookup k = none) ∨
      ∃ v2 v, m2.lookup k = some v2 ∧ m.lookup k = some v ∧ sameValue v2 v = true := by
  obtain ⟨hn2, _⟩ := (wellFormed_obj m2).mp h2
  simp only [sameValue, Bool.and_eq_true, beq_iff_eq] at h
  obtain ⟨hlen, hf⟩ := h
  rw [sameFields_iff] at hf
  cases hl : m2.lookup k with
  | some v2 =>
    obtain ⟨v, hv, hs⟩ := hf k v2 (mem_of_lookup_eq_some m2 k v2 hl)
    exact Or.inr ⟨v2, v, rfl, hv, hs⟩
  | none =>
    refine Or.inl ⟨rfl, ?_⟩
    cases hm : m.lookup k with
    | none => rfl
    | some v =>
      exfalso
      have hk : k ∈ mapKeys m2 := by
        apply keys_subset_of_length_eq m2 m hn2 hlen
        · intro k1 hk1
          obtain ⟨⟨k1', v1⟩, hmem, rfl⟩ := List.mem_map.mp hk1
          obtain ⟨w, hw, _⟩ := hf k1' v1 hmem
          exact List.mem_map.mpr ⟨(k1', w), mem_of_lookup_eq_some m k1' w hw, rfl⟩
        · exact List.mem_map.mpr ⟨(k, v), mem_of_lookup_eq_some m k v hm, rfl⟩
      have := (mapHas_iff_mem m2 k).mpr hk
      simp [mapHas, hl] at this

theorem sameValue_mapHas (m2 m : JMap) (h2 : wellFormed (.obj m2) = true)
    (h : sameValue (.obj m2) (.obj m) = true) (k : String) : mapHas m2 k = mapHas m k := by
  rcases sameValue_obj_lookup m2 m h2 h k with ⟨h1, h3⟩ | ⟨v2, v, h1, h3, _⟩ <;>
    simp [mapHas, h1, h3]

theorem sameValue_mapValue (m2 m : JMap) (h2 : wellFormed (.obj m2) = true)
    (h : sameValue (.obj m2) (.obj m) = true) (k : String) :
    sameValue (mapValue m2 k) (mapValue m k) = true := by
  rcases sameValue_obj_lookup m2 m h2 h k with ⟨h1, h3⟩ | ⟨v2, v, h1, h3, hs⟩
  · simp [mapValue, h1, h3, sameValue]
  · simp [mapValue, h1, h3, hs]

mutual
/-- The same value is deep-equal. -/
theorem deepEqual_of_sameValue : ∀ x y : JValue, sameValue x y = true → deepEqual x y = true
  | .null, y, h => by cases y <;> simp [sameValue, deepEqual] at h ⊢
  | .bool a, y, h => by
    cases y <;> simp [sameValue, deepEqual] at h ⊢
    exact h
  | .num a, y, h => by
    cases y with
    | num b =>
      simp only [sameValue, deepEqual, Bool.and_eq_true, beq_iff_eq] at h ⊢
      exact h.1
    | _ => simp [sameValue] at h
  | .str a, y, h => by
    cases y <;> simp [sameValue, deepEqual] at h ⊢
    exact h
  | .arr xs, y, h => by
    cases y with
    | arr ys =>
      simp only [sameValue, deepEqual] at h ⊢
      exact deepEqualList_of_sameItems xs ys h
    | _ => simp [sameValue] at h
  | .obj xs, y, h => by
    cases y with
    | obj ys =>
      simp only [sameValue, deepEqual, Bool.and_eq_true, beq_iff_eq] at h ⊢
      exact ⟨h.1, deepEqualFields_of_sameFields xs ys h.2⟩
    | _ => simp [sameValue] at h
theorem deepEqualList_of_sameItems : ∀ xs ys : List JValue,
    sameItems xs ys = true → deepEqualList xs ys = true
  | [], ys, h => by cases ys <;> simp [sameItems, deepEqualList] at h ⊢
  | x :: xs, ys, h => by
    cases ys with
    | nil => simp [sameItems] at h
    | cons y ys =>
      simp only [sameItems, deepEqualList, Bool.and_eq_true] at h ⊢
      exact ⟨deepEqual_of_sameValue x y h.1, deepEqualList_of_sameItems xs ys h.2⟩
theorem deepEqualFields_of_sameFields : ∀ xs ys : List (String × JValue),
    sameFields xs ys = true → deepEqualFields xs ys = true
  | [], _, _ => by simp [deepEqualFields]
  | (k, v) :: rest, ys, h => by
    simp only [sameFields, deepEqualFields, Bool.and_eq_true] at h ⊢
    refine ⟨?_, deepEqualFields_of_sameFields rest ys h.2⟩
    cases hl : ys.lookup k with
    | none =>
      have h1 := h.1
      rw [hl] at h1
      cases h1
    | some v2 =>
      have h1 := h.1
      rw [hl] at h1
      exact deepEqual_of_sameValue v v2 h1
end

mutual
/-- Deep equality is transitive. -/
theorem deepEqual_trans_of : ∀ x y z : JValue, deepEqual x y = true → deepEqual y z = true →
    deepEqual x z = true
  | .null, y, z, h1, h2 => by cases y <;> cases z <;> simp_all [deepEqual]
  | .bool _, y, z, h1, h2 => by cases y <;> cases z <;> simp_all [deepEqual]
  | .num _, y, z, h1, h2 => by cases y <;> cases z <;> simp_all [deepEqual]
  | .str _, y, z, h1, h2 => by cases y <;> cases z <;> simp_all [deepEqual]
  | .arr xs, y, z, h1, h2 => by
    cases y with
    | arr ys =>
      cases z with
      | arr zs =>
        simp only [deepEqual] at h1 h2 ⊢
        exact deepEqualList_trans_of xs ys zs h1 h2
      | _ => simp [deepEqual] at h2
    | _ => simp [deepEqual] at h1
  | .obj xs, y, z, h1, h2 => by
    cases y with
    | obj ys =>
      cases z with
      | obj zs =>
        simp only [deepEqual, Bool.and_eq_true, beq_iff_eq, deepEqualFields_iff] at h1 h2 ⊢
        refine ⟨h1.1.trans h2.1, ?_⟩
        intro k v hm
        obtain ⟨v2, hl2, hd2⟩ := h1.2 k v hm
        obtain ⟨v3, hl3, hd3⟩ := h2.2 k v2 (mem_of_lookup_eq_some ys k v2 hl2)
        exact ⟨v3, hl3, deepEqual_trans_fields xs k v hm v2 v3 hd2 hd3⟩
      | _ => simp [deepEqual] at h2
    | _ => simp [deepEqual] at h1
theorem deepEqualList_trans_of : ∀ xs ys zs : List JValue, deepEqualList xs ys = true →
    deepEqualList ys zs = true → deepEqualList xs zs = true
  | [], ys, zs, h1, h2 => by cases ys <;> cases zs <;> simp_all [deepEqualList]
  | x :: xs, ys, zs, h1, h2 => by
    cases ys with
    | nil => simp [deepEqualList] at h1
    | cons y ys =>
      cases zs with
      | nil => simp [deepEqualList] at h2
      | cons z zs =>
        simp only [deepEqualList, Bool.and_eq_true] at h1 h2 ⊢
        exact ⟨deepEqual_trans_of x y z h1.1 h2.1, deepEqualList_trans_of xs ys zs h1.2 h2.2⟩
theorem deepEqual_trans_fields : ∀ (xs : List (String × JValue)) (k : String) (v : JValue),
    (k, v) ∈ xs → ∀ y z, deepEqual v y = true → deepEqual y z = true → deepEqual v z = true
  | [], _, _, hmem => absurd hmem (List.not_mem_nil _)
  | (k0, v0) :: rest, k, v, hmem => by
    rcases List.mem_cons.mp hmem with h | h
    · cases h
      exact deepEqual_trans_of v0
    · exact deepEqual_trans_fields rest k v h
end

/-- The test `reflect.DeepEqual` gives the same result on the same two values
in another iteration order. -/
theorem deepEqual_of_sameValues (x2 y2 x y : JValue) (hx2 : wellFormed x2 = true)
    (hy2 : wellFormed y2 = true) (hx : wellFormed x = true) (hy : wellFormed y = true)
    (hsx : sameValue x2 x = true) (hsy : sameValue y2 y = true) :
    deepEqual x2 y2 = deepEqual x y := by
  have ex := deepEqual_of_sameValue x2 x hsx
  have ey := deepEqual_of_sameValue y2 y hsy
  rw [Bool.eq_iff_iff]
  constructor
  · intro h
    exact deepEqual_trans_of x x2 y (deepEqual_symm_of x2 x hx2 hx ex)
      (deepEqual_trans_of x2 y2 y h ey)
  · intro h
    exact deepEqual_trans_of x2 x y2 ex
      (deepEqual_trans_of x y y2 h (deepEqual_symm_of y2 y hy2 hy ey))

theorem sameValue_null : sameValue .null .null = true := rfl

theorem sameValue_marker : sameValue sensitiveMarker sensitiveMarker = true := by
  simp [sameValue, sensitiveMarker]

/-- The body of the loop of `GenerateDiff` builds the same entry from the same
two maps in another iteration order. -/
theorem diffEntry_same (s : Bool) (b a b2 a2 : JMap) (k : String)
    (hb2 : wellFormed (.obj b2) = true) (ha2 : wellFormed (.obj a2) = true)
    (hb : wellFormed (.obj b) = true) (ha : wellFormed (.obj a) = true)
    (hsb : sameValue (.obj b2) (.obj b) = true) (hsa : sameValue (.obj a2) (.obj a) = true) :
    List.Forall₂ (fun d e => sameLine d e = true) (diffEntry s b2 a2 [] k)
      (diffEntry s b a [] k) := by
  have hvb := sameValue_mapValue b2 b hb2 hsb k
  have hva := sameValue_mapValue a2 a ha2 hsa k
  have hd := deepEqual_of_sameValues _ _ _ _ (wellFormed_mapValue b2 hb2 k)
    (wellFormed_mapValue a2 ha2 k) (wellFormed_mapValue b hb k) (wellFormed_mapValue a ha k)
    hvb hva
  unfold diffEntry
  rw [sameValue_mapHas b2 b hb2 hsb k, sameValue_mapHas a2 a ha2 hsa k]
  cases s <;> cases mapHas b k <;> cases mapHas a k <;>
    cases hdd : deepEqual (mapValue b k) (mapValue a k) <;>
    simp [hd, hdd, deepEqual_marker, sameLine, createDiffLine, hvb, hva, sameValue_marker,
      sameValue_null]

theorem forall₂_flatMap_same {α β γ : Type} (R : β → γ → Prop) (f : α → List β)
    (g : α → List γ) (l : List α) (h : ∀ x ∈ l, List.Forall₂ R (f x) (g x)) :
    List.Forall₂ R (l.flatMap f) (l.flatMap g) := by
  induction l with
  | nil => exact List.Forall₂.nil
  | cons x rest ih =>
    rw [List.flatMap_cons, List.flatMap_cons]
    exact List.rel_append (h x (List.mem_cons_self _ _))
      (ih (fun y hy => h y (List.mem_cons_of_mem _ hy)))

theorem diffLines_same (sens : String → Bool) (b a b2 a2 : JMap)
    (hb2 : wellFormed (.obj b2) = true) (ha2 : wellFormed (.obj a2) = true)
    (hb : wellFormed (.obj b) = true) (ha : wellFormed (.obj a) = true)
    (hsb : sameValue (.obj b2) (.obj b) = true) (hsa : sameValue (.obj a2) (.obj a) = true) :
    List.Forall₂ (fun d e => sameLine d e = true) (diffLines sens b2 a2)
      (diffLines sens b a) := by
  unfold diffLines
  rw [collectUniqueKeys_congr_has b a b2 a2 (sameValue_mapHas b2 b hb2 hsb)
    (sameValue_mapHas a2 a ha2 hsa)]
  apply forall₂_flatMap_same
  intro k _
  exact diffEntry_same (sens k) b a b2 a2 k hb2 ha2 hb ha hsb hsa

/-- One snapshot of the loop of `isValueSensitive` decides alike on the same
value in another iteration order. -/
theorem sensitiveIn_cons_same (k : String) (x y : JValue) (l2 l : List JValue)
    (hx : wellFormed x = true) (hy : wellFormed y = true) (h : sameValue x y = true)
    (hrest : sensitiveIn k l2 = sensitiveIn k l) :
    sensitiveIn k (x :: l2) = sensitiveIn k (y :: l) := by
  cases x with
  | obj m2 =>
    cases y with
    | obj m =>
      obtain ⟨_, hw2⟩ := (wellFormed_obj m2).mp hx
      obtain ⟨_, hw⟩ := (wellFormed_obj m).mp hy
      rcases sameValue_obj_lookup m2 m hx h k with ⟨h1, h3⟩ | ⟨v2, v, h1, h3, hs⟩
      · simp only [sensitiveIn, asMap, h1, h3, hrest]
      · simp only [sensitiveIn, asMap, h1, h3]
        exact isAnySensitive_of_sameValue v2 v
          (hw2 k v2 (mem_of_lookup_eq_some m2 k v2 h1))
          (hw k v (mem_of_lookup_eq_some m k v h3)) hs
    | _ => simp [sameValue] at h
  | null => cases y <;> simp [sameValue] at h; simp only [sensitiveIn, asMap, hrest]
  | bool _ => cases y <;> simp [sameValue] at h; simp only [sensitiveIn, asMap, hrest]
  | num _ => cases y <;> simp [sameValue] at h; simp only [sensitiveIn, asMap, hrest]
  | str _ => cases y <;> simp [sameValue] at h; simp only [sensitiveIn, asMap, hrest]
  | arr _ => cases y <;> simp [sameValue] at h; simp only [sensitiveIn, asMap, hrest]

/-- The sensitivity test of `GenerateDiff` gives the same result, or panics
alike, for the same sensitivity metadata in another iteration order. -/
theorem redacted_same (r2 r : Option ResourceChange) (hs : sameSensitivity r2 r = true)
    (hw2 : wellFormedSensitivity r2 = true) (hw : wellFormedSensitivity r = true)
    (k : String) : redacted r2 k = redacted r k := by
  cases r2 with
  | none =>
    cases r with
    | none => rfl
    | some y => simp [sameSensitivity] at hs
  | some x =>
    cases r with
    | none => simp [sameSensitivity] at hs
    | some y =>
      obtain ⟨ax, cx⟩ := x
      obtain ⟨ay, cy⟩ := y
      cases cx with
      | none =>
        cases cy with
        | none => rfl
        | some e => simp [sameSensitivity] at hs
      | some c =>
        cases cy with
        | none => simp [sameSensitivity] at hs
        | some e =>
          simp only [sameSensitivity, Bool.and_eq_true] at hs
          simp only [wellFormedSensitivity, Bool.and_eq_true] at hw2 hw
          simp only [redacted, isValueSensitive, Option.some.injEq]
          exact sensitiveIn_cons_same k _ _ _ _ hw2.1 hw.1 hs.1
            (sensitiveIn_cons_same k _ _ _ _ hw2.2 hw.2 hs.2 rfl)

theorem hasChange_same (r2 r : Option ResourceChange) (hs : sameSensitivity r2 r = true) :
    (r2 = none ∨ hasChange r2 = true) ↔ (r = none ∨ hasChange r = true) := by
  cases r2 with
  | none =>
    cases r with
    | none => simp
    | some y => simp [sameSensitivity] at hs
  | some x =>
    cases r with
    | none => simp [sameSensitivity] at hs
    | some y =>
      obtain ⟨ax, cx⟩ := x
      obtain ⟨ay, cy⟩ := y
      cases cx <;> cases cy <;> simp [sameSensitivity, hasChange] at hs ⊢

/-! ## The field diff generator: order and determinism -/

/-- C5: when `GenerateDiff` returns, the keys of its entries are in strictly
ascending order and pairwise distinct; the result is the same for any two
pairs of association lists that hold the same value under every key, in
particular for reorderings of the entries of maps with distinct keys; and
for the same resource and the same two maps in any other iteration order, of
the maps, of the sensitivity metadata and of the mappings nested in them,
`GenerateDiff` panics alike and returns the same entries in the same order. -/
theorem GenerateDiff_sorted_deterministic (r : Option ResourceChange) (b a : JMap) :
    (r = none ∨ hasChange r = true → ∃ ds, GenerateDiff r b a = some ds) ∧
      (∀ ds, GenerateDiff r b a = some ds →
        (ds.map (fun d => d.Key)).Pairwise (fun x y => strLt x y = true) ∧
          (ds.map (fun d => d.Key)).Nodup) ∧
      (∀ b2 a2 : JMap, (∀ k, b2.lookup k = b.lookup k) → (∀ k, a2.lookup k = a.lookup k) →
        GenerateDiff r b2 a2 = GenerateDiff r b a) ∧
      (∀ b2 a2 : JMap, b2.Perm b → a2.Perm a → (mapKeys b).Nodup → (mapKeys a).Nodup →
        GenerateDiff r b2 a2 = GenerateDiff r b a) ∧
      (∀ (r2 : Option ResourceChange) (b2 a2 : JMap),
        wellFormedSensitivity r = true → wellFormed (.obj b) = true →
        wellFormed (.obj a) = true → wellFormedSensitivity r2 = true →
        wellFormed (.obj b2) = true → wellFormed (.obj a2) = true →
        sameSensitivity r2 r = true → sameValue (.obj b2) (.obj b) = true →
        sameValue (.obj a2) (.obj a) = true →
          (GenerateDiff r b a = none → GenerateDiff r2 b2 a2 = none) ∧
            ∀ ds, GenerateDiff r b a = some ds →
              ∃ ds2, GenerateDiff r2 b2 a2 = some ds2 ∧
                List.Forall₂ (fun d e => sameLine d e = true) ds2 ds) := by
  refine ⟨?_, ?_, ?_, ?_, ?_⟩
  · intro hr
    exact ⟨_, GenerateDiff_of_hasChange r b a hr⟩
  · intro ds hds
    rw [(GenerateDiff_some r b a ds hds).1]
    exact ⟨(strictSorted_collectUniqueKeys b a).sublist (keys_diffLines_sublist _ b a),
      (nodup_collectUniqueKeys b a).sublist (keys_diffLines_sublist _ b a)⟩
  · intro b2 a2 hb ha
    exact GenerateDiff_congr r b a b2 a2 hb ha
  · intro b2 a2 hb ha hnb hna
    exact GenerateDiff_congr r b a b2 a2 (lookup_eq_of_perm b2 b hb hnb)
      (lookup_eq_of_perm a2 a ha hna)
  · intro r2 b2 a2 hwr hwb hwa hwr2 hwb2 hwa2 hsr hsb hsa
    have hkeys := collectUniqueKeys_congr_has b a b2 a2 (sameValue_mapHas b2 b hwb2 hsb)
      (sameValue_mapHas a2 a hwa2 hsa)
    have hflag : sensitiveFlag r2 = sensitiveFlag r := by
      funext k
      unfold sensitiveFlag
      rw [redacted_same r2 r hsr hwr2 hwr k]
    by_cases hr : r = none ∨ hasChange r = true
    · have hr2 := (hasChange_same r2 r hsr).mpr hr
      rw [GenerateDiff_of_hasChange r b a hr, GenerateDiff_of_hasChange r2 b2 a2 hr2, hflag]
      refine ⟨fun h => Option.noConfusion h, ?_⟩
      intro ds hds
      cases hds
      exact ⟨_, rfl, diffLines_same _ b a b2 a2 hwb2 hwa2 hwb hwa hsb hsa⟩
    · have hr2 : ¬ (r2 = none ∨ hasChange r2 = true) :=
        fun h => hr ((hasChange_same r2 r hsr).mp h)
      rw [GenerateDiff_of_no_change r b a hr, GenerateDiff_of_no_change r2 b2 a2 hr2, hkeys]
      refine ⟨fun h => h, ?_⟩
      intro ds hds
      refine ⟨ds, hds, ?_⟩
      by_cases hk : collectUniqueKeys b a = []
      · rw [if_pos hk] at hds
        cases hds
        exact List.Forall₂.nil
      · rw [if_neg hk] at hds
        cases hds

/-- C5 at sample inputs: the keys come out as ami, size, zone; the snapshots
with their entries swapped give the same result; and the sensitivity
metadata of `sampleSecrets` in another iteration order, also of its nested
mapping, gives the same entries. -/
theorem GenerateDiff_sorted_deterministic_witness :
    (∃ ds, GenerateDiff none sampleBefore sampleAfter = some ds ∧
        ds.map (fun d => d.Key) = ["ami", "size", "zone"]) ∧
      GenerateDiff none sampleBefore.reverse sampleAfter.reverse =
        GenerateDiff none sampleBefore sampleAfter ∧
      (∃ ds2, GenerateDiff (some sampleSecretsReordered)
            [("password", .str "old"), ("name", .str "db")]
            [("name", .str "db2"), ("password", .str "new")] = some ds2 ∧
          List.Forall₂ (fun d e => sameLine d e = true) ds2
            [⟨"name", .str "db", .str "db2", DiffChanged⟩]) :=
  ⟨⟨_, rfl, rfl⟩,
    (GenerateDiff_sorted_deterministic none sampleBefore sampleAfter).2.2.2.1
      sampleBefore.reverse sampleAfter.reverse (List.reverse_perm _) (List.reverse_perm _)
      (by decide) (by decide),
    ((GenerateDiff_sorted_deterministic (some sampleSecrets)
        [("name", .str "db"), ("password", .str "old")]
        [("password", .str "new"), ("name", .str "db2")]).2.2.2.2
      (some sampleSecretsReordered) [("password", .str "old"), ("name", .str "db")]
      [("name", .str "db2"), ("password", .str "new")]
      (by decide) (by decide) (by decide) (by decide) (by decide) (by decide)
      (by decide) (by decide) (by decide)).2 _ rfl⟩

/-! ## Lemmas: plan aggregator -/

theorem mem_recordsOf (rcs : List (Option ResourceChange)) (r : ResourceChange) :
    r ∈ recordsOf rcs ↔ some r ∈ rcs := by
  simp [recordsOf, List.mem_filterMap]

theorem classOf_cons (t : ActionType) (r : ResourceChange) (l : List ResourceChange) :
    classOf t (r :: l) = classOf t [r] ++ classOf t l := by
  unfold classOf
  rw [← List.filter_append]
  rfl

theorem mem_classOf (t : ActionType) (l : List ResourceChange) (r : ResourceChange)
    (h : r ∈ classOf t l) : r ∈ l :=
  (List.mem_filter.mp h).1

/-- The loop body files a record under created when it has an action and is
classified as create. -/
theorem fileRecord_created (c : ChangeCategories) (r : ResourceChange) :
    (fileRecord c r (actionsOf r)).Created = c.Created ++ classOf ActionCreate [r] := by
  unfold fileRecord classOf
  by_cases h0 : actionsOf r = []
  · simp [h0]
  · have h0' : ¬ (actionsOf r).length = 0 := by simpa using h0
    simp only [h0', if_false]
    rcases determineChangeType_mem (actionsOf r) with h | h | h | h <;>
      simp [h, h0, ActionCreate, ActionUpdate, ActionRecreate, ActionDelete]

theorem fileRecord_updated (c : ChangeCategories) (r : ResourceChange) :
    (fileRecord c r (actionsOf r)).Updated = c.Updated ++ classOf ActionUpdate [r] := by
  unfold fileRecord classOf
  by_cases h0 : actionsOf r = []
  · simp [h0]
  · have h0' : ¬ (actionsOf r).length = 0 := by simpa using h0
    simp only [h0', if_false]
    rcases determineChangeType_mem (actionsOf r) with h | h | h | h <;>
      simp [h, h0, ActionCreate, ActionUpdate, ActionRecreate, ActionDelete]

theorem fileRecord_recreated (c : ChangeCategories) (r : ResourceChange) :
    (fileRecord c r (actionsOf r)).Recreated = c.Recreated ++ classOf ActionRecreate [r] := by
  unfold fileRecord classOf
  by_cases h0 : actionsOf r = []
  · simp [h0]
  · have h0' : ¬ (actionsOf r).length = 0 := by simpa using h0
    simp only [h0', if_false]
    rcases determineChangeType_mem (actionsOf r) with h | h | h | h <;>
      simp [h, h0, ActionCreate, ActionUpdate, ActionRecreate, ActionDelete]

theorem fileRecord_deleted (c : ChangeCategories) (r : ResourceChange) :
    (fileRecord c r (actionsOf r)).Deleted = c.Deleted ++ classOf ActionDelete [r] := by
  unfold fileRecord classOf
  by_cases h0 : actionsOf r = []
  · simp [h0]
  · have h0' : ¬ (actionsOf r).length = 0 := by simpa using h0
    simp only [h0', if_false]
    rcases determineChangeType_mem (actionsOf r) with h | h | h | h <;>
      simp [h, h0, ActionCreate, ActionUpdate, ActionRecreate, ActionDelete]

/-- The loop body on a record that carries its change. -/
theorem categorizeStep_some (c : ChangeCategories) (r : ResourceChange)
    (h : hasChange (some r) = true) :
    categorizeStep c (some r) = some (fileRecord c r (actionsOf r)) := by
  unfold categorizeStep actionsOf
  cases hc : r.Change with
  | none => simp [hasChange, hc] at h
  | some ch => simp [hc]

/-- The loop body panics on a nil element and on a record without change. -/
theorem categorizeStep_none (c : ChangeCategories) (x : Option ResourceChange)
    (h : hasChange x = false) : categorizeStep c x = none := by
  unfold categorizeStep
  cases x with
  | none => rfl
  | some r =>
    cases hc : r.Change with
    | none => simp [hc]
    | some ch => simp [hasChange, hc] at h

/-- The loop of `categorizeChanges` panics when an element of the list is nil
or a record without change; otherwise it adds to each category the records
of its class, in the order of the list. -/
theorem categorizeLoop_eq (rcs : List (Option ResourceChange)) (c : ChangeCategories) :
    categorizeLoop rcs c =
      if rcs.all hasChange = true then
        some ⟨c.Created ++ classOf ActionCreate (recordsOf rcs),
          c.Updated ++ classOf ActionUpdate (recordsOf rcs),
          c.Recreated ++ classOf ActionRecreate (recordsOf rcs),
          c.Deleted ++ classOf ActionDelete (recordsOf rcs)⟩
      else none := by
  induction rcs generalizing c with
  | nil => simp [categorizeLoop, recordsOf, classOf]
  | cons x rest ih =>
    cases hx : hasChange x with
    | false =>
      simp [categorizeLoop, categorizeStep_none c x hx, hx]
    | true =>
      cases x with
      | none => simp [hasChange] at hx
      | some r =>
        have hrec : recordsOf (some r :: rest) = r :: recordsOf rest := by
          simp [recordsOf]
        simp only [categorizeLoop, categorizeStep_some c r hx, ih, List.all_cons, hx,
          Bool.true_and, hrec]
        rw [classOf_cons ActionCreate, classOf_cons ActionUpdate, classOf_cons ActionRecreate,
          classOf_cons ActionDelete, fileRecord_created, fileRecord_updated,
          fileRecord_recreated, fileRecord_deleted]
        simp only [List.append_assoc]

theorem categorizeChanges_eq (rcs : List (Option ResourceChange)) :
    categorizeChanges rcs =
      if rcs.all hasChange = true then
        some ⟨classOf ActionCreate (recordsOf rcs), classOf ActionUpdate (recordsOf rcs),
          classOf ActionRecreate (recordsOf rcs), classOf ActionDelete (recordsOf rcs)⟩
      else none := by
  unfold categorizeChanges
  rw [categorizeLoop_eq]
  simp only [List.nil_append]

/-- With no nil element in it, a record list is the list of its records. -/
theorem eq_map_recordsOf (rcs : List (Option ResourceChange))
    (h : rcs.all hasChange = true) : rcs = (recordsOf rcs).map some := by
  induction rcs with
  | nil => rfl
  | cons x rest ih =>
    simp only [List.all_cons, Bool.and_eq_true] at h
    cases x with
    | none => simp [hasChange] at h
    | some r =>
      have hrec : recordsOf (some r :: rest) = r :: recordsOf rest := by
        simp [recordsOf]
      rw [hrec, List.map_cons, ← ih h.2]

theorem hasChange_of_mem_recordsOf (rcs : List (Option ResourceChange))
    (h : rcs.all hasChange = true) (r : ResourceChange) (hr : r ∈ recordsOf rcs) :
    hasChange (some r) = true :=
  List.all_eq_true.mp h (some r) ((mem_recordsOf rcs r).mp hr)

/-- The entry of a record that carries its change. -/
theorem buildResourceEntry_of_hasChange (t : ActionType) (r : ResourceChange)
    (h : hasChange (some r) = true) :
    ∃ d, buildResourceEntry t r = some d := by
  unfold buildResourceEntry
  cases hc : r.Change with
  | none => simp [hasChange, hc] at h
  | some ch =>
    simp only
    rw [GenerateDiff_of_hasChange (some r) _ _ (Or.inr h)]
    exact ⟨_, rfl⟩

/-- An entry carries the address of its record and the type asked for. -/
theorem buildResourceEntry_some (t : ActionType) (r : ResourceChange) (d : ResourceData)
    (h : buildResourceEntry t r = some d) :
    d.Address = r.Address ∧ d.ChangeType = t ∧ hasChange (some r) = true := by
  unfold buildResourceEntry at h
  cases hc : r.Change with
  | none => simp [hc] at h
  | some ch =>
    simp only [hc] at h
    cases hg : GenerateDiff (some r) (mapOrEmpty ch.Before) (mapOrEmpty ch.After) with
    | none => simp [hg] at h
    | some ds =>
      simp only [hg, Option.some.injEq] at h
      subst h
      exact ⟨rfl, rfl, by simp [hasChange, hc]⟩

/-- What `buildResourceData` returns when it returns: the entries of the
records, in their order. -/
theorem buildResourceData_some (l : List ResourceChange) (t : ActionType) :
    ∀ ds, buildResourceData l t = some ds → ds.map some = l.map (buildResourceEntry t) := by
  induction l with
  | nil =>
    intro ds h
    simp only [buildResourceData, Option.some.injEq] at h
    subst h
    rfl
  | cons r rest ih =>
    intro ds h
    simp only [buildResourceData] at h
    cases he : buildResourceEntry t r with
    | none => simp [he] at h
    | some d =>
      cases hrest : buildResourceData rest t with
      | none => simp [he, hrest] at h
      | some ds2 =>
        simp only [he, hrest, Option.some.injEq] at h
        subst h
        rw [List.map_cons, List.map_cons, he, ih ds2 hrest]

/-- The call `buildResourceData` returns on records that carry their change. -/
theorem buildResourceData_of_hasChange (l : List ResourceChange) (t : ActionType)
    (h : ∀ r ∈ l, hasChange (some r) = true) : ∃ ds, buildResourceData l t = some ds := by
  induction l with
  | nil => exact ⟨[], rfl⟩
  | cons r rest ih =>
    obtain ⟨d, hd⟩ := buildResourceEntry_of_hasChange t r (h r (List.mem_cons_self _ _))
    obtain ⟨ds, hds⟩ := ih (fun x hx => h x (List.mem_cons_of_mem _ hx))
    exact ⟨d :: ds, by simp [buildResourceData, hd, hds]⟩

theorem buildResourceData_addresses (l : List ResourceChange) (t : ActionType)
    (ds : List ResourceData) (h : buildResourceData l t = some ds) :
    ds.map (fun d => d.Address) = l.map (fun r => r.Address) ∧
      ∀ d ∈ ds, d.ChangeType = t := by
  induction l generalizing ds with
  | nil =>
    simp only [buildResourceData, Option.some.injEq] at h
    subst h
    exact ⟨rfl, fun d hd => absurd hd (List.not_mem_nil d)⟩
  | cons r rest ih =>
    simp only [buildResourceData] at h
    cases he : buildResourceEntry t r with
    | none => simp [he] at h
    | some d =>
      cases hrest : buildResourceData rest t with
      | none => simp [he, hrest] at h
      | some ds2 =>
        simp only [he, hrest, Option.some.injEq] at h
        subst h
        obtain ⟨ha, ht⟩ := ih ds2 hrest
        obtain ⟨hda, hdt, _⟩ := buildResourceEntry_some t r d he
        refine ⟨by rw [List.map_cons, List.map_cons, hda, ha], ?_⟩
        intro x hx
        rcases List.mem_cons.mp hx with e | e
        · rw [e]; exact hdt
        · exact ht x e

/-- What `buildPlanData` returns when it returns. -/
theorem buildPlanData_some (sortSlice : List ResourceChange → List ResourceChange)
    (c : ChangeCategories) (pd : PlanData) (h : buildPlanData sortSlice c = some pd) :
    pd.HasChanges = (decide ((sortSlice c.Created).length > 0) ||
        decide ((sortSlice c.Updated).length > 0) ||
        decide ((sortSlice c.Recreated).length > 0) ||
        decide ((sortSlice c.Deleted).length > 0)) ∧
      buildResourceData (sortSlice c.Created) ActionCreate = some pd.CreatedResources ∧
      buildResourceData (sortSlice c.Updated) ActionUpdate = some pd.UpdatedResources ∧
      buildResourceData (sortSlice c.Recreated) ActionRecreate = some pd.RecreatedResources ∧
      buildResourceData (sortSlice c.Deleted) ActionDelete = some pd.DeletedResources := by
  unfold buildPlanData at h
  simp only at h
  cases h1 : buildResourceData (sortSlice c.Created) ActionCreate with
  | none => simp [h1] at h
  | some d1 =>
    cases h2 : buildResourceData (sortSlice c.Updated) ActionUpdate with
    | none => simp [h1, h2] at h
    | some d2 =>
      cases h3 : buildResourceData (sortSlice c.Recreated) ActionRecreate with
      | none => simp [h1, h2, h3] at h
      | some d3 =>
        cases h4 : buildResourceData (sortSlice c.Deleted) ActionDelete with
        | none => simp [h1, h2, h3, h4] at h
        | some d4 =>
          simp only [h1, h2, h3, h4, Option.some.injEq] at h
          subst h
          exact ⟨rfl, rfl, rfl, rfl, rfl⟩

/-- The call `buildPlanData` returns on categories whose records carry their
change, with a sort that keeps the records. -/
theorem buildPlanData_of_hasChange (sortSlice : List ResourceChange → List ResourceChange)
    (hperm : ∀ l, (sortSlice l).Perm l) (c : ChangeCategories)
    (h1 : ∀ r ∈ c.Created, hasChange (some r) = true)
    (h2 : ∀ r ∈ c.Updated, hasChange (some r) = true)
    (h3 : ∀ r ∈ c.Recreated, hasChange (some r) = true)
    (h4 : ∀ r ∈ c.Deleted, hasChange (some r) = true) :
    ∃ pd, buildPlanData sortSlice c = some pd := by
  obtain ⟨d1, e1⟩ := buildResourceData_of_hasChange (sortSlice c.Created) ActionCreate
    (fun r hr => h1 r ((hperm _).mem_iff.mp hr))
  obtain ⟨d2, e2⟩ := buildResourceData_of_hasChange (sortSlice c.Updated) ActionUpdate
    (fun r hr => h2 r ((hperm _).mem_iff.mp hr))
  obtain ⟨d3, e3⟩ := buildResourceData_of_hasChange (sortSlice c.Recreated) ActionRecreate
    (fun r hr => h3 r ((hperm _).mem_iff.mp hr))
  obtain ⟨d4, e4⟩ := buildResourceData_of_hasChange (sortSlice c.Deleted) ActionDelete
    (fun r hr => h4 r ((hperm _).mem_iff.mp hr))
  unfold buildPlanData
  simp only [e1, e2, e3, e4]
  exact ⟨_, rfl⟩

/-- What `ProcessPlan` returns when it returns a `PlanData`. -/
theorem ProcessPlan_ok (sortSlice : List ResourceChange → List ResourceChange)
    (rcs : List (Option ResourceChange)) (pd : PlanData)
    (h : ProcessPlan sortSlice ⟨some rcs⟩ = .ok pd) :
    rcs.all hasChange = true ∧
      buildPlanData sortSlice ⟨classOf ActionCreate (recordsOf rcs),
        classOf ActionUpdate (recordsOf rcs), classOf ActionRecreate (recordsOf rcs),
        classOf ActionDelete (recordsOf rcs)⟩ = some pd := by
  unfold ProcessPlan at h
  simp only [categorizeChanges_eq] at h
  cases hall : rcs.all hasChange with
  | false => simp [hall] at h
  | true =>
    refine ⟨rfl, ?_⟩
    simp only [hall, if_true] at h
    cases hb : buildPlanData sortSlice ⟨classOf ActionCreate (recordsOf rcs),
        classOf ActionUpdate (recordsOf rcs), classOf ActionRecreate (recordsOf rcs),
        classOf ActionDelete (recordsOf rcs)⟩ with
    | none => simp [hb] at h
    | some pd2 =>
      simp only [hb, Outcome.ok.injEq] at h
      rw [h]

/-- The call `ProcessPlan` returns a `PlanData` for a list of records that
carry their change. -/
theorem ProcessPlan_of_all (sortSlice : List ResourceChange → List ResourceChange)
    (hperm : ∀ l, (sortSlice l).Perm l) (rcs : List (Option ResourceChange))
    (hall : rcs.all hasChange = true) : ∃ pd, ProcessPlan sortSlice ⟨some rcs⟩ = .ok pd := by
  have hmem : ∀ t, ∀ r ∈ classOf t (recordsOf rcs), hasChange (some r) = true :=
    fun t r hr => hasChange_of_mem_recordsOf rcs hall r (mem_classOf t _ r hr)
  obtain ⟨pd, hpd⟩ := buildPlanData_of_hasChange sortSlice hperm
    ⟨classOf ActionCreate (recordsOf rcs), classOf ActionUpdate (recordsOf rcs),
      classOf ActionRecreate (recordsOf rcs), classOf ActionDelete (recordsOf rcs)⟩
    (hmem _) (hmem _) (hmem _) (hmem _)
  refine ⟨pd, ?_⟩
  unfold ProcessPlan
  simp only [categorizeChanges_eq, hall, if_true, hpd]

/-- The call `ProcessPlan` panics on a list with a nil element or a record
without change. -/
theorem ProcessPlan_panic (sortSlice : List ResourceChange → List ResourceChange)
    (rcs : List (Option ResourceChange)) (hall : rcs.all hasChange = false) :
    ProcessPlan sortSlice ⟨some rcs⟩ = .panic := by
  unfold ProcessPlan
  simp only [categorizeChanges_eq, hall]
  rfl

/-- The outcome of `ProcessPlan` on a non-nil list by the records of the list. -/
theorem ProcessPlan_outcome (sortSlice : List ResourceChange → List ResourceChange)
    (hperm : ∀ l, (sortSlice l).Perm l) (rcs : List (Option ResourceChange)) :
    ((∃ pd, ProcessPlan sortSlice ⟨some rcs⟩ = .ok pd) ↔ ∀ x ∈ rcs, hasChange x = true) ∧
      (ProcessPlan sortSlice ⟨some rcs⟩ = .panic ↔ ∃ x ∈ rcs, hasChange x = false) ∧
      ∀ e, ProcessPlan sortSlice ⟨some rcs⟩ ≠ .error e := by
  cases hall : rcs.all hasChange with
  | true =>
    obtain ⟨pd, hpd⟩ := ProcessPlan_of_all sortSlice hperm rcs hall
    have hall2 := List.all_eq_true.mp hall
    refine ⟨⟨fun _ => hall2, fun _ => ⟨pd, hpd⟩⟩, ?_, ?_⟩
    · rw [hpd]
      constructor
      · intro h; cases h
      · rintro ⟨x, hx, hf⟩
        rw [hall2 x hx] at hf
        cases hf
    · intro e
      rw [hpd]
      intro h
      cases h
  | false =>
    have hp := ProcessPlan_panic sortSlice rcs hall
    have hex : ∃ x ∈ rcs, hasChange x = false := by
      by_contra hne
      have : rcs.all hasChange = true := by
        rw [List.all_eq_true]
        intro x hx
        cases hh : hasChange x with
        | true => rfl
        | false => exact absurd ⟨x, hx, hh⟩ hne
      rw [this] at hall
      cases hall
    refine ⟨⟨?_, ?_⟩, ⟨fun _ => hex, fun _ => hp⟩, ?_⟩
    · rintro ⟨pd, hpd⟩
      rw [hp] at hpd
      cases hpd
    · intro h
      obtain ⟨x, hx, hf⟩ := hex
      rw [h x hx] at hf
      cases hf
    · intro e
      rw [hp]
      intro h
      cases h

/-- The four classes together hold each record with an action once. -/
theorem classes_perm (rcs : List ResourceChange) :
    (classOf ActionCreate rcs ++ classOf ActionUpdate rcs ++ classOf ActionRecreate rcs ++
      classOf ActionDelete rcs).Perm (rcs.filter (fun r => decide (actionsOf r ≠ []))) := by
  unfold classOf
  induction rcs with
  | nil => simp
  | cons r rest ih =>
    by_cases h0 : actionsOf r = []
    · simpa [List.filter_cons, h0] using ih
    · rcases determineChangeType_mem (actionsOf r) with h | h | h | h
      · simp only [List.filter_cons, h0, h, ne_eq, not_false_eq_true, decide_True,
          Bool.true_and, ActionCreate, ActionUpdate, ActionRecreate, ActionDelete,
          String.reduceEq, decide_False, if_true, if_false, Bool.false_eq_true,
          List.cons_append]
        exact List.Perm.cons r (by simpa [ActionCreate, ActionUpdate, ActionRecreate,
          ActionDelete] using ih)
      · simp only [List.filter_cons, h0, h, ne_eq, not_false_eq_true, decide_True,
          Bool.true_and, ActionCreate, ActionUpdate, ActionRecreate, ActionDelete,
          String.reduceEq, decide_False, if_true, if_false, Bool.false_eq_true,
          List.cons_append, List.append_assoc]
        refine List.perm_middle.trans (List.Perm.cons r ?_)
        simpa [ActionCreate, ActionUpdate, ActionRecreate, ActionDelete,
          List.append_assoc] using ih
      · simp only [List.filter_cons, h0, h, ne_eq, not_false_eq_true, decide_True,
          Bool.true_and, ActionCreate, ActionUpdate, ActionRecreate, ActionDelete,
          String.reduceEq, decide_False, if_true, if_false, Bool.false_eq_true,
          List.cons_append]
        rw [List.append_assoc (_ ++ _) (r :: _) _, List.cons_append]
        refine List.perm_middle.trans (List.Perm.cons r ?_)
        simpa [ActionCreate, ActionUpdate, ActionRecreate, ActionDelete,
          List.append_assoc] using ih
      · simp only [List.filter_cons, h0, h, ne_eq, not_false_eq_true, decide_True,
          Bool.true_and, ActionCreate, ActionUpdate, ActionRecreate, ActionDelete,
          String.reduceEq, decide_False, if_true, if_false, Bool.false_eq_true,
          List.cons_append]
        refine List.perm_middle.trans (List.Perm.cons r ?_)
        simpa [ActionCreate, ActionUpdate, ActionRecreate, ActionDelete,
          List.append_assoc] using ih

theorem perm_insertionSortByAddress (l : List ResourceChange) :
    (insertionSortByAddress l).Perm l :=
  List.perm_insertionSort addrLe l

theorem sorted_insertionSortByAddress (l : List ResourceChange) :
    (insertionSortByAddress l).Pairwise addrLe :=
  haveI : IsTotal ResourceChange addrLe := ⟨fun x y => strLe_total x.Address y.Address⟩
  haveI : IsTrans ResourceChange addrLe :=
    ⟨fun x y z => strLe_trans x.Address y.Address z.Address⟩
  List.sorted_insertionSort addrLe l

/-! ## The plan aggregator: claims -/

theorem classOf_relabel (t : ActionType) (l : List ResourceChange) :
    (classOf t l).map (buildResourceEntry t) =
      (classOf t l).map (fun r => buildResourceEntry (determineChangeType (actionsOf r)) r) := by
  apply List.map_congr_left
  intro r hr
  have := (List.mem_filter.mp hr).2
  simp only [Bool.and_eq_true, decide_eq_true_eq] at this
  rw [this.2]

/-- C6: with `sort.Slice` any function that rearranges a list, `ProcessPlan`
returns a `PlanData` for a non-nil record list exactly when every element of
the list is a record that carries its change, and panics otherwise; the four
buckets of a returned `PlanData` partition the records that have an action:
each bucket holds, up to order, one entry per record with an action that
`determineChangeType` files under the bucket's type, the entry carrying the
record's address and the bucket's type; taken together the buckets hold one
entry per record with an action (duplicated addresses are kept) and nothing
for a record with none. -/
theorem ProcessPlan_buckets_partition (sortSlice : List ResourceChange → List ResourceChange)
    (hperm : ∀ l, (sortSlice l).Perm l) (rcs : List (Option ResourceChange)) :
    ((∃ pd, ProcessPlan sortSlice ⟨some rcs⟩ = .ok pd) ↔ ∀ x ∈ rcs, hasChange x = true) ∧
      (ProcessPlan sortSlice ⟨some rcs⟩ = .panic ↔ ∃ x ∈ rcs, hasChange x = false) ∧
      ∀ pd, ProcessPlan sortSlice ⟨some rcs⟩ = .ok pd →
        rcs = (recordsOf rcs).map some ∧
        (pd.CreatedResources.map some).Perm
          ((classOf ActionCreate (recordsOf rcs)).map (buildResourceEntry ActionCreate)) ∧
        (pd.UpdatedResources.map some).Perm
          ((classOf ActionUpdate (recordsOf rcs)).map (buildResourceEntry ActionUpdate)) ∧
        (pd.RecreatedResources.map some).Perm
          ((classOf ActionRecreate (recordsOf rcs)).map (buildResourceEntry ActionRecreate)) ∧
        (pd.DeletedResources.map some).Perm
          ((classOf ActionDelete (recordsOf rcs)).map (buildResourceEntry ActionDelete)) ∧
        ((pd.CreatedResources ++ pd.UpdatedResources ++ pd.RecreatedResources ++
            pd.DeletedResources).map some).Perm
          (((recordsOf rcs).filter (fun r => decide (actionsOf r ≠ []))).map
            (fun r => buildResourceEntry (determineChangeType (actionsOf r)) r)) ∧
        (∀ d ∈ pd.CreatedResources, d.ChangeType = ActionCreate) ∧
        (∀ d ∈ pd.UpdatedResources, d.ChangeType = ActionUpdate) ∧
        (∀ d ∈ pd.RecreatedResources, d.ChangeType = ActionRecreate) ∧
        (∀ d ∈ pd.DeletedResources, d.ChangeType = ActionDelete) ∧
        (∀ t r d, buildResourceEntry t r = some d → d.Address = r.Address ∧ d.ChangeType = t) := by
  obtain ⟨hok, hpanic, _⟩ := ProcessPlan_outcome sortSlice hperm rcs
  refine ⟨hok, hpanic, ?_⟩
  intro pd hpd
  obtain ⟨hall, hb⟩ := ProcessPlan_ok sortSlice rcs pd hpd
  obtain ⟨_, h1, h2, h3, h4⟩ := buildPlanData_some sortSlice _ pd hb
  simp only at h1 h2 h3 h4
  have bucket : ∀ (l : List ResourceChange) (t : ActionType) (ds : List ResourceData),
      buildResourceData (sortSlice l) t = some ds →
        (ds.map some).Perm (l.map (buildResourceEntry t)) := by
    intro l t ds h
    rw [buildResourceData_some (sortSlice l) t ds h]
    exact (hperm l).map _
  have p1 := bucket _ _ _ h1
  have p2 := bucket _ _ _ h2
  have p3 := bucket _ _ _ h3
  have p4 := bucket _ _ _ h4
  refine ⟨eq_map_recordsOf rcs hall, p1, p2, p3, p4, ?_,
    (buildResourceData_addresses _ _ _ h1).2, (buildResourceData_addresses _ _ _ h2).2,
    (buildResourceData_addresses _ _ _ h3).2, (buildResourceData_addresses _ _ _ h4).2,
    fun t r d h => ⟨(buildResourceEntry_some t r d h).1, (buildResourceEntry_some t r d h).2.1⟩⟩
  rw [List.map_append, List.map_append, List.map_append]
  refine (((p1.append p2).append p3).append p4).trans ?_
  rw [classOf_relabel, classOf_relabel, classOf_relabel, classOf_relabel, ← List.map_append,
    ← List.map_append, ← List.map_append]
  exact (classes_perm (recordsOf rcs)).map _

/-- C6 on sample lists, with an insertion sort for `sort.Slice`: a created and
a deleted record and one without actions give one entry in the created and
one in the deleted bucket; a record without change makes `ProcessPlan`
panic. -/
theorem ProcessPlan_buckets_partition_witness :
    (∃ pd, ProcessPlan insertionSortByAddress
        ⟨some [some sampleCreate, some sampleIdle, some sampleDelete]⟩ = .ok pd ∧
      (pd.CreatedResources.map some).Perm
        ([sampleCreate].map (buildResourceEntry ActionCreate)) ∧
      (pd.DeletedResources.map some).Perm
        ([sampleDelete].map (buildResourceEntry ActionDelete))) ∧
      ProcessPlan insertionSortByAddress ⟨some [some sampleCreate, some sampleNoChange]⟩ =
        .panic :=
  ⟨⟨_, rfl,
      ((ProcessPlan_buckets_partition insertionSortByAddress perm_insertionSortByAddress
        [some sampleCreate, some sampleIdle, some sampleDelete]).2.2 _ rfl).2.1,
      ((ProcessPlan_buckets_partition insertionSortByAddress perm_insertionSortByAddress
        [some sampleCreate, some sampleIdle, some sampleDelete]).2.2 _ rfl).2.2.2.2.1⟩,
    (ProcessPlan_buckets_partition insertionSortByAddress perm_insertionSortByAddress
      [some sampleCreate, some sampleNoChange]).2.1.mpr
      ⟨some sampleNoChange, by simp, rfl⟩⟩

theorem sorted_bucket (sortSlice : List ResourceChange → List ResourceChange)
    (hsorted : ∀ l, (sortSlice l).Pairwise addrLe) (l : List ResourceChange) (t : ActionType)
    (ds : List ResourceData) (h : buildResourceData (sortSlice l) t = some ds) :
    ds.Pairwise (fun x y => strLe x.Address y.Address) := by
  have ha := (buildResourceData_addresses _ _ _ h).1
  have hs : ((sortSlice l).map (fun r => r.Address)).Pairwise strLe := by
    rw [List.pairwise_map]
    exact hsorted l
  rw [← ha, List.pairwise_map] at hs
  exact hs

/-- C7: with `sort.Slice` any function that rearranges a list into
non-decreasing order of `Address`, `ProcessPlan` returns a `PlanData` for a
non-nil record list exactly when every element of the list is a record that
carries its change, and each of the four buckets of a returned `PlanData` is
in non-decreasing order of `Address`. -/
theorem ProcessPlan_buckets_sorted (sortSlice : List ResourceChange → List ResourceChange)
    (hperm : ∀ l, (sortSlice l).Perm l) (hsorted : ∀ l, (sortSlice l).Pairwise addrLe)
    (rcs : List (Option ResourceChange)) :
    ((∃ pd, ProcessPlan sortSlice ⟨some rcs⟩ = .ok pd) ↔ ∀ x ∈ rcs, hasChange x = true) ∧
      ∀ pd, ProcessPlan sortSlice ⟨some rcs⟩ = .ok pd →
        pd.CreatedResources.Pairwise (fun x y => strLe x.Address y.Address) ∧
        pd.UpdatedResources.Pairwise (fun x y => strLe x.Address y.Address) ∧
        pd.RecreatedResources.Pairwise (fun x y => strLe x.Address y.Address) ∧
        pd.DeletedResources.Pairwise (fun x y => strLe x.Address y.Address) := by
  refine ⟨(ProcessPlan_outcome sortSlice hperm rcs).1, ?_⟩
  intro pd hpd
  obtain ⟨_, hb⟩ := ProcessPlan_ok sortSlice rcs pd hpd
  obtain ⟨_, h1, h2, h3, h4⟩ := buildPlanData_some sortSlice _ pd hb
  exact ⟨sorted_bucket sortSlice hsorted _ _ _ h1, sorted_bucket sortSlice hsorted _ _ _ h2,
    sorted_bucket sortSlice hsorted _ _ _ h3, sorted_bucket sortSlice hsorted _ _ _ h4⟩

/-- C7 on two created records given in descending order of address: the
created bucket comes out in ascending order. -/
theorem ProcessPlan_buckets_sorted_witness :
    ∃ pd, ProcessPlan insertionSortByAddress
        ⟨some [some sampleCreate, some ⟨"aws_instance.db", sampleCreate.Change⟩]⟩ = .ok pd ∧
      pd.CreatedResources.map (fun d => d.Address) = ["aws_instance.db", "aws_instance.web"] ∧
      pd.CreatedResources.Pairwise (fun x y => strLe x.Address y.Address) :=
  ⟨_, rfl, rfl,
    ((ProcessPlan_buckets_sorted insertionSortByAddress perm_insertionSortByAddress
      sorted_insertionSortByAddress
      [some sampleCreate, some ⟨"aws_instance.db", sampleCreate.Change⟩]).2 _ rfl).1⟩

/-- C8: `ProcessPlan` returns an error exactly when the `ResourceChanges` list
of the plan is nil, and then the error of the incomplete plan and no
`PlanData`; on a non-nil list it returns a `PlanData` when every element is a
record that carries its change and panics otherwise; on the empty non-nil
list it returns a `PlanData` with `HasChanges` false and four empty buckets. -/
theorem ProcessPlan_error_iff_nil (sortSlice : List ResourceChange → List ResourceChange)
    (hperm : ∀ l, (sortSlice l).Perm l) (plan : Plan) :
    ((∃ e, ProcessPlan sortSlice plan = .error e) ↔ plan.ResourceChanges = none) ∧
      (∀ e, ProcessPlan sortSlice plan = .error e → e = errTerraformPlanEmpty) ∧
      ((∃ pd, ProcessPlan sortSlice plan = .ok pd) ↔
        ∃ rcs, plan.ResourceChanges = some rcs ∧ ∀ x ∈ rcs, hasChange x = true) ∧
      (ProcessPlan sortSlice plan = .panic ↔
        ∃ rcs, plan.ResourceChanges = some rcs ∧ ∃ x ∈ rcs, hasChange x = false) ∧
      ProcessPlan sortSlice ⟨none⟩ = .error errTerraformPlanEmpty ∧
      ProcessPlan sortSlice ⟨some []⟩ = .ok ⟨false, [], [], [], []⟩ := by
  have hnil : sortSlice [] = [] := List.perm_nil.mp (hperm [])
  have hempty : ProcessPlan sortSlice ⟨some []⟩ = .ok ⟨false, [], [], [], []⟩ := by
    simp [ProcessPlan, categorizeChanges, categorizeLoop, buildPlanData, hnil,
      buildResourceData]
  obtain ⟨rcs⟩ := plan
  cases rcs with
  | none =>
    refine ⟨by simp [ProcessPlan], ?_, by simp [ProcessPlan], by simp [ProcessPlan], rfl,
      hempty⟩
    intro e he
    simp only [ProcessPlan, Outcome.error.injEq] at he
    exact he.symm
  | some l =>
    obtain ⟨hok, hpanic, herr⟩ := ProcessPlan_outcome sortSlice hperm l
    refine ⟨?_, ?_, ?_, ?_, rfl, hempty⟩
    · constructor
      · rintro ⟨e, he⟩
        exact absurd he (herr e)
      · intro h
        cases h
    · intro e he
      exact absurd he (herr e)
    · rw [hok]
      simp
    · rw [hpanic]
      simp

/-- C8 on sample plans, with an insertion sort for `sort.Slice`: the plan
without a record list fails with the error of the incomplete plan, the plan
with the empty list gives the empty `PlanData`, and a plan whose record has
no change makes `ProcessPlan` panic. -/
theorem ProcessPlan_error_iff_nil_witness :
    (∃ e, ProcessPlan insertionSortByAddress ⟨none⟩ = .error e) ∧
      ProcessPlan insertionSortByAddress ⟨some []⟩ = .ok ⟨false, [], [], [], []⟩ ∧
      ProcessPlan insertionSortByAddress ⟨some [some sampleNoChange]⟩ = .panic :=
  ⟨(ProcessPlan_error_iff_nil insertionSortByAddress perm_insertionSortByAddress
      ⟨none⟩).1.mpr rfl,
    (ProcessPlan_error_iff_nil insertionSortByAddress perm_insertionSortByAddress
      ⟨none⟩).2.2.2.2.2,
    (ProcessPlan_error_iff_nil insertionSortByAddress perm_insertionSortByAddress
      ⟨some [some sampleNoChange]⟩).2.2.2.1.mpr
      ⟨_, rfl, some sampleNoChange, by simp, rfl⟩⟩

theorem bucket_ne_nil (sortSlice : List ResourceChange → List ResourceChange)
    (hperm : ∀ l, (sortSlice l).Perm l) (l : List ResourceChange) (t : ActionType)
    (ds : List ResourceData) (h : buildResourceData (sortSlice l) t = some ds) :
    (ds ≠ [] ↔ l ≠ []) ∧ (decide ((sortSlice l).length > 0) = true ↔ l ≠ []) := by
  have hlen : ds.length = l.length := by
    have := congrArg List.length (buildResourceData_some _ _ _ h)
    simp only [List.length_map] at this
    rw [this, (hperm l).length_eq]
  constructor
  · rw [ne_eq, ne_eq, ← List.length_eq_zero, ← List.length_eq_zero (l := l), hlen]
  · rw [decide_eq_true_eq, (hperm l).length_eq, gt_iff_lt, List.length_pos]

/-- Some class is non-empty exactly when some record has an action. -/
theorem classes_ne_nil (l : List ResourceChange) :
    (classOf ActionCreate l ≠ [] ∨ classOf ActionUpdate l ≠ [] ∨
        classOf ActionRecreate l ≠ [] ∨ classOf ActionDelete l ≠ []) ↔
      ∃ r ∈ l, actionsOf r ≠ [] := by
  have key : ∀ t : ActionType,
      classOf t l ≠ [] ↔ ∃ r ∈ l, actionsOf r ≠ [] ∧ determineChangeType (actionsOf r) = t := by
    intro t
    unfold classOf
    rw [ne_eq, List.filter_eq_nil_iff]
    simp only [Bool.and_eq_true, decide_eq_true_eq, not_forall, Classical.not_not,
      exists_prop]
  rw [key, key, key, key]
  constructor
  · rintro (⟨r, hm, h, _⟩ | ⟨r, hm, h, _⟩ | ⟨r, hm, h, _⟩ | ⟨r, hm, h, _⟩) <;>
      exact ⟨r, hm, h⟩
  · rintro ⟨r, hm, h⟩
    rcases determineChangeType_mem (actionsOf r) with ht | ht | ht | ht
    · exact Or.inl ⟨r, hm, h, ht⟩
    · exact Or.inr (Or.inl ⟨r, hm, h, ht⟩)
    · exact Or.inr (Or.inr (Or.inl ⟨r, hm, h, ht⟩))
    · exact Or.inr (Or.inr (Or.inr ⟨r, hm, h, ht⟩))

/-- The flag and the buckets of a returned `PlanData` by the records of the
list. -/
theorem ProcessPlan_hasChanges (sortSlice : List ResourceChange → List ResourceChange)
    (hperm : ∀ l, (sortSlice l).Perm l) (rcs : List (Option ResourceChange)) (pd : PlanData)
    (h : ProcessPlan sortSlice ⟨some rcs⟩ = .ok pd) :
    (pd.HasChanges = true ↔
        (pd.CreatedResources ≠ [] ∨ pd.UpdatedResources ≠ [] ∨
          pd.RecreatedResources ≠ [] ∨ pd.DeletedResources ≠ [])) ∧
      ((pd.CreatedResources ≠ [] ∨ pd.UpdatedResources ≠ [] ∨
          pd.RecreatedResources ≠ [] ∨ pd.DeletedResources ≠ []) ↔
        ∃ r, some r ∈ rcs ∧ actionsOf r ≠ []) := by
  obtain ⟨_, hb⟩ := ProcessPlan_ok sortSlice rcs pd h
  obtain ⟨hflag, h1, h2, h3, h4⟩ := buildPlanData_some sortSlice _ pd hb
  simp only at hflag h1 h2 h3 h4
  obtain ⟨n1, f1⟩ := bucket_ne_nil sortSlice hperm _ _ _ h1
  obtain ⟨n2, f2⟩ := bucket_ne_nil sortSlice hperm _ _ _ h2
  obtain ⟨n3, f3⟩ := bucket_ne_nil sortSlice hperm _ _ _ h3
  obtain ⟨n4, f4⟩ := bucket_ne_nil sortSlice hperm _ _ _ h4
  constructor
  · rw [hflag]
    simp only [Bool.or_eq_true, f1, f2, f3, f4, n1, n2, n3, n4, or_assoc]
  · rw [n1, n2, n3, n4, classes_ne_nil]
    constructor
    · rintro ⟨r, hr, ha⟩
      exact ⟨r, (mem_recordsOf rcs r).mp hr, ha⟩
    · rintro ⟨r, hr, ha⟩
      exact ⟨r, (mem_recordsOf rcs r).mpr hr, ha⟩

/-- C9: in a `PlanData` returned by `ProcessPlan`, `HasChanges` is true
exactly when one of the four buckets is non-empty, and that is so exactly
when a record of the plan has a non-empty action list. -/
theorem ProcessPlan_hasChanges_iff (sortSlice : List ResourceChange → List ResourceChange)
    (hperm : ∀ l, (sortSlice l).Perm l) (plan : Plan) (pd : PlanData)
    (h : ProcessPlan sortSlice plan = .ok pd) :
    (pd.HasChanges = true ↔
        (pd.CreatedResources ≠ [] ∨ pd.UpdatedResources ≠ [] ∨
          pd.RecreatedResources ≠ [] ∨ pd.DeletedResources ≠ [])) ∧
      ((pd.CreatedResources ≠ [] ∨ pd.UpdatedResources ≠ [] ∨
          pd.RecreatedResources ≠ [] ∨ pd.DeletedResources ≠ []) ↔
        ∃ rcs, plan.ResourceChanges = some rcs ∧ ∃ r, some r ∈ rcs ∧ actionsOf r ≠ []) := by
  obtain ⟨rcs⟩ := plan
  cases rcs with
  | none => simp [ProcessPlan] at h
  | some l =>
    obtain ⟨h1, h2⟩ := ProcessPlan_hasChanges sortSlice hperm l pd h
    refine ⟨h1, ?_⟩
    rw [h2]
    simp

/-- C9 on a plan with one created record and one record without actions:
`HasChanges` is true and a record has an action. -/
theorem ProcessPlan_hasChanges_iff_witness :
    ProcessPlan insertionSortByAddress ⟨some [some sampleIdle, some sampleCreate]⟩ =
        .ok ⟨true, [⟨"aws_instance.web", ActionCreate,
          [⟨"ami", .null, .str "ami-123", DiffAdded⟩]⟩], [], [], []⟩ ∧
      ∃ r, some r ∈ [some sampleIdle, some sampleCreate] ∧ actionsOf r ≠ [] :=
  ⟨rfl,
    let w := ProcessPlan_hasChanges_iff insertionSortByAddress perm_insertionSortByAddress
      ⟨some [some sampleIdle, some sampleCreate]⟩
      ⟨true, [⟨"aws_instance.web", ActionCreate,
          [⟨"ami", .null, .str "ami-123", DiffAdded⟩]⟩], [], [], []⟩ rfl
    match w.2.mp (w.1.mp rfl) with
    | ⟨_, hl, hr⟩ => by
      cases hl
      exact hr⟩

/-! ## The multi-plan aggregator -/

/-- The call `ProcessPlan` returns a `PlanData` for the plan of a file that
loads well. -/
theorem ProcessPlan_of_loadsWell (sortSlice : List ResourceChange → List ResourceChange)
    (hperm : ∀ l, (sortSlice l).Perm l) (load : String → Except String Plan) (f : String)
    (h : loadsWell load f) : ∃ p pd, load f = .ok p ∧ ProcessPlan sortSlice p = .ok pd := by
  obtain ⟨p, rcs, hp, hrc, hall⟩ := h
  obtain ⟨rc⟩ := p
  simp only at hrc
  subst hrc
  obtain ⟨pd, hpd⟩ := (ProcessPlan_outcome sortSlice hperm rcs).1.mpr hall
  exact ⟨_, pd, hp, hpd⟩

/-- The loop runs to its end when every file loads well. -/
theorem processPlansFrom_ok (sortSlice : List ResourceChange → List ResourceChange)
    (hperm : ∀ l, (sortSlice l).Perm l) (load : String → Except String Plan)
    (files : List String) (hgood : ∀ f ∈ files, loadsWell load f)
    (i : Nat) (acc : MultiPlanData) :
    ∃ m, processPlansFrom sortSlice load files i acc = .ok m := by
  induction files generalizing i acc with
  | nil => exact ⟨acc, rfl⟩
  | cons f rest ih =>
    obtain ⟨p, pd, hp, hpd⟩ := ProcessPlan_of_loadsWell sortSlice hperm load f
      (hgood f (List.mem_cons_self f rest))
    simp only [processPlansFrom, hp, hpd]
    exact ih (fun g hg => hgood g (List.mem_cons_of_mem f hg)) _ _

/-- The loop skips a prefix of files that load well. -/
theorem processPlansFrom_append (sortSlice : List ResourceChange → List ResourceChange)
    (hperm : ∀ l, (sortSlice l).Perm l) (load : String → Except String Plan)
    (pre rest : List String) (hgood : ∀ f ∈ pre, loadsWell load f)
    (i : Nat) (acc : MultiPlanData) :
    ∃ j acc2, processPlansFrom sortSlice load (pre ++ rest) i acc =
      processPlansFrom sortSlice load rest j acc2 := by
  induction pre generalizing i acc with
  | nil => exact ⟨i, acc, rfl⟩
  | cons f pre ih =>
    obtain ⟨p, pd, hp, hpd⟩ := ProcessPlan_of_loadsWell sortSlice hperm load f
      (hgood f (List.mem_cons_self f pre))
    simp only [List.cons_append, processPlansFrom, hp, hpd]
    exact ih (fun g hg => hgood g (List.mem_cons_of_mem f hg)) _ _

theorem processPlansFrom_load_error (sortSlice : List ResourceChange → List ResourceChange)
    (load : String → Except String Plan) (f : String)
    (post : List String) (e : String) (h : load f = .error e) (i : Nat)
    (acc : MultiPlanData) :
    processPlansFrom sortSlice load (f :: post) i acc =
      .error ("error loading plan file " ++ f ++ ": " ++ e) := by
  simp only [processPlansFrom, h]

theorem processPlansFrom_nil_error (sortSlice : List ResourceChange → List ResourceChange)
    (load : String → Except String Plan) (f : String)
    (post : List String) (p : Plan) (h : load f = .ok p) (hrc : p.ResourceChanges = none)
    (i : Nat) (acc : MultiPlanData) :
    processPlansFrom sortSlice load (f :: post) i acc =
      .error ("error processing plan file " ++ f ++ ": " ++ errTerraformPlanEmpty) := by
  simp only [processPlansFrom, h, ProcessPlan, hrc]

theorem processPlansFrom_panic (sortSlice : List ResourceChange → List ResourceChange)
    (hperm : ∀ l, (sortSlice l).Perm l) (load : String → Except String Plan) (f : String)
    (post : List String) (h : loadsBroken load f) (i : Nat) (acc : MultiPlanData) :
    processPlansFrom sortSlice load (f :: post) i acc = .panic := by
  obtain ⟨p, rcs, hp, hrc, hbad⟩ := h
  obtain ⟨rc⟩ := p
  simp only at hrc
  subst hrc
  have hpanic := (ProcessPlan_outcome sortSlice hperm rcs).2.1.mpr hbad
  simp only [processPlansFrom, hp, hpanic]

/-- A file loads well, or fails, or loads to a plan on which `ProcessPlan`
panics. -/
theorem load_cases (load : String → Except String Plan) (f : String) :
    loadsWell load f ∨ failsToLoad load f ∨ loadsBroken load f := by
  cases h : load f with
  | error e => exact Or.inr (Or.inl (Or.inl ⟨e, h⟩))
  | ok p =>
    obtain ⟨rc⟩ := p
    cases rc with
    | none => exact Or.inr (Or.inl (Or.inr ⟨_, h, rfl⟩))
    | some rcs =>
      by_cases hall : ∀ x ∈ rcs, hasChange x = true
      · exact Or.inl ⟨_, rcs, h, rfl, hall⟩
      · simp only [not_forall] at hall
        obtain ⟨x, hx, hne⟩ := hall
        refine Or.inr (Or.inr ⟨_, rcs, h, rfl, x, hx, ?_⟩)
        cases hh : hasChange x with
        | true => exact absurd hh hne
        | false => rfl

/-- Either every file of a list loads well, or the list splits at its first
file that does not. -/
theorem first_failure_split (load : String → Except String Plan) (files : List String) :
    (∀ f ∈ files, loadsWell load f) ∨
      ∃ pre f post, files = pre ++ f :: post ∧ (∀ g ∈ pre, loadsWell load g) ∧
        (failsToLoad load f ∨ loadsBroken load f) := by
  induction files with
  | nil => exact Or.inl (fun f hf => absurd hf (List.not_mem_nil f))
  | cons x xs ih =>
    rcases load_cases load x with hx | hx
    · rcases ih with hall | ⟨pre, g, post, hsplit, hpre, hg⟩
      · left
        intro f hf
        rcases List.mem_cons.mp hf with h | h
        · rw [h]; exact hx
        · exact hall f h
      · right
        refine ⟨x :: pre, g, post, by rw [hsplit, List.cons_append], ?_, hg⟩
        intro y hy
        rcases List.mem_cons.mp hy with h | h
        · rw [h]; exact hx
        · exact hpre y h
    · exact Or.inr ⟨[], x, xs, rfl, fun g hg => absurd hg (List.not_mem_nil g), hx⟩

/-- The original C10 fails: of two files, the first loads to a plan whose
record has no change and the second does not load; a file fails to load, and
`ProcessMultiplePlans` panics on the first file instead of returning an
error. -/
theorem ProcessMultiplePlans_error_iff_counterexample :
    ("missing.json" ∈ ["nochange.json", "missing.json"] ∧
        ∃ e, noChangeLoad "missing.json" = .error e) ∧
      ProcessMultiplePlans insertionSortByAddress noChangeLoad
        ["nochange.json", "missing.json"] = .panic ∧
      ¬ ∃ e, ProcessMultiplePlans insertionSortByAddress noChangeLoad
        ["nochange.json", "missing.json"] = .error e :=
  ⟨⟨by simp, "no such file", rfl⟩, rfl, fun ⟨_, he⟩ => Outcome.noConfusion he⟩

/-- C10, amended: with `sort.Slice` any function that rearranges a list,
`ProcessMultiplePlans` returns an error (and with it no `MultiPlanData`)
exactly when the file list is empty, or the first file in input order that
does not load well is one that fails to load or loads to a plan with a nil
`ResourceChanges` list; the error is the one of that file; it returns a
`MultiPlanData` exactly when the list is not empty and every file loads
well; and it panics exactly when the first file that does not load well
holds a nil record or a record without change. -/
theorem ProcessMultiplePlans_error_iff (sortSlice : List ResourceChange → List ResourceChange)
    (hperm : ∀ l, (sortSlice l).Perm l) (load : String → Except String Plan)
    (files : List String) :
    ((∃ e, ProcessMultiplePlans sortSlice load files = .error e) ↔
        (files = [] ∨ ∃ pre f post, files = pre ++ f :: post ∧
          (∀ g ∈ pre, loadsWell load g) ∧ failsToLoad load f)) ∧
      ((∃ m, ProcessMultiplePlans sortSlice load files = .ok m) ↔
        (files ≠ [] ∧ ∀ f ∈ files, loadsWell load f)) ∧
      (ProcessMultiplePlans sortSlice load files = .panic ↔
        ∃ pre f post, files = pre ++ f :: post ∧
          (∀ g ∈ pre, loadsWell load g) ∧ loadsBroken load f) ∧
      (files = [] → ProcessMultiplePlans sortSlice load files =
        .error "no plan files provided") ∧
      (∀ pre f post, files = pre ++ f :: post → (∀ g ∈ pre, loadsWell load g) →
        (∀ e, load f = .error e →
          ProcessMultiplePlans sortSlice load files =
            .error ("error loading plan file " ++ f ++ ": " ++ e)) ∧
        (∀ p, load f = .ok p → p.ResourceChanges = none →
          ProcessMultiplePlans sortSlice load files =
            .error ("error processing plan file " ++ f ++ ": " ++ errTerraformPlanEmpty)) ∧
        (loadsBroken load f → ProcessMultiplePlans sortSlice load files = .panic)) := by
  have hfirst : ∀ pre f post, files = pre ++ f :: post → (∀ g ∈ pre, loadsWell load g) →
      (∀ e, load f = .error e →
        ProcessMultiplePlans sortSlice load files =
          .error ("error loading plan file " ++ f ++ ": " ++ e)) ∧
      (∀ p, load f = .ok p → p.ResourceChanges = none →
        ProcessMultiplePlans sortSlice load files =
          .error ("error processing plan file " ++ f ++ ": " ++ errTerraformPlanEmpty)) ∧
      (loadsBroken load f → ProcessMultiplePlans sortSlice load files = .panic) := by
    intro pre f post hsplit hpre
    have hlen : ¬ files.length = 0 := by rw [hsplit]; simp
    obtain ⟨j, acc2, hskip⟩ :=
      processPlansFrom_append sortSlice hperm load pre (f :: post) hpre 0 ⟨false, []⟩
    unfold ProcessMultiplePlans
    rw [if_neg hlen, hsplit, hskip]
    exact ⟨fun e he => processPlansFrom_load_error sortSlice load f post e he j acc2,
      fun p hp hrc => processPlansFrom_nil_error sortSlice load f post p hp hrc j acc2,
      fun hb => processPlansFrom_panic sortSlice hperm load f post hb j acc2⟩
  have hempty : files = [] →
      ProcessMultiplePlans sortSlice load files = .error "no plan files provided" := by
    intro h; subst h; rfl
  have hbad : (files = [] ∨ ∃ pre f post, files = pre ++ f :: post ∧
      (∀ g ∈ pre, loadsWell load g) ∧ failsToLoad load f) →
      ∃ e, ProcessMultiplePlans sortSlice load files = .error e := by
    rintro (h | ⟨pre, f, post, hsplit, hpre, hf⟩)
    · exact ⟨_, hempty h⟩
    · rcases hf with ⟨e, he⟩ | ⟨p, hp, hrc⟩
      · exact ⟨_, (hfirst pre f post hsplit hpre).1 e he⟩
      · exact ⟨_, (hfirst pre f post hsplit hpre).2.1 p hp hrc⟩
  have hgood : (files ≠ [] ∧ ∀ f ∈ files, loadsWell load f) →
      ∃ m, ProcessMultiplePlans sortSlice load files = .ok m := by
    rintro ⟨hne, hall⟩
    have hlen : ¬ files.length = 0 := by simpa using hne
    unfold ProcessMultiplePlans
    rw [if_neg hlen]
    exact processPlansFrom_ok sortSlice hperm load files hall 0 ⟨false, []⟩
  have hpanic : (∃ pre f post, files = pre ++ f :: post ∧
      (∀ g ∈ pre, loadsWell load g) ∧ loadsBroken load f) →
      ProcessMultiplePlans sortSlice load files = .panic := by
    rintro ⟨pre, f, post, hsplit, hpre, hf⟩
    exact (hfirst pre f post hsplit hpre).2.2 hf
  have hcases : (files = [] ∨ ∃ pre f post, files = pre ++ f :: post ∧
        (∀ g ∈ pre, loadsWell load g) ∧ failsToLoad load f) ∨
      (files ≠ [] ∧ ∀ f ∈ files, loadsWell load f) ∨
      (∃ pre f post, files = pre ++ f :: post ∧
        (∀ g ∈ pre, loadsWell load g) ∧ loadsBroken load f) := by
    by_cases hne : files = []
    · exact Or.inl (Or.inl hne)
    · rcases first_failure_split load files with hall | ⟨pre, f, post, hsplit, hpre, hf | hf⟩
      · exact Or.inr (Or.inl ⟨hne, hall⟩)
      · exact Or.inl (Or.inr ⟨pre, f, post, hsplit, hpre, hf⟩)
      · exact Or.inr (Or.inr ⟨pre, f, post, hsplit, hpre, hf⟩)
  refine ⟨⟨?_, hbad⟩, ⟨?_, hgood⟩, ⟨?_, hpanic⟩, hempty, hfirst⟩
  · rintro ⟨e, he⟩
    rcases hcases with h | h | h
    · exact h
    · obtain ⟨m, hm⟩ := hgood h
      rw [he] at hm; cases hm
    · have hp := hpanic h
      rw [he] at hp; cases hp
  · rintro ⟨m, hm⟩
    rcases hcases with h | h | h
    · obtain ⟨e, he⟩ := hbad h
      rw [hm] at he; cases he
    · exact h
    · have hp := hpanic h
      rw [hm] at hp; cases hp
  · intro hp
    rcases hcases with h | h | h
    · obtain ⟨e, he⟩ := hbad h
      rw [hp] at he; cases he
    · obtain ⟨m, hm⟩ := hgood h
      rw [hp] at hm; cases hm
    · exact h

/-- C10 on three files of which the second holds a document without a record
list and the third does not load: the error is the one of the second file. -/
theorem ProcessMultiplePlans_error_iff_witness :
    ProcessMultiplePlans insertionSortByAddress sampleLoad ["a.json", "b.json", "c.json"] =
      .error ("error processing plan file b.json: " ++
        "terraform plan unknown appears to be incomplete or in wrong format") :=
  ((ProcessMultiplePlans_error_iff insertionSortByAddress perm_insertionSortByAddress
    sampleLoad ["a.json", "b.json", "c.json"]).2.2.2.2
    ["a.json"] "b.json" ["c.json"] rfl
    (fun g hg => ⟨⟨some []⟩, [], by
      rw [List.mem_singleton] at hg
      subst hg
      exact ⟨rfl, rfl, by simp⟩⟩)).2.1 ⟨none⟩ rfl rfl

/-! ## The multi-plan aggregator: result -/

/-- What the loop adds to the result handed to it: one tagged plan per file,
in order, numbered from the position the loop starts at. -/
theorem processPlansFrom_result (sortSlice : List ResourceChange → List ResourceChange)
    (load : String → Except String Plan) (files : List String)
    (i : Nat) (acc m : MultiPlanData)
    (h : processPlansFrom sortSlice load files i acc = .ok m) :
    ∃ added : List PlanWithIdentifier,
      m.Plans = acc.Plans ++ added ∧ added.length = files.length ∧
      (∀ (j : Nat) (f : String), files[j]? = some f →
        ∃ (plan : Plan) (pd : PlanData), load f = .ok plan ∧
          ProcessPlan sortSlice plan = .ok pd ∧
          added[j]? = some (PlanWithIdentifier.mk ⟨extractPlanName f, f, i + j⟩ pd)) ∧
      (m.HasChanges = true ↔
        acc.HasChanges = true ∨ ∃ p ∈ added, p.Data.HasChanges = true) := by
  induction files generalizing i acc with
  | nil =>
    simp only [processPlansFrom, Outcome.ok.injEq] at h
    subst h
    exact ⟨[], by simp, rfl, by simp, by simp⟩
  | cons f rest ih =>
    cases hl : load f with
    | error e => simp [processPlansFrom, hl] at h
    | ok plan =>
      cases hp : ProcessPlan sortSlice plan with
      | error e => simp [processPlansFrom, hl, hp] at h
      | panic => simp [processPlansFrom, hl, hp] at h
      | ok pd =>
        simp only [processPlansFrom, hl, hp] at h
        obtain ⟨added, hplans, hlen, hidx, hchg⟩ := ih (i + 1) _ h
        refine ⟨⟨⟨extractPlanName f, f, i⟩, pd⟩ :: added, ?_, ?_, ?_, ?_⟩
        · rw [hplans]; simp
        · simp [hlen]
        · intro j g hg
          cases j with
          | zero =>
            simp only [List.getElem?_cons_zero, Option.some.injEq] at hg
            subst hg
            exact ⟨plan, pd, hl, hp, by simp⟩
          | succ j =>
            simp only [List.getElem?_cons_succ] at hg
            obtain ⟨plan2, pd2, h1, h2, h3⟩ := hidx j g hg
            refine ⟨plan2, pd2, h1, h2, ?_⟩
            rw [List.getElem?_cons_succ, h3]
            have : i + 1 + j = i + (j + 1) := by omega
            rw [this]
        · rw [hchg]
          cases hpc : pd.HasChanges <;> simp [hpc]

theorem ProcessMultiplePlans_result (sortSlice : List ResourceChange → List ResourceChange)
    (load : String → Except String Plan)
    (files : List String) (m : MultiPlanData)
    (h : ProcessMultiplePlans sortSlice load files = .ok m) :
    m.Plans.length = files.length ∧
      (∀ (i : Nat) (f : String), files[i]? = some f →
        ∃ (plan : Plan) (pd : PlanData), load f = .ok plan ∧
          ProcessPlan sortSlice plan = .ok pd ∧
          m.Plans[i]? = some (PlanWithIdentifier.mk ⟨extractPlanName f, f, i⟩ pd)) ∧
      (m.HasChanges = true ↔ ∃ p ∈ m.Plans, p.Data.HasChanges = true) := by
  unfold ProcessMultiplePlans at h
  split_ifs at h
  obtain ⟨added, hplans, hlen, hidx, hchg⟩ :=
    processPlansFrom_result sortSlice load files 0 _ m h
  simp only [List.nil_append] at hplans
  subst hplans
  refine ⟨hlen, ?_, by simpa using hchg⟩
  intro i f hf
  obtain ⟨plan, pd, h1, h2, h3⟩ := hidx i f hf
  exact ⟨plan, pd, h1, h2, by simpa using h3⟩

/-- C11: when `ProcessMultiplePlans` succeeds, `Plans` is as long as the list
of files, and its element at each position `i` has `Index` `i`, the `i`-th
path as `FilePath`, `extractPlanName` of that path as `Name`, and as `Data`
the result of `ProcessPlan` on the plan loaded from that path. -/
theorem ProcessMultiplePlans_plans (sortSlice : List ResourceChange → List ResourceChange)
    (load : String → Except String Plan)
    (files : List String) (m : MultiPlanData)
    (h : ProcessMultiplePlans sortSlice load files = .ok m) :
    m.Plans.length = files.length ∧
      ∀ (i : Nat) (f : String), files[i]? = some f →
        ∃ (plan : Plan) (pd : PlanData) (entry : PlanWithIdentifier), load f = .ok plan ∧
          ProcessPlan sortSlice plan = .ok pd ∧
          m.Plans[i]? = some entry ∧ entry.Identifier.Index = i ∧
          entry.Identifier.FilePath = f ∧ entry.Identifier.Name = extractPlanName f ∧
          entry.Data = pd := by
  obtain ⟨hlen, hidx, _⟩ := ProcessMultiplePlans_result sortSlice load files m h
  refine ⟨hlen, ?_⟩
  intro i f hf
  obtain ⟨plan, pd, h1, h2, h3⟩ := hidx i f hf
  exact ⟨plan, pd, _, h1, h2, h3, rfl, rfl, rfl, rfl⟩

/-- C12: when `ProcessMultiplePlans` succeeds, `HasChanges` of the result is
true exactly when `HasChanges` is true in one of the plans it holds. -/
theorem ProcessMultiplePlans_hasChanges_iff
    (sortSlice : List ResourceChange → List ResourceChange)
    (load : String → Except String Plan)
    (files : List String) (m : MultiPlanData)
    (h : ProcessMultiplePlans sortSlice load files = .ok m) :
    m.HasChanges = true ↔ ∃ p ∈ m.Plans, p.Data.HasChanges = true :=
  (ProcessMultiplePlans_result sortSlice load files m h).2.2

/-- C11 on two files: the result holds two plans, and the second is tagged
with position 1, its path and the name `web`. -/
theorem ProcessMultiplePlans_plans_witness :
    ∃ m, ProcessMultiplePlans insertionSortByAddress changeLoad
        ["plans/empty.json", "web.json"] = .ok m ∧
      m.Plans.length = 2 ∧
      ∃ plan pd entry, changeLoad "web.json" = .ok plan ∧
        ProcessPlan insertionSortByAddress plan = .ok pd ∧
        m.Plans[1]? = some entry ∧ entry.Identifier.Index = 1 ∧
        entry.Identifier.FilePath = "web.json" ∧
        entry.Identifier.Name = extractPlanName "web.json" ∧ entry.Data = pd :=
  ⟨_, rfl,
    (ProcessMultiplePlans_plans insertionSortByAddress changeLoad
      ["plans/empty.json", "web.json"] _ rfl).1,
    (ProcessMultiplePlans_plans insertionSortByAddress changeLoad
      ["plans/empty.json", "web.json"] _ rfl).2 1 "web.json" rfl⟩

/-- C12 on two files, the second with a created record: `HasChanges` is true
and a plan of the result has changes. -/
theorem ProcessMultiplePlans_hasChanges_iff_witness :
    ∃ m, ProcessMultiplePlans insertionSortByAddress changeLoad
        ["plans/empty.json", "web.json"] = .ok m ∧
      m.HasChanges = true ∧ ∃ p ∈ m.Plans, p.Data.HasChanges = true :=
  ⟨_, rfl, rfl,
    (ProcessMultiplePlans_hasChanges_iff insertionSortByAddress changeLoad
      ["plans/empty.json", "web.json"] _ rfl).mp rfl⟩

/-! ## Plan names -/

theorem stringsSplit_ne_nil (sep : Char) (l : List Char) : stringsSplit sep l ≠ [] := by
  induction l with
  | nil => simp [stringsSplit]
  | cons c cs ih =>
    unfold stringsSplit
    split_ifs
    · simp
    · split <;> simp

theorem stringsSplit_of_not_mem (sep : Char) (l : List Char) (h : sep ∉ l) :
    stringsSplit sep l = [l] := by
  induction l with
  | nil => rfl
  | cons c cs ih =>
    rw [List.mem_cons, not_or] at h
    have hc : ¬ c = sep := fun e => h.1 e.symm
    unfold stringsSplit
    rw [if_neg hc, ih h.2]

theorem stringsSplit_append_length (sep : Char) (pre rest : List Char) :
    2 ≤ (stringsSplit sep (pre ++ sep :: rest)).length := by
  induction pre with
  | nil =>
    simp only [List.nil_append, stringsSplit, if_true, List.length_cons]
    have := List.length_pos.mpr (stringsSplit_ne_nil sep rest)
    omega
  | cons c cs ih =>
    rw [List.cons_append, stringsSplit]
    split_ifs
    · simp only [List.length_cons]; omega
    · split
      · rename_i hs; rw [hs] at ih; simp at ih
      · rename_i hs; rw [hs] at ih; simpa using ih

theorem getLast?_stringsSplit_append (sep : Char) (pre rest : List Char) :
    (stringsSplit sep (pre ++ sep :: rest)).getLast? = (stringsSplit sep rest).getLast? := by
  induction pre with
  | nil =>
    simp only [List.nil_append, stringsSplit, if_true]
    cases hs : stringsSplit sep rest with
    | nil => exact absurd hs (stringsSplit_ne_nil sep rest)
    | cons x xs => simp [List.getLast?_cons_cons]
  | cons c cs ih =>
    rw [List.cons_append]
    conv_lhs => rw [stringsSplit]
    cases hs : stringsSplit sep (cs ++ sep :: rest) with
    | nil => exact absurd hs (stringsSplit_ne_nil sep _)
    | cons x xs =>
      rw [hs] at ih
      by_cases hc : c = sep
      · rw [if_pos hc, ← ih]
        simp [List.getLast?_cons_cons]
      · rw [if_neg hc]
        simp only []
        rw [← ih]
        cases xs with
        | nil =>
          have := stringsSplit_append_length sep cs rest
          rw [hs] at this
          simp at this
        | cons y ys => simp [List.getLast?_cons_cons]

/-- A path has no separator, or splits at its last separator. -/
theorem last_separator_split (sep : Char) (l : List Char) :
    sep ∉ l ∨ ∃ pre seg, l = pre ++ sep :: seg ∧ sep ∉ seg := by
  induction l with
  | nil => exact Or.inl (List.not_mem_nil sep)
  | cons c cs ih =>
    rcases ih with h | ⟨pre, seg, hsplit, hseg⟩
    · by_cases hc : c = sep
      · exact Or.inr ⟨[], cs, by rw [hc]; rfl, h⟩
      · refine Or.inl ?_
        rw [List.mem_cons, not_or]
        exact ⟨fun e => hc e.symm, h⟩
    · exact Or.inr ⟨c :: pre, seg, by rw [hsplit]; rfl, hseg⟩

/-- The last part of the split of a path is its last segment. -/
theorem getLast?_stringsSplit (l seg : List Char) (hseg : '/' ∉ seg)
    (hl : l = seg ∨ ∃ pre, l = pre ++ '/' :: seg) :
    (stringsSplit '/' l).getLast? = some seg := by
  rcases hl with h | ⟨pre, h⟩
  · rw [h, stringsSplit_of_not_mem '/' seg hseg]; rfl
  · rw [h, getLast?_stringsSplit_append, stringsSplit_of_not_mem '/' seg hseg]; rfl

theorem extractPlanName_of_segment (p : String) (seg : List Char) (hp : p ≠ "")
    (hseg : '/' ∉ seg) (hl : p.data = seg ∨ ∃ pre, p.data = pre ++ '/' :: seg) :
    extractPlanName p =
      if ".json".data.isSuffixOf seg then String.mk (seg.take (seg.length - 5))
      else String.mk seg := by
  unfold extractPlanName
  rw [if_neg hp]
  simp only []
  rw [getLast?_stringsSplit p.data seg hseg hl]

theorem json_suffix_iff (seg : List Char) :
    ".json".data.isSuffixOf seg = true ↔ ∃ stem, seg = stem ++ ".json".data := by
  rw [List.isSuffixOf_iff_suffix]
  constructor
  · rintro ⟨stem, h⟩; exact ⟨stem, h.symm⟩
  · rintro ⟨stem, h⟩; exact ⟨stem, h.symm⟩

/-- C13: `extractPlanName` gives `unknown` for the empty path; for a
non-empty path it gives the segment after the last `/` (the whole path when
there is none) with one trailing `.json` taken off if the segment ends in it;
the result holds no `/`; and a path `d/n.json` with no `/` in `n` gives `n`. -/
theorem extractPlanName_spec :
    extractPlanName "" = "unknown" ∧
      (∀ (p : String) (seg : List Char), p ≠ "" → '/' ∉ seg →
        (p.data = seg ∨ ∃ pre, p.data = pre ++ '/' :: seg) →
        (∀ stem, seg = stem ++ ".json".data → extractPlanName p = String.mk stem) ∧
          ((¬ ∃ stem, seg = stem ++ ".json".data) → extractPlanName p = String.mk seg)) ∧
      (∀ p : String, '/' ∉ (extractPlanName p).data) ∧
      (∀ d n : String, '/' ∉ n.data → extractPlanName (d ++ "/" ++ n ++ ".json") = n) := by
  have hmain : ∀ (p : String) (seg : List Char), p ≠ "" → '/' ∉ seg →
      (p.data = seg ∨ ∃ pre, p.data = pre ++ '/' :: seg) →
      (∀ stem, seg = stem ++ ".json".data → extractPlanName p = String.mk stem) ∧
        ((¬ ∃ stem, seg = stem ++ ".json".data) → extractPlanName p = String.mk seg) := by
    intro p seg hp hseg hl
    rw [extractPlanName_of_segment p seg hp hseg hl]
    constructor
    · intro stem hstem
      rw [if_pos ((json_suffix_iff seg).mpr ⟨stem, hstem⟩), hstem]
      have hlen : (".json".data).length = 5 := rfl
      rw [List.length_append, hlen, Nat.add_sub_cancel, List.take_left']
      rfl
    · intro hno
      rw [if_neg (fun h => hno ((json_suffix_iff seg).mp h))]
  refine ⟨rfl, hmain, ?_, ?_⟩
  · intro p
    by_cases hp : p = ""
    · subst hp; decide
    · have hsplit : ∃ seg, '/' ∉ seg ∧ (p.data = seg ∨ ∃ pre, p.data = pre ++ '/' :: seg) := by
        rcases last_separator_split '/' p.data with h | ⟨pre, seg, h1, h2⟩
        · exact ⟨p.data, h, Or.inl rfl⟩
        · exact ⟨seg, h2, Or.inr ⟨pre, h1⟩⟩
      obtain ⟨seg, hseg, hl⟩ := hsplit
      rw [extractPlanName_of_segment p seg hp hseg hl]
      split_ifs
      · exact fun h => hseg (List.mem_of_mem_take h)
      · exact hseg
  · intro d n hn
    have hdata : (d ++ "/" ++ n ++ ".json").data = d.data ++ '/' :: (n.data ++ ".json".data) := by
      simp [String.data_append]
    have hne : d ++ "/" ++ n ++ ".json" ≠ "" := by
      intro h
      have := congrArg String.data h
      rw [hdata] at this
      simp at this
    have hseg : '/' ∉ n.data ++ ".json".data := by
      rw [List.mem_append, not_or]
      exact ⟨hn, by decide⟩
    exact (hmain _ (n.data ++ ".json".data) hne hseg (Or.inr ⟨d.data, hdata⟩)).1 n.data rfl

/-- C13 on sample paths. -/
theorem extractPlanName_spec_witness :
    extractPlanName "plans/prod/network.json" = "network" ∧
      extractPlanName "plans/prod/network" = "network" ∧
      extractPlanName "network.json.json" = "network.json" :=
  ⟨extractPlanName_spec.2.2.2 "plans/prod" "network" (by decide),
    (extractPlanName_spec.2.1 "plans/prod/network" "network".data (by decide) (by decide)
      (Or.inr ⟨"plans/prod".data, rfl⟩)).2 (by
        rw [← json_suffix_iff]; decide),
    (extractPlanName_spec.2.1 "network.json.json" "network.json.json".data (by decide)
      (by decide) (Or.inl rfl)).1 "network.json".data rfl⟩

/-! ## Rendering of diff entries: claims -/

theorem sortSlice_nil (sortSlice : List ResourceChange → List ResourceChange)
    (hperm : ∀ l, (sortSlice l).Perm l) : sortSlice [] = [] :=
  List.perm_nil.mp (hperm [])

theorem sortSlice_singleton (sortSlice : List ResourceChange → List ResourceChange)
    (hperm : ∀ l, (sortSlice l).Perm l) (r : ResourceChange) : sortSlice [r] = [r] :=
  List.perm_singleton.mp (hperm [r])

/-- C14: on the plan with the record `aws_instance.web` (create, after
`ami = ami-123`) and the record `aws_instance.db` (delete, before
`ami = ami-000`), with `sort.Slice` any function that rearranges a list,
`ProcessPlan` succeeds with `HasChanges` true, one created entry whose only
diff is `ami` added, one deleted entry whose only diff is `ami` removed, and
no updated or recreated entry; the two values render in JSON quotes. -/
theorem ProcessPlan_example (sortSlice : List ResourceChange → List ResourceChange)
    (hperm : ∀ l, (sortSlice l).Perm l) (fmtNum : ℚ → String) :
    ProcessPlan sortSlice ⟨some [some sampleCreate, some sampleDelete]⟩ =
        .ok ⟨true,
          [⟨"aws_instance.web", ActionCreate, [⟨"ami", .null, .str "ami-123", DiffAdded⟩]⟩],
          [], [],
          [⟨"aws_instance.db", ActionDelete, [⟨"ami", .str "ami-000", .null, DiffRemoved⟩]⟩]⟩ ∧
      formatValue fmtNum (.str "ami-123") = "\"ami-123\"" ∧
      formatValue fmtNum (.str "ami-000") = "\"ami-000\"" ∧
      FormattedDiffs fmtNum
          ⟨"aws_instance.web", ActionCreate, [⟨"ami", .null, .str "ami-123", DiffAdded⟩]⟩ =
        ["+ami: \"ami-123\""] ∧
      FormattedDiffs fmtNum
          ⟨"aws_instance.db", ActionDelete, [⟨"ami", .str "ami-000", .null, DiffRemoved⟩]⟩ =
        ["-ami: \"ami-000\""] := by
  have hc : categorizeChanges [some sampleCreate, some sampleDelete] =
      some ⟨[sampleCreate], [], [], [sampleDelete]⟩ := rfl
  refine ⟨?_, rfl, rfl, rfl, rfl⟩
  unfold ProcessPlan
  simp only [hc, buildPlanData, sortSlice_nil sortSlice hperm,
    sortSlice_singleton sortSlice hperm]
  rfl

/-- C14 with an insertion sort for `sort.Slice`. -/
theorem ProcessPlan_example_witness :
    ProcessPlan insertionSortByAddress ⟨some [some sampleCreate, some sampleDelete]⟩ =
        .ok ⟨true,
          [⟨"aws_instance.web", ActionCreate, [⟨"ami", .null, .str "ami-123", DiffAdded⟩]⟩],
          [], [],
          [⟨"aws_instance.db", ActionDelete, [⟨"ami", .str "ami-000", .null, DiffRemoved⟩]⟩]⟩ ∧
      FormattedDiffs sampleNum
          ⟨"aws_instance.web", ActionCreate, [⟨"ami", .null, .str "ami-123", DiffAdded⟩]⟩ =
        ["+ami: \"ami-123\""] :=
  ⟨(ProcessPlan_example insertionSortByAddress perm_insertionSortByAddress sampleNum).1,
    (ProcessPlan_example insertionSortByAddress perm_insertionSortByAddress sampleNum).2.2.2.1⟩

theorem formatStep_append (fmtNum : ℚ → String) (formatted : List String) (d : DiffLine) :
    formatStep fmtNum formatted d = formatted ++ formatStep fmtNum [] d := by
  unfold formatStep
  split_ifs <;> simp

theorem foldl_formatStep (fmtNum : ℚ → String) (diffs : List DiffLine)
    (formatted : List String) :
    diffs.foldl (formatStep fmtNum) formatted =
      formatted ++ diffs.flatMap (formatStep fmtNum []) := by
  induction diffs generalizing formatted with
  | nil => simp
  | cons d ds ih =>
    rw [List.foldl_cons, ih, formatStep_append, List.flatMap_cons, List.append_assoc]

theorem jsonMarshalItems_eq_map (fmtNum : ℚ → String) (items : List JValue) :
    jsonMarshalItems fmtNum items = items.map (jsonMarshal fmtNum) := by
  induction items with
  | nil => rfl
  | cons v rest ih => rw [jsonMarshalItems, ih, List.map_cons]

theorem jsonMarshalFields_eq_map (fmtNum : ℚ → String) (fields : List (String × JValue)) :
    jsonMarshalFields fmtNum fields =
      fields.map (fun kv => (kv.1, jsonMarshal fmtNum kv.2)) := by
  induction fields with
  | nil => rfl
  | cons p rest ih =>
    obtain ⟨k, v⟩ := p
    rw [jsonMarshalFields, ih, List.map_cons]

/-- C19: `FormattedDiffs` is the concatenation, in the order of `Diffs`, of
the line `+key: after` for an added entry, the line `-key: before` for a
removed entry, and the two lines `-key: before`, `+key: after` for a changed
entry; a nil value renders as `null` and any other value as its compact
JSON: `true` and `false`, a string in quotes with its escapes, the zeros as
`0` and `-0` and another number as its text, a sequence as its elements
between brackets and separated by commas, a mapping as its entries
`"key":value` in ascending order of the keys between braces and separated by
commas; the number of lines is the number of added and removed entries plus
twice the number of changed entries. -/
theorem FormattedDiffs_spec (fmtNum : ℚ → String) (rd : ResourceData) :
    FormattedDiffs fmtNum rd =
        rd.Diffs.flatMap (fun d =>
          if d.DiffType = DiffAdded then
            ["+" ++ d.Key ++ ": " ++ formatValue fmtNum d.After]
          else if d.DiffType = DiffRemoved then
            ["-" ++ d.Key ++ ": " ++ formatValue fmtNum d.Before]
          else if d.DiffType = DiffChanged then
            ["-" ++ d.Key ++ ": " ++ formatValue fmtNum d.Before,
              "+" ++ d.Key ++ ": " ++ formatValue fmtNum d.After]
          else []) ∧
      formatValue fmtNum .null = "null" ∧
      (∀ v, v ≠ .null → formatValue fmtNum v = jsonMarshal fmtNum v) ∧
      formatValue fmtNum (.bool true) = "true" ∧
      formatValue fmtNum (.bool false) = "false" ∧
      (∀ s, formatValue fmtNum (.str s) =
        "\"" ++ String.join (s.data.map jsonEscapeChar) ++ "\"") ∧
      formatValue fmtNum (.num ⟨0, false⟩) = "0" ∧
      formatValue fmtNum (.num ⟨0, true⟩) = "-0" ∧
      (∀ n, n.value ≠ 0 → formatValue fmtNum (.num n) = fmtNum n.value) ∧
      (∀ items, formatValue fmtNum (.arr items) =
        "[" ++ String.intercalate "," (items.map (jsonMarshal fmtNum)) ++ "]") ∧
      (∀ fields, formatValue fmtNum (.obj fields) =
        "\x7b" ++ String.intercalate ","
          ((sortByKey (fields.map (fun kv => (kv.1, jsonMarshal fmtNum kv.2)))).map
            (fun kv => jsonString kv.1 ++ ":" ++ kv.2)) ++ "\x7d") ∧
      (∀ fields, (sortByKey fields).Perm fields ∧
        (sortByKey fields).Pairwise (fun x y => strLe x.1 y.1)) ∧
      (FormattedDiffs fmtNum rd).length =
        rd.Diffs.countP (fun d => d.DiffType == DiffAdded) +
          rd.Diffs.countP (fun d => d.DiffType == DiffRemoved) +
          2 * rd.Diffs.countP (fun d => d.DiffType == DiffChanged) := by
  have hflat : FormattedDiffs fmtNum rd = rd.Diffs.flatMap (formatStep fmtNum []) := by
    unfold FormattedDiffs
    rw [foldl_formatStep, List.nil_append]
  refine ⟨?_, rfl, ?_, rfl, rfl, fun _ => rfl, ?_, ?_, ?_, ?_, ?_, ?_, ?_⟩
  · exact hflat
  · intro v hv
    cases v <;> first | exact absurd rfl hv | rfl
  · simp [formatValue, jsonMarshal, jsonNumber]
  · simp [formatValue, jsonMarshal, jsonNumber]
  · intro n hn
    simp [formatValue, jsonMarshal, jsonNumber, hn]
  · intro items
    simp only [formatValue, jsonMarshal, jsonMarshalItems_eq_map]
  · intro fields
    simp only [formatValue, jsonMarshal, jsonMarshalFields_eq_map]
  · intro fields
    haveI : IsTotal (String × String) (fun x y => strLe x.1 y.1) :=
      ⟨fun x y => strLe_total x.1 y.1⟩
    haveI : IsTrans (String × String) (fun x y => strLe x.1 y.1) :=
      ⟨fun x y z => strLe_trans x.1 y.1 z.1⟩
    exact ⟨List.perm_insertionSort _ fields, List.sorted_insertionSort _ fields⟩
  · rw [hflat]
    induction rd.Diffs with
    | nil => simp
    | cons d ds ih =>
      rw [List.flatMap_cons, List.length_append, ih]
      simp only [List.countP_cons]
      unfold formatStep
      by_cases h1 : d.DiffType = DiffAdded
      · simp [h1, DiffAdded, DiffRemoved, DiffChanged]; omega
      · by_cases h2 : d.DiffType = DiffRemoved
        · simp [h2, DiffAdded, DiffRemoved, DiffChanged]; omega
        · by_cases h3 : d.DiffType = DiffChanged
          · simp [h3, DiffAdded, DiffRemoved, DiffChanged]; omega
          · simp [h1, h2, h3]

/-- C19 on an entry list with an added, a changed and a removed entry: four
lines, with a nested value in compact JSON, its keys in ascending order, the
escape of `<`, the negative zero and the literal `null`. -/
theorem FormattedDiffs_spec_witness :
    FormattedDiffs sampleNum
        ⟨"aws_instance.web", ActionUpdate,
          [⟨"ami", .null, .str "ami-123", DiffAdded⟩,
            ⟨"tags",
              .obj [("b", .str "x<y\n"),
                ("a", .arr [.num ⟨7, false⟩, .num ⟨0, true⟩, .null, .bool true, .obj []])],
              .num ⟨0, false⟩, DiffChanged⟩,
            ⟨"zone", .null, .null, DiffRemoved⟩]⟩ =
        ["+ami: \"ami-123\"",
          "-tags: \x7b\"a\":[7,-0,null,true,\x7b\x7d],\"b\":\"x\\u003cy\\n\"\x7d",
          "+tags: 0",
          "-zone: null"] ∧
      formatValue sampleNum (.bool true) = jsonMarshal sampleNum (.bool true) :=
  ⟨(FormattedDiffs_spec sampleNum
      ⟨"aws_instance.web", ActionUpdate,
        [⟨"ami", .null, .str "ami-123", DiffAdded⟩,
          ⟨"tags",
            .obj [("b", .str "x<y\n"),
              ("a", .arr [.num ⟨7, false⟩, .num ⟨0, true⟩, .null, .bool true, .obj []])],
            .num ⟨0, false⟩, DiffChanged⟩,
          ⟨"zone", .null, .null, DiffRemoved⟩]⟩).1.trans (by decide),
    (FormattedDiffs_spec sampleNum ⟨"", "", []⟩).2.2.1 (.bool true) (by simp)⟩

/-! ## Comment body and note update: claims -/

theorem loadAndProcessPlans_no_changes (formatPlan : MultiPlanData → Except String String)
    (sortSlice : List ResourceChange → List ResourceChange)
    (load : String → Except String Plan) (files : List String) (m : MultiPlanData)
    (h : ProcessMultiplePlans sortSlice load files = .ok m) (hc : m.HasChanges = false) :
    loadAndProcessPlans formatPlan sortSlice load files = .ok NoChangesMessage := by
  unfold loadAndProcessPlans
  rw [h]
  simp [hc]

/-- C15: the code at the failing input.  For one plan file whose document has
an empty record list, whatever the template renders and with `sort.Slice`
any function that rearranges a list, the comment body is
`No changes detected.`, which does not pass the prefix test of
`FindExistingPlanNote`. -/
theorem loadAndProcessPlans_no_changes_lacks_header
    (formatPlan : MultiPlanData → Except String String)
    (sortSlice : List ResourceChange → List ResourceChange)
    (hperm : ∀ l, (sortSlice l).Perm l) :
    loadAndProcessPlans formatPlan sortSlice changeLoad ["plans/empty.json"] =
        .ok "No changes detected." ∧
      hasPlanSummary "No changes detected." = false := by
  refine ⟨?_, by decide⟩
  have hp : ProcessPlan sortSlice ⟨some []⟩ = .ok ⟨false, [], [], [], []⟩ := by
    simp [ProcessPlan, categorizeChanges, categorizeLoop, buildPlanData,
      sortSlice_nil sortSlice hperm, buildResourceData]
  have hl : changeLoad "plans/empty.json" = .ok ⟨some []⟩ := rfl
  have hm : ProcessMultiplePlans sortSlice changeLoad ["plans/empty.json"] =
      .ok ⟨false, [⟨⟨extractPlanName "plans/empty.json", "plans/empty.json", 0⟩,
        ⟨false, [], [], [], []⟩⟩]⟩ := by
    simp [ProcessMultiplePlans, processPlansFrom, hl, hp]
  exact loadAndProcessPlans_no_changes formatPlan sortSlice changeLoad _ _ hm rfl

/-- C15 with an insertion sort for `sort.Slice` and a template that renders
the header. -/
theorem loadAndProcessPlans_no_changes_lacks_header_witness :
    loadAndProcessPlans (fun _ => .ok "## Terraform Plan Summary") insertionSortByAddress
        changeLoad ["plans/empty.json"] = .ok "No changes detected." ∧
      hasPlanSummary "No changes detected." = false :=
  loadAndProcessPlans_no_changes_lacks_header (fun _ => .ok "## Terraform Plan Summary")
    insertionSortByAddress perm_insertionSortByAddress

theorem runeEqualFold_self (orbit : Char → Char → Bool) (x : Char) :
    runeEqualFold orbit x x = true := by
  simp [runeEqualFold]

theorem EqualFold_iff (orbit : Char → Char → Bool) (xs ys : List Char) :
    EqualFold orbit xs ys = true ↔
      List.Forall₂ (fun x y => runeEqualFold orbit x y = true) xs ys := by
  induction xs generalizing ys with
  | nil =>
    cases ys with
    | nil => simp [EqualFold]
    | cons y ys => simp [EqualFold]
  | cons x xs ih =>
    cases ys with
    | nil => simp [EqualFold]
    | cons y ys => simp [EqualFold, ih]

theorem EqualFold_self (orbit : Char → Char → Bool) (xs : List Char) :
    EqualFold orbit xs xs = true := by
  induction xs with
  | nil => rfl
  | cons x xs ih => simp [EqualFold, runeEqualFold_self, ih]

/-- C18 (as stated) fails: two bodies whose normal forms differ in the case
of one letter are taken as equal, and `ShouldUpdateNote` returns false. -/
theorem ShouldUpdateNote_case_counterexample :
    ShouldUpdateNote asciiOrbit "name = Web" "name = web" = false ∧
      normalizeContent "name = Web" ≠ normalizeContent "name = web" := by
  decide

/-- C18 (amended): `ShouldUpdateNote` returns false exactly when the two
bodies, after whitespace normalisation, have the same number of characters
and agree position by position up to the case folding of
`strings.EqualFold`; it returns false when the normal forms are equal, and
true when they differ in length or hold, at some position, two characters
that are not equal up to case folding. -/
theorem ShouldUpdateNote_iff (orbit : Char → Char → Bool) (existingBody newBody : String) :
    (ShouldUpdateNote orbit existingBody newBody = false ↔
        List.Forall₂ (fun x y => runeEqualFold orbit x y = true)
          (normalizeContent existingBody).data (normalizeContent newBody).data) ∧
      (normalizeContent existingBody = normalizeContent newBody →
        ShouldUpdateNote orbit existingBody newBody = false) ∧
      ((normalizeContent existingBody).data.length ≠ (normalizeContent newBody).data.length →
        ShouldUpdateNote orbit existingBody newBody = true) ∧
      (∀ (i : Nat) (x y : Char), (normalizeContent existingBody).data[i]? = some x →
        (normalizeContent newBody).data[i]? = some y → runeEqualFold orbit x y = false →
        ShouldUpdateNote orbit existingBody newBody = true) := by
  have hiff : ShouldUpdateNote orbit existingBody newBody = false ↔
      List.Forall₂ (fun x y => runeEqualFold orbit x y = true)
        (normalizeContent existingBody).data (normalizeContent newBody).data := by
    unfold ShouldUpdateNote
    rw [Bool.not_eq_false', EqualFold_iff]
  have htrue : ∀ {P : Prop}, (List.Forall₂ (fun x y => runeEqualFold orbit x y = true)
      (normalizeContent existingBody).data (normalizeContent newBody).data → P) → ¬ P →
      ShouldUpdateNote orbit existingBody newBody = true := by
    intro P himp hnot
    cases hs : ShouldUpdateNote orbit existingBody newBody with
    | true => rfl
    | false => exact absurd (himp (hiff.mp hs)) hnot
  refine ⟨hiff, ?_, ?_, ?_⟩
  · intro heq
    unfold ShouldUpdateNote
    rw [heq, EqualFold_self]
    rfl
  · intro hlen
    exact htrue (fun h => h.length_eq) hlen
  · intro i x y hx hy hxy
    apply htrue (P := runeEqualFold orbit x y = true)
    · intro h
      have := List.forall₂_iff_get.mp h
      have hi1 : i < (normalizeContent existingBody).data.length := by
        by_contra hcon
        rw [List.getElem?_eq_none (by omega)] at hx
        cases hx
      have hi2 : i < (normalizeContent newBody).data.length := by
        by_contra hcon
        rw [List.getElem?_eq_none (by omega)] at hy
        cases hy
      have hget := this.2 i hi1 hi2
      rw [List.getElem?_eq_getElem hi1, Option.some.injEq] at hx
      rw [List.getElem?_eq_getElem hi2, Option.some.injEq] at hy
      simp only [List.get_eq_getElem] at hget
      rw [hx, hy] at hget
      exact hget
    · rw [hxy]; simp

/-- C18 (amended) on sample bodies: bodies that differ in white space only
need no update; bodies that differ in a digit need one. -/
theorem ShouldUpdateNote_iff_witness :
    ShouldUpdateNote asciiOrbit "ami:  ami-123\n" " ami: ami-123" = false ∧
      ShouldUpdateNote asciiOrbit "ami: ami-123" "ami: ami-124" = true :=
  ⟨(ShouldUpdateNote_iff asciiOrbit "ami:  ami-123\n" " ami: ami-123").2.1 (by decide),
    (ShouldUpdateNote_iff asciiOrbit "ami: ami-123" "ami: ami-124").2.2.2 11 '3' '4'
      (by decide) (by decide) (by decide)⟩

/-! ## The note lookup -/

theorem planSummaryTest_eq (body : String) :
    planSummaryTest body = some (hasPlanSummary body) := by
  unfold planSummaryTest hasPlanSummary sliceTo
  by_cases h : (goBytes body).length ≥ (goBytes TerraformPlansSummary).length
  · have h2 : (goBytes TerraformPlansSummary).length ≤ (goBytes body).length := h
    simp [h, h2]
  · simp [h]

theorem hasPlanSummary_iff_prefix (body : String) :
    hasPlanSummary body = true ↔ goBytes TerraformPlansSummary <+: goBytes body := by
  unfold hasPlanSummary
  rw [Bool.and_eq_true, decide_eq_true_eq, decide_eq_true_eq, List.prefix_iff_eq_take]
  constructor
  · rintro ⟨_, h⟩; exact h.symm
  · intro h
    refine ⟨?_, h.symm⟩
    have := congrArg List.length h
    rw [List.length_take] at this
    omega

theorem FindExistingPlanNote_cons_skip (note : Note) (rest : List Note)
    (h : ¬ (note.Internal = true ∧ hasPlanSummary note.Body = true)) :
    FindExistingPlanNote (note :: rest) = FindExistingPlanNote rest := by
  conv_lhs => rw [FindExistingPlanNote]
  rw [planSummaryTest_eq]
  cases hi : note.Internal with
  | false => simp
  | true =>
    cases hp : hasPlanSummary note.Body with
    | false => simp
    | true => exact absurd ⟨hi, hp⟩ h

theorem FindExistingPlanNote_cons_hit (note : Note) (rest : List Note)
    (hi : note.Internal = true) (hp : hasPlanSummary note.Body = true) :
    FindExistingPlanNote (note :: rest) = some ⟨toString note.ID, note.Body, true⟩ := by
  unfold FindExistingPlanNote
  rw [planSummaryTest_eq]
  simp [hi, hp]

theorem FindExistingPlanNote_none_match (notes : List Note)
    (h : ∀ n ∈ notes, ¬ (n.Internal = true ∧ hasPlanSummary n.Body = true)) :
    FindExistingPlanNote notes = some ⟨"", "", false⟩ := by
  induction notes with
  | nil => rfl
  | cons n rest ih =>
    rw [FindExistingPlanNote_cons_skip n rest (h n (List.mem_cons_self n rest))]
    exact ih (fun m hm => h m (List.mem_cons_of_mem n hm))

theorem FindExistingPlanNote_first_match (pre : List Note) (n : Note) (post : List Note)
    (hpre : ∀ m ∈ pre, ¬ (m.Internal = true ∧ hasPlanSummary m.Body = true))
    (hi : n.Internal = true) (hp : hasPlanSummary n.Body = true) :
    FindExistingPlanNote (pre ++ n :: post) = some ⟨toString n.ID, n.Body, true⟩ := by
  induction pre with
  | nil => exact FindExistingPlanNote_cons_hit n post hi hp
  | cons m pre ih =>
    rw [List.cons_append,
      FindExistingPlanNote_cons_skip m _ (hpre m (List.mem_cons_self m pre))]
    exact ih (fun x hx => hpre x (List.mem_cons_of_mem m hx))

/-- A list with a matching note splits at its first matching note. -/
theorem first_match_split (notes : List Note)
    (h : ∃ n ∈ notes, n.Internal = true ∧ hasPlanSummary n.Body = true) :
    ∃ pre n post, notes = pre ++ n :: post ∧
      (∀ m ∈ pre, ¬ (m.Internal = true ∧ hasPlanSummary m.Body = true)) ∧
      n.Internal = true ∧ hasPlanSummary n.Body = true := by
  induction notes with
  | nil => obtain ⟨n, hn, _⟩ := h; cases hn
  | cons x xs ih =>
    by_cases hx : x.Internal = true ∧ hasPlanSummary x.Body = true
    · exact ⟨[], x, xs, rfl, fun m hm => absurd hm (List.not_mem_nil m), hx.1, hx.2⟩
    · obtain ⟨n, hn, hmatch⟩ := h
      have hn2 : n ∈ xs := by
        rcases List.mem_cons.mp hn with e | e
        · subst e; exact absurd hmatch hx
        · exact e
      obtain ⟨pre, y, post, hsplit, hpre, hy⟩ := ih ⟨n, hn2, hmatch⟩
      refine ⟨x :: pre, y, post, by rw [hsplit, List.cons_append], ?_, hy⟩
      intro m hm
      rcases List.mem_cons.mp hm with e | e
      · subst e; exact hx
      · exact hpre m e

/-- C22: the prefix test of `FindExistingPlanNote` never slices a body past
its end and holds exactly when the body starts with the header; the lookup
returns, with `Exists` true, the ID written in decimal and the unchanged body
of the first note in list order that is internal and starts with the header;
it returns `Exists` false exactly when no internal note starts with the
header; a note that is not internal is never returned. -/
theorem FindExistingPlanNote_spec (notes : List Note) :
    (∀ body, planSummaryTest body = some (hasPlanSummary body)) ∧
      (∀ body, hasPlanSummary body = true ↔
        goBytes TerraformPlansSummary <+: goBytes body) ∧
      ∃ r, FindExistingPlanNote notes = some r ∧
        (∀ pre n post, notes = pre ++ n :: post →
          (∀ m ∈ pre, ¬ (m.Internal = true ∧ hasPlanSummary m.Body = true)) →
          n.Internal = true → hasPlanSummary n.Body = true →
          r = ⟨toString n.ID, n.Body, true⟩) ∧
        (r.Exists = false ↔
          ∀ n ∈ notes, ¬ (n.Internal = true ∧ hasPlanSummary n.Body = true)) ∧
        (r.Exists = true → ∃ n ∈ notes, n.Internal = true ∧
          hasPlanSummary n.Body = true ∧ r.ID = toString n.ID ∧ r.Body = n.Body) := by
  refine ⟨planSummaryTest_eq, hasPlanSummary_iff_prefix, ?_⟩
  by_cases hex : ∃ n ∈ notes, n.Internal = true ∧ hasPlanSummary n.Body = true
  · obtain ⟨pre, n, post, hsplit, hpre, hi, hp⟩ := first_match_split notes hex
    have hn : n ∈ notes := by rw [hsplit]; simp
    refine ⟨⟨toString n.ID, n.Body, true⟩, ?_, ?_, ?_, ?_⟩
    · rw [hsplit]; exact FindExistingPlanNote_first_match pre n post hpre hi hp
    · intro pre2 n2 post2 hsplit2 hpre2 hi2 hp2
      have h1 := FindExistingPlanNote_first_match pre n post hpre hi hp
      have h2 := FindExistingPlanNote_first_match pre2 n2 post2 hpre2 hi2 hp2
      rw [← hsplit] at h1
      rw [← hsplit2, h1] at h2
      exact Option.some.inj h2
    · constructor
      · intro h; cases h
      · intro h; exact absurd ⟨hi, hp⟩ (h n hn)
    · intro _
      exact ⟨n, hn, hi, hp, rfl, rfl⟩
  · have hnone : ∀ n ∈ notes, ¬ (n.Internal = true ∧ hasPlanSummary n.Body = true) :=
      fun n hn hm => hex ⟨n, hn, hm⟩
    refine ⟨⟨"", "", false⟩, FindExistingPlanNote_none_match notes hnone, ?_, ?_, ?_⟩
    · intro pre n post hsplit _ hi hp
      exact absurd ⟨hi, hp⟩ (hnone n (by rw [hsplit]; simp))
    · exact ⟨fun _ => hnone, fun _ => rfl⟩
    · intro h; cases h

/-- C22 on the sample notes: the public note with the header and the internal
note without it are passed over, and the first internal note with the header
is returned. -/
theorem FindExistingPlanNote_spec_witness :
    FindExistingPlanNote sampleNotes =
      some ⟨"13", "## Terraform Plan Summary\nfirst", true⟩ :=
  match FindExistingPlanNote_spec sampleNotes with
  | ⟨_, _, r, hr, hfirst, _, _⟩ =>
    hr.trans (congrArg some
      ((hfirst
        [⟨11, "## Terraform Plan Summary\npublic", false⟩, ⟨12, "looks good", true⟩]
        ⟨13, "## Terraform Plan Summary\nfirst", true⟩
        [⟨14, "## Terraform Plan Summary\nsecond", true⟩] rfl
        (by
          intro m hm
          simp only [List.mem_cons, List.mem_singleton, List.not_mem_nil, or_false] at hm
          rcases hm with e | e <;> subst e <;> decide)
        rfl (by decide)).trans rfl))

end Terraform
